import Mathlib

/-!
Curve builders of the vega preparation library

A shallow embedding of the curve constructors of `prep1`, `prep2` and `prepExam`.

* A C++ `double` is an element of a type `α` that has the arithmetic operations and the
  comparisons of `double`; the definitions assume no law of them.  The theorems take for
  `α` either a linearly ordered field, which is exact arithmetic without rounding, or the
  type `Double` of this file: the rational numbers that binary64 arithmetic can reach, every
  operation being the exact operation followed by the rounding `round53` to 53 binary
  digits, ties to even (`round53_spec`, `round53_idem`).  The exponent is not bounded:
  overflow, subnormal numbers, infinities and NaN are outside the model, and so is a
  division by zero, which no theorem over `Double` makes.  The theorems over `Double`
  evaluate the code at concrete inputs.
* The library functions `std::exp`, `std::log` and `std::sqrt` are not part of the
  repository and are parameters `exp log sqrt : α → α` of the definitions that call them;
  the theorems in exact arithmetic take `α = ℝ` and put `Real.exp`, `Real.log` and
  `Real.sqrt` there.
* A decimal literal of the source, such as `0.1`, is written as the quotient `1 / 10` of two
  integers: over `Double` the quotient of two integers below `2 ^ 53` is the `double`
  nearest to the decimal number, which is the value of the literal.
* `PRECONDITION` is `assert`: a failed assertion ends the evaluation.  A computation that
  can fail returns an `Option`, with `none` for a failed assertion and for a read outside
  the bounds of a vector.
* A `std::function<double(double)>` is a `Curve α`, a function `α → Option α`.
* A lambda that a constructor returns is a definition of its own, named after the
  constructor, when it is long; the constructor checks its preconditions and returns it.
* A `while` loop runs through `whileLoop` for at most `fuel` iterations, `fuel` being an
  argument of the function that holds the loop; the theorems give the result for every
  `fuel` from the number of iterations of the loop on.
* The functions `shape1` and `shape2` are defined three times in the repository, as
  `vega::shape1`, `vega::shape2` in `prep1` and as global functions in `prep2` and in
  `prepExam`; the last two are `prep2.shape1`, `prepExam.shape1`, `prepExam.shape2`.
* The two overloads of `vega::forwardFX` are `prep1.forwardFX` and `prepExam.forwardFX`, after
  the modules that define them; the two overloads of `vega::yield` are `yield1` and `yield2`,
  after their files.
* A `std::vector<double>` is a `List α`; an `unsigned` index is a natural number (vectors
  are taken to have fewer than `2^32` elements), and `iI - 1` wraps around at `iI = 0`.
-/

namespace vega

/-! ## Definitions -/

section Definitions

variable {α : Type} [Zero α] [One α] [Add α] [Sub α] [Mul α] [Div α] [Neg α] [NatCast α]
  [Pow α ℕ] [LT α] [LE α] [DecidableRel (fun a b : α => a < b)]
  [DecidableRel (fun a b : α => a ≤ b)] [DecidableEq α]

/-- A curve `std::function<double(double)>`: evaluation may hit a failed assertion. -/
abbrev Curve (α : Type) := α → Option α

/-- The macro `#define PRECONDITION assert`: continue when the condition holds, stop
otherwise. -/
def PRECONDITION (c : Prop) [Decidable c] : Option Unit :=
  if c then some () else none

/-- The constant `const double EPS = 1E-10;` of `prep1.hpp`, `header.hpp` and
`prepExam.cpp`. -/
def EPS : α := 1 / 10000000000

/-- The library function `std::is_sorted(first, last, comp)`: no element `b` that follows an
element `a` directly has `comp(b, a)`. -/
def isSorted (comp : α → α → Bool) : List α → Bool
  | [] => true
  | [_] => true
  | a :: b :: rest => !comp b a && isSorted comp (b :: rest)

/-- The comparator `std::less_equal<double>()`. -/
def lessEqual (a b : α) : Bool := decide (a ≤ b)

/-- The library function `std::lower_bound(first, last, v) - first` on a sorted range: the
index of the first element that is not less than `v`, the length when there is none. -/
def lowerBound : List α → α → Nat
  | [], _ => 0
  | x :: xs, v => if x < v then lowerBound xs v + 1 else 0

/-- The library function `std::upper_bound(first, last, v) - first` on a sorted range: the
index of the first element that is greater than `v`, the length when there is none. -/
def upperBound : List α → α → Nat
  | [], _ => 0
  | x :: xs, v => if v < x then 0 else upperBound xs v + 1

/-- The library function `std::inner_product(first1, last1, first2, init, std::plus, op)`:
walks the first range, reads the second range alongside and adds `op(x, y)` to the
accumulator; reading past the end of the second range fails. -/
def innerProduct : List α → List α → α → (α → α → Option α) → Option α
  | [], _, acc, _ => some acc
  | _ :: _, [], _, _ => none
  | x :: xs, y :: ys, acc, op => do
    let v ← op x y
    innerProduct xs ys (acc + v) op

/-- The expression `iI - 1` on an `unsigned` index: `2^32 - 1` at `iI = 0`. -/
def unsignedPred (iI : Nat) : Nat := if iI = 0 then 4294967295 else iI - 1

/-- The function `vega::shape1` of `prep1/Src/shapes.cpp`. -/
def shape1 (exp : α → α) (dX : α) : Option α := do
  PRECONDITION (dX ≥ 0)
  let dY := if dX > EPS then (1 - exp (-dX)) / dX else (1 - dX / 2 + dX * dX / 6)
  pure dY

/-- The function `vega::shape2` of `prep1/Src/shapes.cpp`. -/
def shape2 (exp : α → α) (dX : α) : Option α := do
  PRECONDITION (dX ≥ 0)
  let dY := if dX > EPS then (1 - exp (-dX) * (1 + dX)) / dX else (dX / 2 - dX * dX / 3)
  pure dY

/-- The function `vega::yield(double dInitialTime)` of `prep1/Src/yield1.cpp`: the yield from
a maturity `T` and a discount factor `dT`. -/
def yield1 (log : α → α) (dInitialTime : α) : α → α → Option α :=
  fun T dT => do
    PRECONDITION (T > dInitialTime + EPS)
    pure (-log dT / (T - dInitialTime))

/-- The function `vega::yield(rDiscount, dInitialTime)` of `prep1/Src/yield2.cpp`: the yield
curve computed from a discount curve. -/
def yield2 (log : α → α) (rDiscount : Curve α) (dInitialTime : α) : Curve α :=
  fun dT => do
    PRECONDITION (dT ≥ dInitialTime)
    if dT < dInitialTime + EPS then
      let d ← rDiscount (dInitialTime + EPS)
      pure ((1 - d) / EPS)
    else
      let d ← rDiscount dT
      pure (-log d / (dT - dInitialTime))

/-- The function `vega::yieldNelsonSiegel` of `prep1/Src/yieldNelsonSiegel.cpp`. -/
def yieldNelsonSiegel (exp : α → α) (dC0 dC1 dC2 dLambda dInitialTime : α) :
    Option (Curve α) := do
  PRECONDITION (dLambda ≥ 0)
  pure fun dT => do
    PRECONDITION (dT ≥ dInitialTime)
    let dX := dLambda * (dT - dInitialTime)
    let s1 ← shape1 exp dX
    let s2 ← shape2 exp dX
    let dY := dC0 + dC1 * s1 + dC2 * s2
    pure dY

/-- The function `vega::discountNelsonSiegel` of `prep1/Src/discountNelsonSiegel.cpp`. -/
def discountNelsonSiegel (exp : α → α) (dC0 dC1 dC2 dLambda dInitialTime : α) :
    Option (Curve α) := do
  PRECONDITION (dLambda ≥ 0)
  let uYield ← yieldNelsonSiegel exp dC0 dC1 dC2 dLambda dInitialTime
  pure fun dT => do
    PRECONDITION (dT ≥ dInitialTime)
    let y ← uYield dT
    pure (exp (-y * (dT - dInitialTime)))

/-- The lambda returned by `vega::discountYieldLinInterp`
(`prep1/Src/discountYieldLinInterp.cpp`, lines 16-29), with its captures as arguments. -/
def discountYieldLinInterpLambda (exp : α → α) (rTimes rDF : List α) (dR dInitialTime : α)
    (uYield : α → α → Option α) : Curve α :=
  fun dT => do
    PRECONDITION (dT ≥ dInitialTime)
    let back ← rTimes.getLast?
    PRECONDITION (dT ≤ back)
    let iI := lowerBound rTimes dT
    let dX0 ← if iI > 0 then rTimes[unsignedPred iI]? else some dInitialTime
    let dX1 ← rTimes[iI]?
    let dW := (dT - dX0) / (dX1 - dX0)
    let dY0 ← if iI > 0 then (do let d ← rDF[unsignedPred iI]?; uYield dX0 d) else some dR
    let dY1 ← (do let d ← rDF[iI]?; uYield dX1 d)
    pure (exp (-(dY0 + dW * (dY1 - dY0)) * (dT - dInitialTime)))

/-- The function `vega::discountYieldLinInterp` of `prep1/Src/discountYieldLinInterp.cpp`. -/
def discountYieldLinInterp (exp log : α → α) (rTimes rDF : List α) (dR dInitialTime : α) :
    Option (Curve α) := do
  PRECONDITION (rTimes.length = rDF.length)
  let front ← rTimes.head?
  PRECONDITION (front > dInitialTime)
  PRECONDITION (isSorted lessEqual rTimes = true)
  let uYield := yield1 log dInitialTime
  pure (discountYieldLinInterpLambda exp rTimes rDF dR dInitialTime uYield)

/-- The lambda returned by `vega::discountLogLinInterp`
(`prep2/Src/discountLogLinInterp.cpp`, lines 14-26), with its captures as arguments. -/
def discountLogLinInterpLambda (exp log : α → α) (rDiscountTimes rDiscountFactors : List α)
    (dInitialTime : α) : Curve α :=
  fun dT => do
    PRECONDITION (dT ≥ dInitialTime)
    let back ← rDiscountTimes.getLast?
    PRECONDITION (dT ≤ back)
    let iI := lowerBound rDiscountTimes dT
    let dX0 ← if iI > 0 then rDiscountTimes[unsignedPred iI]? else some dInitialTime
    let dX1 ← rDiscountTimes[iI]?
    let dW := (dT - dX0) / (dX1 - dX0)
    let dY0 ← if iI > 0 then (do let d ← rDiscountFactors[unsignedPred iI]?; pure (log d))
      else some (log 1)
    let dY1 ← (do let d ← rDiscountFactors[iI]?; pure (log d))
    pure (exp (dY0 + dW * (dY1 - dY0)))

/-- The function `vega::discountLogLinInterp` of `prep2/Src/discountLogLinInterp.cpp`. -/
def discountLogLinInterp (exp log : α → α) (rDiscountTimes rDiscountFactors : List α)
    (dInitialTime : α) : Option (Curve α) := do
  PRECONDITION (isSorted lessEqual rDiscountTimes = true)
  PRECONDITION (rDiscountTimes.length = rDiscountFactors.length)
  let front ← rDiscountTimes.head?
  PRECONDITION (front > dInitialTime)
  pure (discountLogLinInterpLambda exp log rDiscountTimes rDiscountFactors dInitialTime)

/-- The lambda returned by `vega::volatilityVarLinInterp`
(`prep2/Src/volatilityVarLinInterp.cpp`, lines 14-32), with its captures as arguments. -/
def volatilityVarLinInterpLambda (rTimes rVols : List α) (dInitialTime : α) : Curve α :=
  fun dT => do
    PRECONDITION (dT ≥ dInitialTime)
    let back ← rTimes.getLast?
    PRECONDITION (dT ≤ back)
    let t1 ← rTimes[1]?
    if dT ≤ t1 ∧ dT ≥ dInitialTime then
      rVols[1]?
    else
      let iI := lowerBound rTimes dT
      let dX0 ← if iI > 0 then rTimes[unsignedPred iI]? else some dInitialTime
      let dX1 ← rTimes[iI]?
      let dW := (dT - dX0) / (dX1 - dX0)
      let dY0 ← rVols[unsignedPred iI]?
      let dY1 ← rVols[iI]?
      pure (dY0 + dW * (dY1 - dY0))

/-- The function `vega::volatilityVarLinInterp` of `prep2/Src/volatilityVarLinInterp.cpp`. -/
def volatilityVarLinInterp (rTimes rVols : List α) (dInitialTime : α) :
    Option (Curve α) := do
  PRECONDITION (rTimes.length = rVols.length)
  let front ← rTimes.head?
  PRECONDITION (front > dInitialTime)
  PRECONDITION (isSorted lessEqual rTimes = true)
  pure (volatilityVarLinInterpLambda rTimes rVols dInitialTime)

/-- The function `vega::costOfCarry` of `prepExam/Src/prepExam.cpp`: the cost-of-carry rate
from a forward price `dFofT` and a maturity `dT`. -/
def costOfCarry (log : α → α) (dSpot dInitialTime : α) : α → α → Option α :=
  fun dFofT dT => do
    PRECONDITION (dT ≥ dInitialTime)
    let dY :=
      if dT - dInitialTime < EPS then log (dFofT / dSpot) / EPS
      else log (dFofT / dSpot) / (dT - dInitialTime)
    pure dY

/-- The lambda returned by `vega::forwardCarryLinInterp` (`prepExam/Src/prepExam.cpp`,
lines 137-157), with its captures as arguments. -/
def forwardCarryLinInterpLambda (exp : α → α) (dSpot : α)
    (rDeliveryTimes rForwardPrices : List α) (dInitialTime : α)
    (uCostOfCarry : α → α → Option α) : Curve α :=
  fun dT => do
    PRECONDITION (dT ≥ dInitialTime)
    let back ← rDeliveryTimes.getLast?
    PRECONDITION (dT ≤ back)
    let t1 ← rDeliveryTimes[0]?
    if dT ≤ t1 ∧ dT ≥ dInitialTime then
      let f ← rForwardPrices[0]?
      let c ← uCostOfCarry f dT
      pure (dSpot * exp (c * (dT - dInitialTime)))
    else
      let iI := lowerBound rDeliveryTimes dT
      let dX0 ← if iI > 0 then rDeliveryTimes[unsignedPred iI]? else some dInitialTime
      let dX1 ← rDeliveryTimes[iI]?
      let dW := (dT - dX0) / (dX1 - dX0)
      let dY0 ← (do let f ← rForwardPrices[unsignedPred iI]?; uCostOfCarry f dX0)
      let dY1 ← (do let f ← rForwardPrices[iI]?; uCostOfCarry f dX1)
      pure (dSpot * exp ((dY0 + dW * (dY1 - dY0)) * (dT - dInitialTime)))

/-- The function `vega::forwardCarryLinInterp` of `prepExam/Src/prepExam.cpp`. -/
def forwardCarryLinInterp (exp log : α → α) (dSpot : α) (rDeliveryTimes rForwardPrices : List α)
    (dInitialTime : α) : Option (Curve α) := do
  PRECONDITION (rDeliveryTimes.length = rForwardPrices.length)
  let front ← rDeliveryTimes.head?
  PRECONDITION (front > dInitialTime)
  PRECONDITION (isSorted lessEqual rDeliveryTimes = true)
  let uCostOfCarry := costOfCarry log dSpot dInitialTime
  pure (forwardCarryLinInterpLambda exp dSpot rDeliveryTimes rForwardPrices dInitialTime
    uCostOfCarry)

/-- The function `vega::forwardCashFlow` of `prep1/Src/forwardCashFlow.cpp`. -/
def forwardCashFlow (rPayments rPaymentTimes : List α) (rDiscount : Curve α) :
    Option (Curve α) := do
  PRECONDITION (isSorted lessEqual rPaymentTimes = true)
  PRECONDITION (rPayments.length = rPaymentTimes.length)
  pure fun dT => do
    let back ← rPaymentTimes.getLast?
    PRECONDITION (dT ≤ back)
    let iTime := upperBound rPaymentTimes dT
    let dSum ← innerProduct (rPayments.drop iTime) (rPaymentTimes.drop iTime) 0
      (fun dP dT => do let d ← rDiscount dT; pure (dP * d))
    let d ← rDiscount dT
    pure (dSum / d)

/-- A loop `while (cond) body`, run for at most `fuel` iterations: the state at which the
guard fails; `none` when the guard still holds after `fuel` iterations, or when the body
fails. -/
def whileLoop {σ : Type} (cond : σ → Bool) (body : σ → Option σ) : Nat → σ → Option σ
  | 0, s => if cond s then none else some s
  | fuel + 1, s => if cond s then (body s).bind (whileLoop cond body fuel) else some s

/-- The function `vega::forwardStockDividends` of `prep2/Src/forwardStockDividends.cpp`. -/
def forwardStockDividends (dSpot : α) (rDividendsTimes rDividends : List α)
    (rDiscount : Curve α) : Option (Curve α) := do
  PRECONDITION (isSorted lessEqual rDividendsTimes = true)
  PRECONDITION (rDividends.length = rDividendsTimes.length)
  pure fun dT => do
    let back ← rDividendsTimes.getLast?
    PRECONDITION (dT ≤ back)
    let iTime := upperBound rDividendsTimes dT
    let dSum ← innerProduct (rDividends.take iTime) rDividendsTimes 0
      (fun dDividends dTimes => do
        let d ← rDiscount dTimes
        let d0 ← rDiscount dT
        pure (dDividends * d / d0))
    let d0 ← rDiscount dT
    let dF := dSpot / d0 - dSum
    pure dF

/-- The function `vega::forwardCouponBond` of `prep1/Src/forwardCouponBond.cpp`.  The state
of its `while` loop is the pair `(dPayTime, dSum)`; `fuel` bounds the number of iterations
of the loop. -/
def forwardCouponBond (fuel : Nat) (dRate dPeriod dMaturity : α) (rDiscount : Curve α)
    (bClean : Bool) : Curve α :=
  fun dT => do
    let (dPayTime, dSum) ← whileLoop (fun s => decide (s.1 > dT))
      (fun s => do let d ← rDiscount s.1; pure (s.1 - dPeriod, s.2 + d)) fuel (dMaturity, 0)
    let dPayment := dRate * dPeriod
    let dSum := dSum * dPayment
    let dM ← rDiscount dMaturity
    let dSum := dSum + dM
    let d0 ← rDiscount dT
    let dF := dSum / d0
    let dF := if bClean then dF - dRate * (dT - dPayTime) else dF
    pure dF

/-- The function `vega::forwardAnnuity` of `prep2/Src/forwardAnnuity.cpp`.  The state of its
`while` loop is the pair `(dPayTime, dSum)`; `fuel` bounds the number of iterations of the
loop. -/
def forwardAnnuity (fuel : Nat) (dRate dPeriod dMaturity : α) (rDiscount : Curve α)
    (bClean : Bool) : Curve α :=
  fun dT => do
    let (dPayTime, dSum) ← whileLoop (fun s => decide (s.1 > dT))
      (fun s => do let d ← rDiscount s.1; pure (s.1 - dPeriod, s.2 + d)) fuel (dMaturity, 0)
    let dPayment := dRate * dPeriod
    let dSum := dSum * dPayment
    let d0 ← rDiscount dT
    let dF := dSum / d0
    let dF := if bClean then dF - dRate * (dT - dPayTime) else dF
    pure dF

/-- The loop `for (unsigned i = 0; i < iNumberOfPayments; ++i) dSum += rDiscount(dT +
(i+1)*dPeriod)` of `vega::forwardSwapRate`, from the counter `i` on, with `n` iterations
left. -/
def swapSum (rDiscount : Curve α) (dPeriod dT : α) : Nat → Nat → α → Option α
  | 0, _, dSum => some dSum
  | n + 1, i, dSum => do
    let d ← rDiscount (dT + ((i + 1 : Nat) : α) * dPeriod)
    swapSum rDiscount dPeriod dT n (i + 1) (dSum + d)

/-- The function `vega::forwardSwapRate` of `prep2/Src/forwardSwapRate.cpp`. -/
def forwardSwapRate (dPeriod : α) (iNumberOfPayments : Nat) (rDiscount : Curve α) : Curve α :=
  fun dT => do
    let dSum ← swapSum rDiscount dPeriod dT iNumberOfPayments 0 0
    let d0 ← rDiscount dT
    let dN ← rDiscount (dT + (iNumberOfPayments : α) * dPeriod)
    pure ((d0 - dN) / (dSum * dPeriod))

/-- The function `vega::forwardLibor` of `prepExam/Src/prepExam.cpp`. -/
def forwardLibor (dLiborPeriod : α) (rDiscount : Curve α) : Curve α :=
  fun dT => do
    let dNext ← rDiscount (dT + dLiborPeriod)
    let dDicountsRatio ←
      if dNext < EPS then (do
        let d ← rDiscount dT
        pure (d / EPS))
      else (do
        let d ← rDiscount dT
        let dN ← rDiscount (dT + dLiborPeriod)
        pure (d / dN))
    let dY :=
      if dLiborPeriod > EPS then (dDicountsRatio - 1) / dLiborPeriod
      else (dDicountsRatio - 1) / EPS
    pure dY

/-- The function `vega::forwardFX(dSpotFX)` of `prep1/Src/forwardFX.cpp`: the forward
exchange rate from a domestic (first argument) and a foreign (second argument) discount
factor. -/
def prep1.forwardFX (dSpotFX : α) : α → α → Option α :=
  fun dDom dFor => do
    PRECONDITION (dDom > EPS)
    pure (dSpotFX * dFor / dDom)

/-- The function `vega::forwardFX(dSpotFX, rDomesticDiscount, rForeignDiscount)` of
`prepExam/Src/prepExam.cpp`. -/
def prepExam.forwardFX (dSpotFX : α) (rDomesticDiscount rForeignDiscount : Curve α) :
    Curve α :=
  fun dT => do
    let dDom ← rDomesticDiscount dT
    if dDom < EPS then
      let dFor ← rForeignDiscount dT
      pure (dSpotFX * dFor / EPS)
    else
      let dFor ← rForeignDiscount dT
      let dDom1 ← rDomesticDiscount dT
      pure (dSpotFX * dFor / dDom1)

/-- The function `shape1` of `prepExam/Src/prepExam.cpp`. -/
def prepExam.shape1 (exp : α → α) (dX : α) : Option α := do
  PRECONDITION (dX ≥ 0)
  let dY := if dX > EPS then (1 - exp (-dX)) / dX else (1 - dX / 2 + dX * dX / 6)
  pure dY

/-- The function `shape2` of `prepExam/Src/prepExam.cpp`. -/
def prepExam.shape2 (exp : α → α) (dX : α) : Option α := do
  PRECONDITION (dX ≥ 0)
  let dY := if dX > EPS then (1 - exp (-dX) * (1 + dX)) / dX else (dX / 2 - dX * dX / 3)
  pure dY

/-- The function `vega::yieldSvensson` of `prepExam/Src/prepExam.cpp`. -/
def yieldSvensson (exp : α → α) (dC0 dC1 dC2 dC3 dLambda1 dLambda2 dInitialTime : α) :
    Option (Curve α) := do
  PRECONDITION (dLambda1 ≠ dLambda2)
  pure fun dT => do
    PRECONDITION (dT ≥ dInitialTime)
    let dX1 := dLambda1 * (dT - dInitialTime)
    let dX2 := dLambda2 * (dT - dInitialTime)
    let s1 ← prepExam.shape1 exp dX1
    let s2 ← prepExam.shape2 exp dX1
    let s3 ← prepExam.shape2 exp dX2
    let dY := dC0 + dC1 * s1 + dC2 * s2 + dC3 * s3
    pure dY

/-- The function `shape1` of `prep2/Src/shapes.cpp`. -/
def prep2.shape1 (exp : α → α) (dX : α) : Option α := do
  PRECONDITION (dX ≥ 0)
  let dY := if dX > EPS then (1 - exp (-dX)) / dX else (1 - dX / 2 + dX * dX / 6)
  pure dY

/-- The function `vega::yieldVasicek` of `prep2/Src/yieldVasicek.cpp`; `std::pow(x, 2)` is the
square `x ^ 2`. -/
def yieldVasicek (exp : α → α) (dTheta dLambda dSigma dR0 dInitialTime : α) :
    Option (Curve α) := do
  PRECONDITION (dLambda > 0)
  PRECONDITION (dSigma > 0)
  pure fun dT => do
    PRECONDITION (dT ≥ dInitialTime)
    let dX := dLambda * (dT - dInitialTime)
    let dSigmato2over2 := dSigma ^ 2 / 2
    let dLambdato2 := dLambda ^ 2
    let a1 ← prep2.shape1 exp dX
    let a2 ← prep2.shape1 exp dX
    let a3 ← prep2.shape1 exp dX
    let b ← prep2.shape1 exp (2 * dX)
    let dY := dR0 * a1 + (dTheta / dLambda) * (1 - a2) -
      (dSigmato2over2 / dLambdato2) * (1 - 2 * a3 + b)
    pure dY

/-- The function `vega::discountVasicek` of `prep2/Src/discountVasicek.cpp`. -/
def discountVasicek (exp : α → α) (dTheta dLambda dSigma dR0 dInitialTime : α) :
    Option (Curve α) := do
  PRECONDITION (dLambda > 0)
  PRECONDITION (dSigma > 0)
  let uYieldVasicek ← yieldVasicek exp dTheta dLambda dSigma dR0 dInitialTime
  pure fun dT => do
    PRECONDITION (dT ≥ dInitialTime)
    let y ← uYieldVasicek dT
    pure (exp (-y * (dT - dInitialTime)))

/-- The function `vega::volatilityHullWhite` of `prep2/Src/volatilityHullWhite.cpp`, with the
library function `std::sqrt` as the parameter `sqrt`; `std::pow(x, n)` is the power `x ^ n`.
The curve takes the option maturity `dS` and the bond maturity `dT`. -/
def volatilityHullWhite (exp sqrt : α → α) (dSigma dLambda dInitialTime : α) :
    Option (α → α → Option α) := do
  PRECONDITION (dLambda ≥ 0)
  PRECONDITION (dSigma > 0)
  pure fun dS dT => do
    PRECONDITION (dS ≥ dInitialTime ∧ dS < dT)
    let dX := dLambda * (dS - dInitialTime)
    let dZ := dLambda * (dT - dS)
    let dTminusdS := dT - dS
    let dY ←
      if dLambda ≠ 0 then (do
        let s ← prep2.shape1 exp (2 * dX)
        pure (dSigma * ((1 - exp (-dZ)) / dLambda) * sqrt s))
      else (do
        let s ← prep2.shape1 exp (2 * dX)
        pure (dSigma * (dTminusdS - dTminusdS ^ 2 * dLambda / 2
          + dTminusdS ^ 3 * dLambda ^ 2 / 6 - dTminusdS ^ 4 * dLambda ^ 3 / 24) * sqrt s))
    pure dY

/-- The function `vega::volatilityVar` of `prep2/Src/volatilityVar.cpp`, with the library
function `std::sqrt` as the parameter `sqrt`. -/
def volatilityVar (sqrt : α → α) (rVar : Curve α) (dInitialTime : α) : Curve α :=
  fun dT => do
    PRECONDITION (dT ≥ dInitialTime)
    if dT ≠ dInitialTime then
      let v ← rVar dT
      pure (sqrt (v / (dT - dInitialTime)))
    else
      let v ← rVar (dInitialTime + EPS)
      let dSigma := sqrt (v / EPS)
      pure dSigma

/-- The function `vega::volatilityBlack` of `prepExam/Src/prepExam.cpp`, with the library
function `std::sqrt` as the parameter `sqrt`. -/
def volatilityBlack (exp sqrt : α → α) (dSigma dLambda dInitialTime : α) :
    Option (Curve α) := do
  PRECONDITION (dLambda ≥ 0)
  PRECONDITION (dSigma > 0)
  pure fun dT => do
    PRECONDITION (dT ≥ dInitialTime)
    let dX := dLambda * (dT - dInitialTime)
    let s ← prepExam.shape1 exp (2 * dX)
    let dY := dSigma * sqrt s
    pure dY

/-- The lambda `uVol` of the test `volatilityVar` of `prep2/Src/test_prep2.cpp`: the
volatility `dSigma * (1 + (t - t0))`. -/
def test.volatilityVar.uVol (dSigma dInitialTime : α) : α → α :=
  fun dT => dSigma * (1 + (dT - dInitialTime))

/-- The lambda `uVar` of the test `volatilityVar` of `prep2/Src/test_prep2.cpp`: the
variance of the volatility `uVol`. -/
def test.volatilityVar.uVar (dInitialTime : α) (uVol : α → α) : Curve α :=
  fun dT =>
    let dSigma := uVol dT
    pure (dSigma * dSigma * (dT - dInitialTime))

end Definitions

/-! ### Binary64 arithmetic -/

/-- The number of binary digits of `n`, for every `n ≤ fuel`: `0` for `0`, and `k` for
`2 ^ (k - 1) ≤ n < 2 ^ k`. -/
def bitLen : Nat → Nat → Nat
  | 0, _ => 0
  | fuel + 1, n => if n = 0 then 0 else bitLen fuel (n / 2) + 1

/-- The integer nearest to `q`, and the even one of the two nearest when `q` lies half-way
between them. -/
def roundHalfEven (q : ℚ) : ℤ :=
  let f := ⌊q⌋
  if q - f < 1 / 2 then f
  else if 1 / 2 < q - f then f + 1
  else if f % 2 = 0 then f else f + 1

/-- The binary exponent of a rational `q ≠ 0`: the integer `e` with `2 ^ e ≤ |q| < 2 ^ (e + 1)`.
The quotient of a numerator of `a` binary digits by a denominator of `b` binary digits lies
between `2 ^ (a - b - 1)` and `2 ^ (a - b + 1)`. -/
def binExp (q : ℚ) : ℤ :=
  let e : ℤ := (bitLen q.num.natAbs q.num.natAbs : ℤ) - (bitLen q.den q.den : ℤ)
  if |q| < (2 : ℚ) ^ e then e - 1 else e

/-- The rounding of IEEE 754 binary64 arithmetic in its default mode: the nearest number with
a significand of 53 binary digits, ties to the even significand.  The exponent is not
bounded: overflow and the subnormal numbers are outside the model. -/
def round53 (q : ℚ) : ℚ :=
  if q = 0 then 0 else
    let e := binExp q - 52
    roundHalfEven (q / (2 : ℚ) ^ e) * (2 : ℚ) ^ e

/-- A finite C++ `double`: the rational number it stands for, which is the rounding of some
rational number.  Infinities and NaN are outside the model. -/
structure Double where
  /-- The value of the number. -/
  val : ℚ
  /-- The value is a rounded number. -/
  rounded : ∃ q : ℚ, round53 q = val

/-- The `double` nearest to a rational number. -/
def Double.ofRat (q : ℚ) : Double := ⟨round53 q, q, rfl⟩

instance : DecidableEq Double := fun a b =>
  decidable_of_iff (a.val = b.val)
    ⟨fun h => by cases a; cases b; cases h; rfl, fun h => by rw [h]⟩

/-- The literal `0.`. -/
instance : Zero Double := ⟨Double.ofRat 0⟩

/-- The literal `1.`. -/
instance : One Double := ⟨Double.ofRat 1⟩

/-- The conversion of an integer literal or of an `unsigned` to `double`. -/
instance : NatCast Double := ⟨fun n => Double.ofRat n⟩

/-- The operator `+` of `double`: the exact sum, rounded. -/
instance : Add Double := ⟨fun a b => Double.ofRat (a.val + b.val)⟩

/-- The operator `-` of `double`: the exact difference, rounded. -/
instance : Sub Double := ⟨fun a b => Double.ofRat (a.val - b.val)⟩

/-- The operator `*` of `double`: the exact product, rounded. -/
instance : Mul Double := ⟨fun a b => Double.ofRat (a.val * b.val)⟩

/-- The operator `/` of `double`: the exact quotient, rounded.  A division by zero, which
gives an infinity or NaN in C++, is outside the model. -/
instance : Div Double := ⟨fun a b => Double.ofRat (a.val / b.val)⟩

/-- The unary operator `-` of `double`. -/
instance : Neg Double := ⟨fun a => Double.ofRat (-a.val)⟩

/-- The operator `<` of `double`. -/
instance : LT Double := ⟨fun a b => a.val < b.val⟩

/-- The operator `<=` of `double`. -/
instance : LE Double := ⟨fun a b => a.val ≤ b.val⟩

instance : DecidableRel (fun a b : Double => a < b) :=
  fun a b => inferInstanceAs (Decidable (a.val < b.val))

instance : DecidableRel (fun a b : Double => a ≤ b) :=
  fun a b => inferInstanceAs (Decidable (a.val ≤ b.val))

variable {α : Type} [LinearOrderedField α]

/-! ## Sorted vectors and the binary searches -/

theorem pairwise_of_isSorted : ∀ (xs : List α), isSorted lessEqual xs = true → xs.Pairwise (· < ·)
  | [], _ => List.Pairwise.nil
  | [a], _ => List.pairwise_singleton _ a
  | a :: b :: rest, h => by
    simp only [isSorted, lessEqual, Bool.and_eq_true, Bool.not_eq_true', decide_eq_false_iff_not,
      not_le] at h
    have ih := pairwise_of_isSorted (b :: rest) h.2
    rw [List.pairwise_cons]
    refine ⟨?_, ih⟩
    intro c hc
    rcases List.mem_cons.1 hc with rfl | hc
    · exact h.1
    · exact lt_trans h.1 (List.rel_of_pairwise_cons ih hc)

theorem isSorted_of_pairwise : ∀ (xs : List α), xs.Pairwise (· < ·) → isSorted lessEqual xs = true
  | [], _ => rfl
  | [_], _ => rfl
  | a :: b :: rest, h => by
    rw [List.pairwise_cons] at h
    simp only [isSorted, lessEqual, Bool.and_eq_true, Bool.not_eq_true', decide_eq_false_iff_not,
      not_le]
    exact ⟨h.1 b (List.mem_cons_self _ _), isSorted_of_pairwise (b :: rest) h.2⟩

theorem lowerBound_eq_of_bracket (t : α) : ∀ (xs : List α) (i : Nat) (x : α),
    xs[i]? = some x → (∀ j y, j < i → xs[j]? = some y → y < t) → t ≤ x → lowerBound xs t = i
  | [], i, x, h, _, _ => by simp at h
  | a :: xs, 0, x, h, _, hx => by
    simp only [List.getElem?_cons_zero, Option.some.injEq] at h
    subst h
    simp [lowerBound, not_lt.2 hx]
  | a :: xs, i + 1, x, h, hlo, hx => by
    have ha : a < t := hlo 0 a (Nat.succ_pos i) (by simp)
    simp only [List.getElem?_cons_succ] at h
    have ih := lowerBound_eq_of_bracket t xs i x h
      (fun j y hj hy => hlo (j + 1) y (Nat.succ_lt_succ hj) (by simpa using hy)) hx
    simp [lowerBound, ha, ih]

theorem getElem?_lt_of_pairwise {xs : List α} (hs : xs.Pairwise (· < ·)) {j i : Nat} {y x : α}
    (hji : j < i) (hy : xs[j]? = some y) (hx : xs[i]? = some x) : y < x := by
  rw [List.pairwise_iff_getElem] at hs
  obtain ⟨hj, rfl⟩ := List.getElem?_eq_some.1 hy
  obtain ⟨hi, rfl⟩ := List.getElem?_eq_some.1 hx
  exact hs j i hj hi hji

theorem lowerBound_lt_length (t : α) : ∀ (xs : List α) (b : α),
    xs.getLast? = some b → t ≤ b → lowerBound xs t < xs.length
  | [], b, h, _ => by simp at h
  | [a], b, h, hb => by
    simp only [List.getLast?_singleton, Option.some.injEq] at h
    subst h
    simp [lowerBound, not_lt.2 hb]
  | a :: c :: xs, b, h, hb => by
    rw [List.getLast?_cons_cons] at h
    have ih := lowerBound_lt_length t (c :: xs) b h hb
    by_cases ha : a < t
    · rw [lowerBound, if_pos ha]
      simpa using ih
    · rw [lowerBound, if_neg ha]
      simp

theorem getElem?_le_getLast {xs : List α} (hs : xs.Pairwise (· < ·)) {i : Nat} {x b : α}
    (hx : xs[i]? = some x) (hb : xs.getLast? = some b) : x ≤ b := by
  obtain ⟨hi, rfl⟩ := List.getElem?_eq_some.1 hx
  rw [List.getLast?_eq_getElem?] at hb
  rcases Nat.lt_or_ge i (xs.length - 1) with h | h
  · exact le_of_lt (getElem?_lt_of_pairwise hs h (List.getElem?_eq_getElem hi) hb)
  · have : i = xs.length - 1 := by omega
    subst this
    rw [List.getElem?_eq_getElem hi] at hb
    exact le_of_eq (Option.some.inj hb)

theorem lowerBound_le_getElem? (t : α) : ∀ (xs : List α) (x : α),
    xs[lowerBound xs t]? = some x → t ≤ x
  | [], x, h => by simp at h
  | a :: xs, x, h => by
    by_cases ha : a < t
    · rw [lowerBound, if_pos ha, List.getElem?_cons_succ] at h
      exact lowerBound_le_getElem? t xs x h
    · rw [lowerBound, if_neg ha, List.getElem?_cons_zero] at h
      rw [← Option.some.inj h]
      exact not_lt.1 ha

theorem getElem?_lt_of_lt_lowerBound (t : α) : ∀ (xs : List α) (j : Nat) (y : α),
    j < lowerBound xs t → xs[j]? = some y → y < t
  | [], j, y, h, _ => by simp [lowerBound] at h
  | a :: xs, j, y, h, hy => by
    by_cases ha : a < t
    · rw [lowerBound, if_pos ha] at h
      cases j with
      | zero =>
        rw [List.getElem?_cons_zero] at hy
        rw [← Option.some.inj hy]; exact ha
      | succ j =>
        rw [List.getElem?_cons_succ] at hy
        exact getElem?_lt_of_lt_lowerBound t xs j y (by omega) hy
    · rw [lowerBound, if_neg ha] at h
      omega

/-! ## The constant `EPS` -/

theorem EPS_pos : (0 : α) < EPS := by
  unfold EPS
  positivity

/-! ## Preconditions -/

theorem PRECONDITION_pos {c : Prop} [Decidable c] (h : c) : PRECONDITION c = some () := by
  simp [PRECONDITION, h]

theorem PRECONDITION_neg {c : Prop} [Decidable c] (h : ¬c) : PRECONDITION c = none := by
  simp [PRECONDITION, h]

/-! ## Yield from a discount curve -/

theorem yield2_of_exp (D : Curve ℝ) (t0 t y : ℝ) (ht : t ≥ t0 + EPS)
    (hD : D t = some (Real.exp (-y * (t - t0)))) : yield2 Real.log D t0 t = some y := by
  have hpos : (0 : ℝ) < EPS := EPS_pos
  have h1 : t ≥ t0 := by linarith
  have h2 : ¬ t < t0 + EPS := not_lt.2 ht
  have h3 : t - t0 ≠ 0 := by linarith
  simp only [yield2, PRECONDITION_pos h1, if_neg h2, hD, Option.bind_eq_bind, Option.some_bind,
    Option.pure_def, Real.log_exp, Option.some.injEq]
  field_simp

theorem shape1_isSome (exp : α → α) (x : α) (hx : 0 ≤ x) : ∃ s, shape1 exp x = some s := by
  simp [shape1, PRECONDITION_pos (show x ≥ 0 from hx)]

theorem shape2_isSome (exp : α → α) (x : α) (hx : 0 ≤ x) : ∃ s, shape2 exp x = some s := by
  simp [shape2, PRECONDITION_pos (show x ≥ 0 from hx)]

/-- C1: the yield curve built from the discount curve `D(u) = exp(-g(u) * (u - t0))` returns
`g(t)` at every `t ≥ t0 + EPS`; with `lambda ≥ 0` the yield curve built from the
Nelson-Siegel discount curve has the value of the Nelson-Siegel yield curve at `t`; and the
flat discount curve of rate `r` gives back `r`. -/
theorem yield_roundtrip_discount (g : ℝ → ℝ) (c0 c1 c2 lam r t0 t : ℝ)
    (ht : t ≥ t0 + EPS) (hlam : lam ≥ 0) :
    yield2 Real.log (fun u => some (Real.exp (-g u * (u - t0)))) t0 t = some (g t)
    ∧ (∃ D Y y, discountNelsonSiegel Real.exp c0 c1 c2 lam t0 = some D
        ∧ yieldNelsonSiegel Real.exp c0 c1 c2 lam t0 = some Y
        ∧ Y t = some y ∧ yield2 Real.log D t0 t = some y)
    ∧ yield2 Real.log (fun u => some (Real.exp (-r * (u - t0)))) t0 t = some r := by
  have hpos : (0 : ℝ) < EPS := EPS_pos
  have h1 : t ≥ t0 := by linarith
  refine ⟨yield2_of_exp _ t0 t (g t) ht rfl, ?_, yield2_of_exp _ t0 t r ht rfl⟩
  have hx : 0 ≤ lam * (t - t0) := mul_nonneg hlam (by linarith)
  obtain ⟨s1, hs1⟩ := shape1_isSome Real.exp _ hx
  obtain ⟨s2, hs2⟩ := shape2_isSome Real.exp _ hx
  simp only [discountNelsonSiegel, yieldNelsonSiegel, PRECONDITION_pos hlam,
    Option.bind_eq_bind, Option.some_bind, Option.pure_def]
  refine ⟨_, _, c0 + c1 * s1 + c2 * s2, rfl, rfl, ?_, ?_⟩
  · simp only [PRECONDITION_pos h1, hs1, hs2, Option.bind_eq_bind, Option.some_bind,
      Option.pure_def]
  · apply yield2_of_exp _ t0 t _ ht
    simp only [PRECONDITION_pos h1, hs1, hs2, Option.bind_eq_bind, Option.some_bind,
      Option.pure_def]

/-- Witness of C1 at `g = 1`, `t0 = 0`, `t = 1`, `lambda = 1/20`. -/
theorem yield_roundtrip_discount_witness :
    yield2 Real.log (fun u => some (Real.exp (-(1 : ℝ) * (u - 0)))) 0 1 = some 1 :=
  (yield_roundtrip_discount (fun _ => 1) (1 / 50) (1 / 25) (3 / 50) (1 / 20) 1 0 1
    (by norm_num [EPS]) (by norm_num)).1

/-! ## The bracket of an evaluation time -/

theorem getLast?_isSome_of_getElem? {β : Type} {xs : List β} {i : Nat} {x : β}
    (hx : xs[i]? = some x) :
    ∃ b, xs.getLast? = some b := by
  cases xs with
  | nil => simp at hx
  | cons a l => exact ⟨_, List.getLast?_cons⟩

/-- The search of an interpolation lambda at a time `t` of the bracket that ends at index `i`:
the last time exists and bounds `t`, and `lower_bound` returns `i`. -/
theorem bracket_search {times : List α} (hs : times.Pairwise (· < ·)) {i : Nat} {x1 t : α}
    (hx1 : times[i]? = some x1) (ht1 : t ≤ x1)
    (hlo : ∀ y, times[unsignedPred i]? = some y → 0 < i → y < t) :
    (∃ b, times.getLast? = some b ∧ t ≤ b) ∧ lowerBound times t = i := by
  obtain ⟨b, hb⟩ := getLast?_isSome_of_getElem? hx1
  refine ⟨⟨b, hb, le_trans ht1 (getElem?_le_getLast hs hx1 hb)⟩, ?_⟩
  apply lowerBound_eq_of_bracket t times i x1 hx1 _ ht1
  intro j y hj hy
  have hi : 0 < i := by omega
  have hpred : unsignedPred i = i - 1 := by simp [unsignedPred]; omega
  obtain ⟨hil, _⟩ := List.getElem?_eq_some.1 hx1
  have hp : times[i - 1]? = some (times[i - 1]) := List.getElem?_eq_getElem (by omega)
  have h1 := hlo _ (by rw [hpred]; exact hp) hi
  rcases Nat.lt_or_ge j (i - 1) with h | h
  · exact lt_trans (getElem?_lt_of_pairwise hs h hy hp) h1
  · have : j = i - 1 := by omega
    subst this
    rw [hy] at hp
    rw [Option.some.inj hp]; exact h1

/-! ## Log-linear interpolation of discount factors -/

theorem discountLogLinInterpLambda_first (exp log : α → α) {times DF : List α} {t0 t x1 d1 : α}
    (hs : times.Pairwise (· < ·)) (hx1 : times[0]? = some x1) (hd1 : DF[0]? = some d1)
    (ht0 : t0 ≤ t) (ht1 : t ≤ x1) :
    discountLogLinInterpLambda exp log times DF t0 t
      = some (exp (log 1 + (t - t0) / (x1 - t0) * (log d1 - log 1))) := by
  obtain ⟨⟨b, hb, htb⟩, hlb⟩ := bracket_search hs hx1 ht1 (fun _ _ h => absurd h (lt_irrefl 0))
  simp [discountLogLinInterpLambda, PRECONDITION_pos (show t ≥ t0 from ht0), hb,
    PRECONDITION_pos htb, hlb, hx1, hd1]

theorem discountLogLinInterpLambda_interior (exp log : α → α) {times DF : List α}
    {t0 t x0 x1 d0 d1 : α} {i : Nat}
    (hs : times.Pairwise (· < ·)) (hx0 : times[i]? = some x0) (hx1 : times[i + 1]? = some x1)
    (hd0 : DF[i]? = some d0) (hd1 : DF[i + 1]? = some d1)
    (ht0 : t0 ≤ t) (htx0 : x0 < t) (ht1 : t ≤ x1) :
    discountLogLinInterpLambda exp log times DF t0 t
      = some (exp (log d0 + (t - x0) / (x1 - x0) * (log d1 - log d0))) := by
  have hpred : unsignedPred (i + 1) = i := by simp [unsignedPred]
  obtain ⟨⟨b, hb, htb⟩, hlb⟩ := bracket_search hs hx1 ht1
    (fun y hy _ => by rw [hpred, hx0] at hy; rw [← Option.some.inj hy]; exact htx0)
  simp [discountLogLinInterpLambda, PRECONDITION_pos (show t ≥ t0 from ht0), hb,
    PRECONDITION_pos htb, hlb, hx1, hd1, hpred, hx0, hd0]

theorem discountLogLinInterp_eq (exp log : α → α) {times DF : List α} {t0 x0 : α}
    (hlen : times.length = DF.length) (hs : times.Pairwise (· < ·))
    (h0 : times[0]? = some x0) (hx0 : x0 > t0) :
    discountLogLinInterp exp log times DF t0
      = some (discountLogLinInterpLambda exp log times DF t0) := by
  rw [← List.head?_eq_getElem?] at h0
  simp [discountLogLinInterp, PRECONDITION_pos (isSorted_of_pairwise times hs),
    PRECONDITION_pos hlen, h0, PRECONDITION_pos hx0]

/-- C2: on a series with as many discount factors as times, strictly increasing times, a
first time after `t0` and positive discount factors, the curve of `discountLogLinInterp`
is built and returns `DF[k]` at `times[k]`, for every index `k`. -/
theorem discountLogLinInterp_exact (times DF : List ℝ) (t0 : ℝ) (k : Nat) (x0 tk dk : ℝ)
    (hlen : times.length = DF.length) (hs : times.Pairwise (· < ·))
    (h0 : times[0]? = some x0) (hx0 : x0 > t0) (hpos : ∀ d ∈ DF, 0 < d)
    (htk : times[k]? = some tk) (hdk : DF[k]? = some dk) :
    ∃ f, discountLogLinInterp Real.exp Real.log times DF t0 = some f ∧ f tk = some dk := by
  refine ⟨_, discountLogLinInterp_eq Real.exp Real.log hlen hs h0 hx0, ?_⟩
  have hdkpos : 0 < dk := hpos dk (List.getElem?_mem hdk)
  cases k with
  | zero =>
    rw [h0] at htk
    obtain rfl := Option.some.inj htk
    rw [discountLogLinInterpLambda_first Real.exp Real.log hs h0 hdk (le_of_lt hx0) le_rfl]
    have : x0 - t0 ≠ 0 := by linarith
    rw [div_self this, one_mul, add_sub_cancel, Real.exp_log hdkpos]
  | succ j =>
    obtain ⟨hj, _⟩ := List.getElem?_eq_some.1 htk
    have hxj : times[j]? = some (times[j]) := List.getElem?_eq_getElem (by omega)
    have hdj : DF[j]? = some (DF[j]) := List.getElem?_eq_getElem (by omega)
    have hlt : times[j] < tk := getElem?_lt_of_pairwise hs (Nat.lt_succ_self j) hxj htk
    have hge : t0 ≤ tk := by
      rcases Nat.eq_zero_or_pos j with rfl | hjpos
      · rw [h0] at hxj; have := Option.some.inj hxj; linarith
      · have := getElem?_lt_of_pairwise hs hjpos h0 hxj
        linarith
    rw [discountLogLinInterpLambda_interior Real.exp Real.log hs hxj htk hdj hdk hge hlt le_rfl]
    have : tk - times[j] ≠ 0 := by linarith
    rw [div_self this, one_mul, add_sub_cancel, Real.exp_log hdkpos]
/-- Witness of C2: the series `(1, 1/2), (2, 1/4)` with `t0 = 0`, at the index 1. -/
theorem discountLogLinInterp_exact_witness :
    ∃ f, discountLogLinInterp Real.exp Real.log [1, 2] [1 / 2, 1 / 4] 0 = some f
      ∧ f 2 = some (1 / 4) :=
  discountLogLinInterp_exact [1, 2] [1 / 2, 1 / 4] 0 1 1 2 (1 / 4) rfl (by simp) rfl
    (by norm_num) (by simp) rfl rfl

/-! ## Linear interpolation of yields -/

theorem discountYieldLinInterp_eq (exp log : α → α) {times DF : List α} (dR : α) {t0 x0 : α}
    (hlen : times.length = DF.length) (hs : times.Pairwise (· < ·))
    (h0 : times[0]? = some x0) (hx0 : x0 > t0) :
    discountYieldLinInterp exp log times DF dR t0
      = some (discountYieldLinInterpLambda exp times DF dR t0 (yield1 log t0)) := by
  rw [← List.head?_eq_getElem?] at h0
  simp [discountYieldLinInterp, PRECONDITION_pos (isSorted_of_pairwise times hs),
    PRECONDITION_pos hlen, h0, PRECONDITION_pos hx0]

theorem discountYieldLinInterpLambda_first (exp log : α → α) {times DF : List α}
    {dR t0 t x1 d1 : α}
    (hs : times.Pairwise (· < ·)) (hx1 : times[0]? = some x1) (hd1 : DF[0]? = some d1)
    (hx1e : x1 > t0 + EPS) (ht0 : t0 ≤ t) (ht1 : t ≤ x1) :
    discountYieldLinInterpLambda exp times DF dR t0 (yield1 log t0) t
      = some (exp (-(dR + (t - t0) / (x1 - t0) * (-log d1 / (x1 - t0) - dR)) * (t - t0))) := by
  obtain ⟨⟨b, hb, htb⟩, hlb⟩ := bracket_search hs hx1 ht1 (fun _ _ h => absurd h (lt_irrefl 0))
  simp [discountYieldLinInterpLambda, PRECONDITION_pos (show t ≥ t0 from ht0), hb,
    PRECONDITION_pos htb, hlb, hx1, hd1, yield1, PRECONDITION_pos hx1e]

theorem discountYieldLinInterpLambda_interior (exp log : α → α) {times DF : List α}
    {dR t0 t x0 x1 d0 d1 : α} {i : Nat}
    (hs : times.Pairwise (· < ·)) (hx0 : times[i]? = some x0) (hx1 : times[i + 1]? = some x1)
    (hd0 : DF[i]? = some d0) (hd1 : DF[i + 1]? = some d1)
    (hx0e : x0 > t0 + EPS) (htx0 : x0 < t) (ht1 : t ≤ x1) :
    discountYieldLinInterpLambda exp times DF dR t0 (yield1 log t0) t
      = some (exp (-(-log d0 / (x0 - t0)
          + (t - x0) / (x1 - x0) * (-log d1 / (x1 - t0) - -log d0 / (x0 - t0))) * (t - t0))) := by
  have hpred : unsignedPred (i + 1) = i := by simp [unsignedPred]
  have hpos : (0 : α) < EPS := EPS_pos
  have ht0 : t ≥ t0 := by linarith
  have hx1e : x1 > t0 + EPS := by linarith
  obtain ⟨⟨b, hb, htb⟩, hlb⟩ := bracket_search hs hx1 ht1
    (fun y hy _ => by rw [hpred, hx0] at hy; rw [← Option.some.inj hy]; exact htx0)
  simp [discountYieldLinInterpLambda, PRECONDITION_pos ht0, hb,
    PRECONDITION_pos htb, hlb, hx1, hd1, hpred, hx0, hd0, yield1, PRECONDITION_pos hx0e,
    PRECONDITION_pos hx1e]

/-- C3: on a series with as many discount factors as times, strictly increasing times, a
first time after `t0 + EPS` and positive discount factors, for every initial short rate
`dR` the curve of `discountYieldLinInterp` is built and returns `DF[k]` at `times[k]`, for
every index `k`. -/
theorem discountYieldLinInterp_exact (times DF : List ℝ) (dR t0 : ℝ) (k : Nat) (x0 tk dk : ℝ)
    (hlen : times.length = DF.length) (hs : times.Pairwise (· < ·))
    (h0 : times[0]? = some x0) (hx0 : x0 > t0 + EPS) (hpos : ∀ d ∈ DF, 0 < d)
    (htk : times[k]? = some tk) (hdk : DF[k]? = some dk) :
    ∃ f, discountYieldLinInterp Real.exp Real.log times DF dR t0 = some f
      ∧ f tk = some dk := by
  have hE : (0 : ℝ) < EPS := EPS_pos
  refine ⟨_, discountYieldLinInterp_eq Real.exp Real.log dR hlen hs h0 (by linarith), ?_⟩
  have hdkpos : 0 < dk := hpos dk (List.getElem?_mem hdk)
  cases k with
  | zero =>
    rw [h0] at htk
    obtain rfl := Option.some.inj htk
    rw [discountYieldLinInterpLambda_first Real.exp Real.log hs h0 hdk hx0 (by linarith) le_rfl]
    have h : x0 - t0 ≠ 0 := by linarith
    rw [div_self h, one_mul, add_sub_cancel, neg_div, neg_neg, div_mul_cancel₀ _ h,
      Real.exp_log hdkpos]
  | succ j =>
    obtain ⟨hj, _⟩ := List.getElem?_eq_some.1 htk
    have hxj : times[j]? = some (times[j]) := List.getElem?_eq_getElem (by omega)
    have hdj : DF[j]? = some (DF[j]) := List.getElem?_eq_getElem (by omega)
    have hlt : times[j] < tk := getElem?_lt_of_pairwise hs (Nat.lt_succ_self j) hxj htk
    have hge : times[j] > t0 + EPS := by
      rcases Nat.eq_zero_or_pos j with rfl | hjpos
      · rw [h0] at hxj; have := Option.some.inj hxj; linarith
      · have := getElem?_lt_of_pairwise hs hjpos h0 hxj
        linarith
    rw [discountYieldLinInterpLambda_interior Real.exp Real.log hs hxj htk hdj hdk hge hlt le_rfl]
    have h : tk - times[j] ≠ 0 := by linarith
    have h2 : tk - t0 ≠ 0 := by linarith
    rw [div_self h, one_mul, add_sub_cancel, neg_div, neg_neg, div_mul_cancel₀ _ h2,
      Real.exp_log hdkpos]

/-- Witness of C3: the series `(1, 1/2), (2, 1/4)` with `t0 = 0` and `dR = 1/20`, at the
index 1. -/
theorem discountYieldLinInterp_exact_witness :
    ∃ f, discountYieldLinInterp Real.exp Real.log [1, 2] [1 / 2, 1 / 4] (1 / 20) 0 = some f
      ∧ f 2 = some (1 / 4) :=
  discountYieldLinInterp_exact [1, 2] [1 / 2, 1 / 4] (1 / 20) 0 1 1 2 (1 / 4) rfl (by simp) rfl
    (by norm_num [EPS]) (by simp) rfl rfl

/-- C5, as amended: on a series with as many discount factors as times, strictly increasing
times, a first time after `t0 + EPS` and positive discount factors, for every `dR` the curve
of `discountYieldLinInterp` is built and its evaluation succeeds at every `t` with
`t0 ≤ t ≤ times.back()`. -/
theorem discountYieldLinInterp_defined (times DF : List ℝ) (dR t0 t x0 b : ℝ)
    (hlen : times.length = DF.length) (hs : times.Pairwise (· < ·))
    (h0 : times[0]? = some x0) (hx0 : x0 > t0 + EPS) (_hpos : ∀ d ∈ DF, 0 < d)
    (hb : times.getLast? = some b) (ht0 : t0 ≤ t) (htb : t ≤ b) :
    ∃ f v, discountYieldLinInterp Real.exp Real.log times DF dR t0 = some f
      ∧ f t = some v := by
  have hE : (0 : ℝ) < EPS := EPS_pos
  suffices h : ∃ v, discountYieldLinInterpLambda Real.exp times DF dR t0
      (yield1 Real.log t0) t = some v from
    ⟨_, h.choose,
      discountYieldLinInterp_eq Real.exp Real.log dR hlen hs h0 (by linarith), h.choose_spec⟩
  have hi := lowerBound_lt_length t times b hb htb
  obtain ⟨x1, hx1⟩ : ∃ x1, times[lowerBound times t]? = some x1 :=
    ⟨_, List.getElem?_eq_getElem hi⟩
  obtain ⟨d1, hd1⟩ : ∃ d1, DF[lowerBound times t]? = some d1 :=
    ⟨_, List.getElem?_eq_getElem (by omega)⟩
  have ht1 := lowerBound_le_getElem? t times _ hx1
  rcases Nat.eq_zero_or_pos (lowerBound times t) with hz | hpos
  · rw [hz] at hx1 hd1
    exact ⟨_, discountYieldLinInterpLambda_first Real.exp Real.log hs hx1 hd1
      (by rw [h0] at hx1; rw [← Option.some.inj hx1]; exact hx0) ht0 ht1⟩
  · obtain ⟨j, hj⟩ : ∃ j, lowerBound times t = j + 1 := ⟨lowerBound times t - 1, by omega⟩
    rw [hj] at hx1 hd1
    have hxj : times[j]? = some (times[j]) := List.getElem?_eq_getElem (by omega)
    have hdj : DF[j]? = some (DF[j]) := List.getElem?_eq_getElem (by omega)
    have hlt : times[j] < t := getElem?_lt_of_lt_lowerBound t times j _ (by omega) hxj
    have hge : times[j] > t0 + EPS := by
      rcases Nat.eq_zero_or_pos j with rfl | hjpos
      · rw [h0] at hxj; have := Option.some.inj hxj; linarith
      · have := getElem?_lt_of_pairwise hs hjpos h0 hxj
        linarith
    exact ⟨_, discountYieldLinInterpLambda_interior Real.exp Real.log hs hxj hx1 hdj hd1 hge hlt
      ht1⟩

/-- Witness of C5 as amended: the series `(1, 1/2), (2, 1/4)` with `t0 = 0`, `dR = 1/20`, at
`t = 3/2`. -/
theorem discountYieldLinInterp_defined_witness :
    ∃ f v, discountYieldLinInterp Real.exp Real.log [1, 2] [1 / 2, 1 / 4] (1 / 20) 0 = some f
      ∧ f (3 / 2) = some v :=
  discountYieldLinInterp_defined [1, 2] [1 / 2, 1 / 4] (1 / 20) 0 (3 / 2) 1 2 rfl (by simp) rfl
    (by norm_num [EPS]) (by simp) rfl (by norm_num) (by norm_num)

/-- Counterexample to C5: the one-point series `times = [EPS]`, `DF = [1]` with `t0 = 0` is
accepted at construction (`EPS > 0`), and the evaluation at `t = t0 = 0` fails: the inner
`yield(t0)` is called at the maturity `EPS` and its precondition `T > t0 + EPS` does not
hold. -/
theorem discountYieldLinInterp_fails_within_EPS :
    ∃ f, discountYieldLinInterp Real.exp Real.log [EPS] [1] 0 0 = some f ∧ f 0 = none := by
  have hE : (0 : ℝ) < EPS := EPS_pos
  refine ⟨_, discountYieldLinInterp_eq Real.exp Real.log 0 rfl (by simp) rfl hE, ?_⟩
  simp [discountYieldLinInterpLambda, PRECONDITION, lowerBound, yield1, hE.le, not_lt.2 hE.le]

/-! ## Linear interpolation of cost-of-carry rates -/

theorem forwardCarryLinInterp_eq (exp log : α → α) (spot : α) {times F : List α} {t0 x0 : α}
    (hlen : times.length = F.length) (hs : times.Pairwise (· < ·))
    (h0 : times[0]? = some x0) (hx0 : x0 > t0) :
    forwardCarryLinInterp exp log spot times F t0
      = some (forwardCarryLinInterpLambda exp spot times F t0 (costOfCarry log spot t0)) := by
  rw [← List.head?_eq_getElem?] at h0
  simp [forwardCarryLinInterp, PRECONDITION_pos (isSorted_of_pairwise times hs),
    PRECONDITION_pos hlen, h0, PRECONDITION_pos hx0]

theorem costOfCarry_of_ge (log : α → α) (spot t0 f t : α) (ht : t ≥ t0 + EPS) :
    costOfCarry log spot t0 f t = some (log (f / spot) / (t - t0)) := by
  have hE : (0 : α) < EPS := EPS_pos
  have h1 : t ≥ t0 := by linarith
  have h2 : ¬ t - t0 < EPS := by rw [not_lt]; linarith
  simp [costOfCarry, PRECONDITION_pos h1, h2]

theorem forwardCarryLinInterpLambda_first (exp log : α → α) {times F : List α}
    {spot t0 t x1 f1 : α}
    (hs : times.Pairwise (· < ·)) (hx1 : times[0]? = some x1) (hf1 : F[0]? = some f1)
    (ht0 : t ≥ t0 + EPS) (ht1 : t ≤ x1) :
    forwardCarryLinInterpLambda exp spot times F t0 (costOfCarry log spot t0) t
      = some (spot * exp (log (f1 / spot) / (t - t0) * (t - t0))) := by
  have hE : (0 : α) < EPS := EPS_pos
  have h1 : t ≥ t0 := by linarith
  obtain ⟨⟨b, hb, htb⟩, -⟩ := bracket_search hs hx1 ht1 (fun _ _ h => absurd h (lt_irrefl 0))
  simp [forwardCarryLinInterpLambda, PRECONDITION, hb, htb, hx1, hf1,
    ht1, h1, costOfCarry_of_ge log spot t0 f1 t ht0]

theorem forwardCarryLinInterpLambda_interior (exp log : α → α) {times F : List α}
    {spot t0 t x0 x1 f0 f1 : α} {i : Nat}
    (hs : times.Pairwise (· < ·)) (hx0 : times[i]? = some x0) (hx1 : times[i + 1]? = some x1)
    (hf0 : F[i]? = some f0) (hf1 : F[i + 1]? = some f1)
    (hx0e : x0 ≥ t0 + EPS) (htx0 : x0 < t) (ht1 : t ≤ x1) :
    forwardCarryLinInterpLambda exp spot times F t0 (costOfCarry log spot t0) t
      = some (spot * exp ((log (f0 / spot) / (x0 - t0)
          + (t - x0) / (x1 - x0) * (log (f1 / spot) / (x1 - t0) - log (f0 / spot) / (x0 - t0)))
          * (t - t0))) := by
  have hpred : unsignedPred (i + 1) = i := by simp [unsignedPred]
  have hE : (0 : α) < EPS := EPS_pos
  have ht0 : t ≥ t0 := by linarith
  have hx1e : x1 ≥ t0 + EPS := by linarith
  obtain ⟨⟨b, hb, htb⟩, hlb⟩ := bracket_search hs hx1 ht1
    (fun y hy _ => by rw [hpred, hx0] at hy; rw [← Option.some.inj hy]; exact htx0)
  obtain ⟨hil, -⟩ := List.getElem?_eq_some.1 hx0
  have hfirst : times[0]? = some (times[0]) := List.getElem?_eq_getElem (by omega)
  have hle : times[0] ≤ x0 := by
    rcases Nat.eq_zero_or_pos i with rfl | hipos
    · rw [hx0] at hfirst; exact le_of_eq (Option.some.inj hfirst).symm
    · exact le_of_lt (getElem?_lt_of_pairwise hs hipos hfirst hx0)
  have hnot : ¬ t ≤ times[0] := by rw [not_le]; linarith
  simp [forwardCarryLinInterpLambda, PRECONDITION_pos ht0, hb, PRECONDITION_pos htb, hlb, hx1,
    hf1, hpred, hx0, hf0, hfirst, hnot, costOfCarry_of_ge log spot t0 f0 x0 hx0e,
    costOfCarry_of_ge log spot t0 f1 x1 hx1e]

/-- C4: for a spot price `spot > 0` and a series with as many forward prices as delivery
times, strictly increasing times, `times[0] ≥ t0 + EPS` and positive forward prices, the
curve of `forwardCarryLinInterp` is built and returns `F[k]` at `times[k]`, for every index
`k`, the index 0 included. -/
theorem forwardCarryLinInterp_exact (spot : ℝ) (times F : List ℝ) (t0 : ℝ) (k : Nat)
    (x0 tk fk : ℝ) (hspot : 0 < spot)
    (hlen : times.length = F.length) (hs : times.Pairwise (· < ·))
    (h0 : times[0]? = some x0) (hx0 : x0 ≥ t0 + EPS) (hpos : ∀ p ∈ F, 0 < p)
    (htk : times[k]? = some tk) (hfk : F[k]? = some fk) :
    ∃ f, forwardCarryLinInterp Real.exp Real.log spot times F t0 = some f
      ∧ f tk = some fk := by
  have hE : (0 : ℝ) < EPS := EPS_pos
  refine ⟨_, forwardCarryLinInterp_eq Real.exp Real.log spot hlen hs h0 (by linarith), ?_⟩
  have hfkpos : 0 < fk / spot := div_pos (hpos fk (List.getElem?_mem hfk)) hspot
  cases k with
  | zero =>
    rw [h0] at htk
    obtain rfl := Option.some.inj htk
    rw [forwardCarryLinInterpLambda_first Real.exp Real.log hs h0 hfk hx0 le_rfl]
    have h : x0 - t0 ≠ 0 := by linarith
    rw [div_mul_cancel₀ _ h, Real.exp_log hfkpos, mul_div_cancel₀ _ hspot.ne']
  | succ j =>
    obtain ⟨hj, _⟩ := List.getElem?_eq_some.1 htk
    have hxj : times[j]? = some (times[j]) := List.getElem?_eq_getElem (by omega)
    have hfj : F[j]? = some (F[j]) := List.getElem?_eq_getElem (by omega)
    have hlt : times[j] < tk := getElem?_lt_of_pairwise hs (Nat.lt_succ_self j) hxj htk
    have hge : times[j] ≥ t0 + EPS := by
      rcases Nat.eq_zero_or_pos j with rfl | hjpos
      · rw [h0] at hxj; have := Option.some.inj hxj; linarith
      · have := getElem?_lt_of_pairwise hs hjpos h0 hxj
        linarith
    rw [forwardCarryLinInterpLambda_interior Real.exp Real.log hs hxj htk hfj hfk hge hlt le_rfl]
    have h : tk - times[j] ≠ 0 := by linarith
    have h2 : tk - t0 ≠ 0 := by linarith
    rw [div_self h, one_mul, add_sub_cancel, div_mul_cancel₀ _ h2, Real.exp_log hfkpos,
      mul_div_cancel₀ _ hspot.ne']

/-- Witness of C4: the spot price 1 and the series `(1, 2), (2, 3)` with `t0 = 0`, at the
index 0. -/
theorem forwardCarryLinInterp_exact_witness :
    ∃ f, forwardCarryLinInterp Real.exp Real.log 1 [1, 2] [2, 3] 0 = some f
      ∧ f 1 = some 2 :=
  forwardCarryLinInterp_exact 1 [1, 2] [2, 3] 0 0 1 1 2 (by norm_num) rfl (by simp) rfl
    (by norm_num [EPS]) (by simp) rfl rfl

/-- C9, the code at `spot = 1`, `times = [2]`, `F = [2]`, `t0 = 0`, `t = 1`: the curve returns
the first forward price 2, which is not `spot * exp(q1 * (t - t0))` for the first market rate
`q1 = ln(F[0] / spot) / (times[0] - t0)`. -/
theorem forwardCarryLinInterp_first_interval_value :
    ∃ f, forwardCarryLinInterp Real.exp Real.log 1 [2] [2] 0 = some f ∧ f 1 = some 2
      ∧ (2 : ℝ) ≠ 1 * Real.exp (Real.log (2 / 1) / (2 - 0) * (1 - 0)) := by
  refine ⟨_, forwardCarryLinInterp_eq Real.exp Real.log 1 rfl (by simp) rfl (by norm_num), ?_, ?_⟩
  · have hx : ([2] : List ℝ)[0]? = some 2 := rfl
    rw [forwardCarryLinInterpLambda_first Real.exp Real.log (by simp) hx hx
      (by norm_num [EPS]) (by norm_num)]
    have h2 : (0 : ℝ) < 2 / 1 := by norm_num
    rw [div_mul_cancel₀ _ (by norm_num : (1 : ℝ) - 0 ≠ 0), Real.exp_log h2]
    norm_num
  · intro h
    have hlog : Real.log 2 = Real.log (2 / 1) / (2 - 0) * (1 - 0) := by
      conv_lhs => rw [h]
      rw [one_mul, Real.log_exp]
    have hpos : 0 < Real.log 2 := Real.log_pos (by norm_num)
    norm_num at hlog
    linarith

/-! ## The volatility curve `volatilityVarLinInterp` -/

theorem volatilityVarLinInterp_eq {times vols : List α} {t0 x0 : α}
    (hlen : times.length = vols.length) (hs : times.Pairwise (· < ·))
    (h0 : times[0]? = some x0) (hx0 : x0 > t0) :
    volatilityVarLinInterp times vols t0 = some (volatilityVarLinInterpLambda times vols t0) := by
  rw [← List.head?_eq_getElem?] at h0
  simp [volatilityVarLinInterp, PRECONDITION_pos (isSorted_of_pairwise times hs),
    PRECONDITION_pos hlen, h0, PRECONDITION_pos hx0]

theorem volatilityVarLinInterpLambda_plateau {times vols : List α} {t0 t x1 v1 : α}
    (hs : times.Pairwise (· < ·)) (hx1 : times[1]? = some x1) (hv1 : vols[1]? = some v1)
    (ht0 : t0 ≤ t) (ht1 : t ≤ x1) :
    volatilityVarLinInterpLambda times vols t0 t = some v1 := by
  obtain ⟨b, hb⟩ := getLast?_isSome_of_getElem? hx1
  have htb : t ≤ b := le_trans ht1 (getElem?_le_getLast hs hx1 hb)
  simp [volatilityVarLinInterpLambda, PRECONDITION, ht0, hb, htb, hx1, ht1, hv1]

theorem volatilityVarLinInterpLambda_interior {times vols : List α} {t0 t x0 x1 v0 v1 : α}
    {i : Nat} (hs : times.Pairwise (· < ·)) (hi : 1 ≤ i)
    (hx0 : times[i]? = some x0) (hx1 : times[i + 1]? = some x1)
    (hv0 : vols[i]? = some v0) (hv1 : vols[i + 1]? = some v1)
    (ht0 : t0 ≤ t) (htx0 : x0 < t) (ht1 : t ≤ x1) :
    volatilityVarLinInterpLambda times vols t0 t
      = some (v0 + (t - x0) / (x1 - x0) * (v1 - v0)) := by
  have hpred : unsignedPred (i + 1) = i := by simp [unsignedPred]
  obtain ⟨⟨b, hb, htb⟩, hlb⟩ := bracket_search hs hx1 ht1
    (fun y hy _ => by rw [hpred, hx0] at hy; rw [← Option.some.inj hy]; exact htx0)
  obtain ⟨hil, -⟩ := List.getElem?_eq_some.1 hx0
  have hsnd : times[1]? = some (times[1]) := List.getElem?_eq_getElem (by omega)
  have hle : times[1] ≤ x0 := by
    rcases Nat.eq_or_lt_of_le hi with h1 | h1
    · subst h1; rw [hx0] at hsnd; exact le_of_eq (Option.some.inj hsnd).symm
    · exact le_of_lt (getElem?_lt_of_pairwise hs h1 hsnd hx0)
  have hnot : ¬ t ≤ times[1] := by rw [not_le]; exact lt_of_le_of_lt hle htx0
  simp [volatilityVarLinInterpLambda, PRECONDITION, ht0, hb, htb, hlb, hx1, hv1, hpred,
    hx0, hv0, hsnd, hnot]

/-- C6, the code on a series with a single market point, `times = [1]`, `vols = [1/5]`,
`t0 = 0`: the series is accepted at construction and the evaluation at `t = 1/2` fails, the
read of `rTimes[1]` being outside the vector. -/
theorem volatilityVarLinInterp_single_point_fails :
    ∃ f, volatilityVarLinInterp [(1 : ℝ)] [1 / 5] 0 = some f ∧ f (1 / 2) = none := by
  refine ⟨_, volatilityVarLinInterp_eq rfl (by simp) rfl (by norm_num), ?_⟩
  simp [volatilityVarLinInterpLambda, PRECONDITION]

/-- C7: on a series with as many values as times, strictly increasing times, a first time
after `t0` and at least two points, the curve of `volatilityVarLinInterp` is built, returns
`values[1]` at every `t` of `[t0, times[1]]`, and for every `i ≥ 2` and
`times[i-1] < t ≤ times[i]` returns the linear interpolation
`values[i-1] + (t - times[i-1]) / (times[i] - times[i-1]) * (values[i] - values[i-1])` of the
raw values. -/
theorem volatilityVarLinInterp_piecewise (times values : List α) (t0 x0 x1 v1 : α)
    (hlen : times.length = values.length) (hs : times.Pairwise (· < ·))
    (h0 : times[0]? = some x0) (hx0 : x0 > t0)
    (hx1 : times[1]? = some x1) (hv1 : values[1]? = some v1) :
    ∃ f, volatilityVarLinInterp times values t0 = some f
      ∧ (∀ t, t0 ≤ t → t ≤ x1 → f t = some v1)
      ∧ (∀ (i : Nat) (a b va vb t : α), 2 ≤ i → times[i - 1]? = some a → times[i]? = some b →
          values[i - 1]? = some va → values[i]? = some vb → a < t → t ≤ b →
          f t = some (va + (t - a) / (b - a) * (vb - va))) := by
  refine ⟨_, volatilityVarLinInterp_eq hlen hs h0 hx0, ?_, ?_⟩
  · intro t ht0 ht1
    exact volatilityVarLinInterpLambda_plateau hs hx1 hv1 ht0 ht1
  · intro i a b va vb t hi ha hb hva hvb hat htb
    obtain ⟨j, rfl⟩ : ∃ j, i = j + 1 := ⟨i - 1, by omega⟩
    simp only [Nat.add_sub_cancel] at ha hva
    have hx0a : x0 < a := getElem?_lt_of_pairwise hs (by omega) h0 ha
    exact volatilityVarLinInterpLambda_interior hs (by omega) ha hb hva hvb
      (by linarith) hat htb

/-- Witness of C7: the series `(1, 1), (2, 2), (3, 4)` with `t0 = 0`. -/
theorem volatilityVarLinInterp_piecewise_witness :
    ∃ f, volatilityVarLinInterp [(1 : ℝ), 2, 3] [1, 2, 4] 0 = some f
      ∧ (∀ t, 0 ≤ t → t ≤ 2 → f t = some 2)
      ∧ (∀ (i : Nat) (a b va vb t : ℝ), 2 ≤ i → [(1 : ℝ), 2, 3][i - 1]? = some a →
          [(1 : ℝ), 2, 3][i]? = some b → [(1 : ℝ), 2, 4][i - 1]? = some va →
          [(1 : ℝ), 2, 4][i]? = some vb → a < t → t ≤ b →
          f t = some (va + (t - a) / (b - a) * (vb - va))) :=
  volatilityVarLinInterp_piecewise [1, 2, 3] [1, 2, 4] 0 1 2 2 rfl (by norm_num) rfl (by norm_num)
    rfl rfl

/-- C8, the code at `times = [1, 2, 3]`, `vols = [1, 2, 4]`, `t0 = 0`: at `t = 1/2`, before the
first market maturity, the curve returns 2 and not the first market volatility 1; at
`t = 5/2` it returns 3, so that the variance `3^2 * (5/2 - 0)` is not the linear
interpolation of the market variances `2^2 * (2 - 0)` and `4^2 * (3 - 0)`. -/
theorem volatilityVarLinInterp_not_variance_interpolation :
    ∃ f, volatilityVarLinInterp [(1 : ℝ), 2, 3] [1, 2, 4] 0 = some f
      ∧ f (1 / 2) = some 2 ∧ (2 : ℝ) ≠ 1
      ∧ f (5 / 2) = some 3
      ∧ (3 : ℝ) ^ 2 * (5 / 2 - 0)
          ≠ 2 ^ 2 * (2 - 0)
            + (5 / 2 - 2) / (3 - 2) * (4 ^ 2 * (3 - 0) - 2 ^ 2 * (2 - 0)) := by
  have hs : ([1, 2, 3] : List ℝ).Pairwise (· < ·) := by norm_num
  have h1 : ([1, 2, 3] : List ℝ)[1]? = some 2 := rfl
  have h2 : ([1, 2, 3] : List ℝ)[1 + 1]? = some 3 := rfl
  have v1 : ([1, 2, 4] : List ℝ)[1]? = some 2 := rfl
  have v2 : ([1, 2, 4] : List ℝ)[1 + 1]? = some 4 := rfl
  refine ⟨_, volatilityVarLinInterp_eq rfl hs rfl (by norm_num), ?_, by norm_num, ?_,
    by norm_num⟩
  · exact volatilityVarLinInterpLambda_plateau hs h1 v1 (by norm_num) (by norm_num)
  · rw [volatilityVarLinInterpLambda_interior hs le_rfl h1 h2 v1 v2 (by norm_num) (by norm_num)
      (by norm_num)]
    norm_num

/-! ## Forward prices of a cash flow -/

theorem upperBound_le_iff (t : α) : ∀ (xs : List α), xs.Pairwise (· < ·) →
    ∀ (i : Nat) (x : α), xs[i]? = some x → (upperBound xs t ≤ i ↔ t < x)
  | [], _, i, x, h => by simp at h
  | a :: xs, hs, i, x, h => by
    rw [List.pairwise_cons] at hs
    by_cases ha : t < a
    · rw [upperBound, if_pos ha]
      cases i with
      | zero =>
        rw [List.getElem?_cons_zero] at h
        rw [← Option.some.inj h]; simp [ha]
      | succ j =>
        rw [List.getElem?_cons_succ] at h
        simp [lt_trans ha (hs.1 x (List.getElem?_mem h))]
    · rw [upperBound, if_neg ha]
      cases i with
      | zero =>
        rw [List.getElem?_cons_zero] at h
        rw [← Option.some.inj h]; simp [ha]
      | succ j =>
        rw [List.getElem?_cons_succ] at h
        rw [Nat.succ_le_succ_iff]
        exact upperBound_le_iff t xs hs.2 j x h

theorem upperBound_eq_zero_of_lt (t : α) {a : α} (ha : t < a) :
    ∀ (xs : List α), (∀ x ∈ xs, a < x) → upperBound xs t = 0
  | [], _ => rfl
  | c :: xs, h => by
    rw [upperBound, if_pos (lt_trans ha (h c (List.mem_cons_self _ _)))]

theorem innerProduct_total (D : α → α) : ∀ (xs ys : List α) (acc : α),
    xs.length = ys.length →
    innerProduct xs ys acc (fun p u => some (p * D u))
      = some (acc + (List.zipWith (fun p u => p * D u) xs ys).sum)
  | [], _, acc, _ => by simp [innerProduct]
  | _ :: _, [], _, h => by simp at h
  | x :: xs, y :: ys, acc, h => by
    have ih := innerProduct_total D xs ys (acc + x * D y) (by simpa using h)
    simp [innerProduct, ih, add_assoc]

theorem sum_after_eq_zipWith_drop (D : α → α) (t : α) : ∀ (P times : List α),
    P.length = times.length → times.Pairwise (· < ·) →
    (∑ i ∈ (Finset.range times.length).filter (fun i => t < times.getD i 0),
        P.getD i 0 * D (times.getD i 0))
      = (List.zipWith (fun p u => p * D u) (P.drop (upperBound times t))
          (times.drop (upperBound times t))).sum
  | [], [], _, _ => by simp [upperBound]
  | [], _ :: _, h, _ => by simp at h
  | _ :: _, [], h, _ => by simp at h
  | p :: ps, a :: ts, h, hs => by
    rw [List.pairwise_cons] at hs
    have hlen : ps.length = ts.length := by simpa using h
    have ih := sum_after_eq_zipWith_drop D t ps ts hlen hs.2
    rw [Finset.sum_filter] at ih ⊢
    rw [List.length_cons, Finset.sum_range_succ']
    simp only [List.getD_cons_succ, List.getD_cons_zero]
    rw [ih]
    by_cases ha : t < a
    · rw [upperBound, if_pos ha, if_pos ha, upperBound_eq_zero_of_lt t ha ts hs.1]
      simp [add_comm]
    · rw [upperBound, if_neg ha, if_neg ha]
      simp

/-- C10: for payments and strictly increasing payment times of the same length, a discount
curve `D` and `t ≤ times.back()` with `D(t) ≠ 0`, the curve of `forwardCashFlow` is built and
returns at `t` the sum of `P[i] * D(times[i])` over the indices `i` with `times[i] > t`,
divided by `D(t)`; the indices from `upper_bound` on are the indices with `times[i] > t`. -/
theorem forwardCashFlow_sum_after (P times : List α) (D : α → α) (t b : α)
    (hlen : P.length = times.length) (hs : times.Pairwise (· < ·))
    (hb : times.getLast? = some b) (htb : t ≤ b) (_hD : D t ≠ 0) :
    (∃ f, forwardCashFlow P times (fun u => some (D u)) = some f
      ∧ f t = some ((∑ i ∈ (Finset.range times.length).filter (fun i => t < times.getD i 0),
            P.getD i 0 * D (times.getD i 0)) / D t))
    ∧ ∀ i, i < times.length → (upperBound times t ≤ i ↔ t < times.getD i 0) := by
  constructor
  · simp only [forwardCashFlow, PRECONDITION_pos (isSorted_of_pairwise times hs),
      PRECONDITION_pos hlen, Option.bind_eq_bind, Option.some_bind, Option.pure_def]
    refine ⟨_, rfl, ?_⟩
    · have hl : (P.drop (upperBound times t)).length
          = (times.drop (upperBound times t)).length := by
        simp [hlen]
      simp only [hb, PRECONDITION_pos htb, Option.bind_eq_bind, Option.some_bind,
        Option.pure_def, innerProduct_total D _ _ 0 hl, zero_add,
        sum_after_eq_zipWith_drop D t P times hlen hs]
  · intro i hi
    have h : times[i]? = some (times.getD i 0) := by
      rw [List.getD_eq_getElem?_getD, List.getElem?_eq_getElem hi]; rfl
    exact upperBound_le_iff t times hs i _ h

/-- Witness of C10: the payments `100, 50` at the times `1, 2`, the discount curve
`D(u) = 1 / (1 + u)` and `t = 1`. -/
theorem forwardCashFlow_sum_after_witness :
    (∃ f, forwardCashFlow [(100 : ℝ), 50] [1, 2] (fun u => some (1 / (1 + u))) = some f
      ∧ f 1 = some ((∑ i ∈ (Finset.range [(1 : ℝ), 2].length).filter
              (fun i => (1 : ℝ) < [(1 : ℝ), 2].getD i 0),
            [(100 : ℝ), 50].getD i 0 * (1 / (1 + [(1 : ℝ), 2].getD i 0))) / (1 / (1 + 1))))
    ∧ ∀ i, i < [(1 : ℝ), 2].length →
        (upperBound [(1 : ℝ), 2] 1 ≤ i ↔ (1 : ℝ) < [(1 : ℝ), 2].getD i 0) :=
  forwardCashFlow_sum_after [100, 50] [1, 2] (fun u => 1 / (1 + u)) 1 2 rfl (by norm_num) rfl
    (by norm_num) (by norm_num)

theorem upperBound_getLast : ∀ (xs : List α) (b : α), xs.Pairwise (· < ·) →
    xs.getLast? = some b → upperBound xs b = xs.length
  | [], _, _, h => by simp at h
  | [a], b, _, h => by
    simp only [List.getLast?_singleton, Option.some.injEq] at h
    subst h
    simp [upperBound]
  | a :: c :: xs, b, hs, h => by
    rw [List.getLast?_cons_cons] at h
    rw [List.pairwise_cons] at hs
    have ih := upperBound_getLast (c :: xs) b hs.2 h
    have hb : a < b := hs.1 b (List.mem_of_getLast?_eq_some h)
    rw [upperBound, if_neg (not_lt.2 hb.le), ih]
    rfl

theorem forwardCashFlow_eq (P times : List α) (D : Curve α)
    (hlen : P.length = times.length) (hs : times.Pairwise (· < ·)) :
    ∃ f, forwardCashFlow P times D = some f ∧ ∀ t, f t = (do
      let back ← times.getLast?
      PRECONDITION (t ≤ back)
      let dSum ← innerProduct (P.drop (upperBound times t)) (times.drop (upperBound times t)) 0
        (fun dP dT => do let d ← D dT; pure (dP * d))
      let d ← D t
      pure (dSum / d)) := by
  simp only [forwardCashFlow, PRECONDITION_pos (isSorted_of_pairwise times hs),
    PRECONDITION_pos hlen, Option.bind_eq_bind, Option.some_bind, Option.pure_def]
  exact ⟨_, rfl, fun _ => rfl⟩

/-- C11, as amended: for payments and strictly increasing payment times of the same length
and a discount curve `D` with `D(times.back()) ≠ 0`, the curve of `forwardCashFlow` is built
and returns 0 at `times.back()`: no payment time is after `times.back()`, and the payment at
`times.back()` itself is not counted. -/
theorem forwardCashFlow_at_last (P times : List α) (D : α → α) (b : α)
    (hlen : P.length = times.length) (hs : times.Pairwise (· < ·))
    (hb : times.getLast? = some b) (_hD : D b ≠ 0) :
    ∃ f, forwardCashFlow P times (fun u => some (D u)) = some f ∧ f b = some 0 := by
  obtain ⟨f, hf, hval⟩ := forwardCashFlow_eq P times (fun u => some (D u)) hlen hs
  refine ⟨f, hf, ?_⟩
  have hdrop : P.drop times.length = [] := by rw [← hlen]; exact List.drop_length P
  rw [hval b]
  simp [hb, PRECONDITION, upperBound_getLast times b hs hb, innerProduct, hdrop]

/-- Witness of C11 as amended: the payments `100, 50` at the times `1, 2` and the discount
curve `D(u) = 1 / (1 + u)`. -/
theorem forwardCashFlow_at_last_witness :
    ∃ f, forwardCashFlow [(100 : ℝ), 50] [1, 2] (fun u => some (1 / (1 + u))) = some f
      ∧ f 2 = some 0 :=
  forwardCashFlow_at_last [100, 50] [1, 2] (fun u => 1 / (1 + u)) 2 rfl (by norm_num) rfl
    (by norm_num)

/-- Counterexample to C11: for the single payment 100 at the time 1 and the discount curve
`D = 1`, the curve returns 0 at `times.back() = 1`, not `P.back() / D(times.back()) = 100`. -/
theorem forwardCashFlow_at_last_not_last_payment :
    ∃ f, forwardCashFlow [(100 : ℝ)] [1] (fun _ => some 1) = some f ∧ f 1 = some 0
      ∧ (0 : ℝ) ≠ 100 / 1 := by
  obtain ⟨f, hf, hval⟩ := forwardCashFlow_eq [(100 : ℝ)] [1] (fun _ => some 1) rfl (by simp)
  refine ⟨f, hf, ?_, by norm_num⟩
  rw [hval 1]
  simp [PRECONDITION, upperBound, innerProduct]

/-! ## Forward prices of a stock with dividends -/

theorem innerProduct_pure (g : α → α → α) : ∀ (xs ys : List α) (acc : α),
    xs.length ≤ ys.length →
    innerProduct xs ys acc (fun p u => some (g p u))
      = some (acc + (List.zipWith g xs ys).sum)
  | [], _, acc, _ => by simp [innerProduct]
  | _ :: _, [], _, h => by simp at h
  | x :: xs, y :: ys, acc, h => by
    have ih := innerProduct_pure g xs ys (acc + g x y) (by simpa using h)
    simp [innerProduct, ih, add_assoc]

theorem sum_upto_eq_zipWith_take (g : α → α → α) (t : α) : ∀ (P times : List α),
    P.length = times.length → times.Pairwise (· < ·) →
    (∑ i ∈ (Finset.range times.length).filter (fun i => times.getD i 0 ≤ t),
        g (P.getD i 0) (times.getD i 0))
      = (List.zipWith g (P.take (upperBound times t)) times).sum
  | [], [], _, _ => by simp [upperBound]
  | [], _ :: _, h, _ => by simp at h
  | _ :: _, [], h, _ => by simp at h
  | p :: ps, a :: ts, h, hs => by
    rw [List.pairwise_cons] at hs
    have hlen : ps.length = ts.length := by simpa using h
    have ih := sum_upto_eq_zipWith_take g t ps ts hlen hs.2
    rw [Finset.sum_filter] at ih ⊢
    rw [List.length_cons, Finset.sum_range_succ']
    simp only [List.getD_cons_succ, List.getD_cons_zero]
    rw [ih]
    by_cases ha : t < a
    · rw [upperBound, if_pos ha, if_neg (not_le.2 ha), upperBound_eq_zero_of_lt t ha ts hs.1]
      simp
    · rw [upperBound, if_neg ha, if_pos (not_lt.1 ha), List.take_succ_cons, List.zipWith_cons_cons,
        List.sum_cons, add_comm]

theorem forwardStockDividends_eq (S0 : α) (times Div : List α) (D : α → α)
    (hlen : Div.length = times.length) (hs : times.Pairwise (· < ·)) :
    ∃ f, forwardStockDividends S0 times Div (fun u => some (D u)) = some f ∧ ∀ t b,
      times.getLast? = some b → t ≤ b →
      f t = some (S0 / D t
        - (List.zipWith (fun d u => d * D u / D t) (Div.take (upperBound times t)) times).sum) := by
  simp only [forwardStockDividends, PRECONDITION_pos (isSorted_of_pairwise times hs),
    PRECONDITION_pos hlen, Option.bind_eq_bind, Option.some_bind, Option.pure_def]
  refine ⟨_, rfl, fun t b hb htb => ?_⟩
  have hl : (Div.take (upperBound times t)).length ≤ times.length := by
    rw [List.length_take, hlen]; exact Nat.min_le_right _ _
  simp only [hb, PRECONDITION_pos htb, Option.some_bind,
    innerProduct_pure (fun d u => d * D u / D t) _ _ 0 hl, zero_add]

/-- C12: for dividend times and dividends of the same length with strictly increasing
times, a discount curve `D` and `t ≤ times.back()` with `D(t) ≠ 0`, the curve of
`forwardStockDividends` is built and returns at `t` the value `S0 / D(t)` minus the sum of
`Div[i] * D(times[i]) / D(t)` over the indices `i` with `times[i] ≤ t`; before the first
dividend time it returns `S0 / D(t)`. -/
theorem forwardStockDividends_deducts_upto (S0 : α) (times Div : List α) (D : α → α) (t b : α)
    (hlen : Div.length = times.length) (hs : times.Pairwise (· < ·))
    (hb : times.getLast? = some b) (htb : t ≤ b) (_hD : D t ≠ 0) :
    ∃ f, forwardStockDividends S0 times Div (fun u => some (D u)) = some f
      ∧ f t = some (S0 / D t
          - ∑ i ∈ (Finset.range times.length).filter (fun i => times.getD i 0 ≤ t),
              Div.getD i 0 * D (times.getD i 0) / D t)
      ∧ (∀ x, times[0]? = some x → t < x → f t = some (S0 / D t)) := by
  obtain ⟨f, hf, hval⟩ := forwardStockDividends_eq S0 times Div D hlen hs
  refine ⟨f, hf, ?_, ?_⟩
  · rw [hval t b hb htb, sum_upto_eq_zipWith_take (fun d u => d * D u / D t) t Div times hlen hs]
  · intro x hx htx
    have hub : upperBound times t = 0 := by
      cases times with
      | nil => rfl
      | cons a ts =>
        rw [List.getElem?_cons_zero] at hx
        rw [upperBound, if_pos (by rw [Option.some.inj hx]; exact htx)]
    rw [hval t b hb htb, hub]
    simp

/-- Witness of C12: the spot price 100, the dividends `5, 6` at the times `1, 2`, the discount
curve `D(u) = 1 / (1 + u)` and `t = 1`. -/
theorem forwardStockDividends_deducts_upto_witness :
    ∃ f, forwardStockDividends (100 : ℝ) [1, 2] [5, 6] (fun u => some (1 / (1 + u))) = some f
      ∧ f 1 = some (100 / (1 / (1 + 1))
          - ∑ i ∈ (Finset.range [(1 : ℝ), 2].length).filter
                (fun i => [(1 : ℝ), 2].getD i 0 ≤ 1),
              [(5 : ℝ), 6].getD i 0 * (1 / (1 + [(1 : ℝ), 2].getD i 0)) / (1 / (1 + 1)))
      ∧ (∀ x, [(1 : ℝ), 2][0]? = some x → 1 < x → f 1 = some (100 / (1 / (1 + 1)))) :=
  forwardStockDividends_deducts_upto 100 [1, 2] [5, 6] (fun u => 1 / (1 + u)) 1 2 rfl
    (by norm_num) rfl (by norm_num) (by norm_num)

/-- C13, the code at `S0 = 100`, `times = [1]`, `Div = [5]`, `D = 1`, `t = times[0] = 1`: the
curve returns 95, the dividend paid at `t` being deducted, and not
`S0 / D(t) - (sum over i < 0) = 100`. -/
theorem forwardStockDividends_at_dividend_time :
    ∃ f, forwardStockDividends (100 : ℝ) [1] [5] (fun _ => some 1) = some f
      ∧ f 1 = some 95 ∧ (95 : ℝ) ≠ 100 / 1 - 0 := by
  obtain ⟨f, hf, hval⟩ := forwardStockDividends_eq (100 : ℝ) [1] [5] (fun _ => 1) rfl (by simp)
  refine ⟨f, hf, ?_, by norm_num⟩
  rw [hval 1 1 rfl le_rfl]
  norm_num [upperBound]

/-! ## Forward prices of a coupon bond and of an annuity -/

theorem whileLoop_payTimes (D : α → α) (δ t : α) : ∀ (n fuel : Nat) (p s : α), n ≤ fuel →
    (∀ k : Nat, k < n → t < p - k * δ) → p - n * δ ≤ t →
    whileLoop (fun s : α × α => decide (s.1 > t)) (fun s => some (s.1 - δ, s.2 + D s.1))
        fuel (p, s)
      = some (p - n * δ, s + ∑ k ∈ Finset.range n, D (p - k * δ))
  | 0, fuel, p, s, _, _, hstop => by
    have hp : ¬ p > t := by simpa using hstop
    cases fuel <;> simp [whileLoop, hp]
  | n + 1, 0, _, _, h, _, _ => by omega
  | n + 1, fuel + 1, p, s, h, hgo, hstop => by
    have hp : p > t := by simpa using hgo 0 (Nat.succ_pos n)
    have ih := whileLoop_payTimes D δ t n fuel (p - δ) (s + D p) (by omega)
      (fun k hk => by
        have := hgo (k + 1) (by omega)
        push_cast at this
        linarith)
      (by push_cast at hstop; linarith)
    simp only [whileLoop, hp, decide_True, if_true, Option.some_bind, ih]
    rw [Finset.sum_range_succ']
    have hsum : ∑ k ∈ Finset.range n, D (p - δ - k * δ)
        = ∑ k ∈ Finset.range n, D (p - ((k + 1 : ℕ) : α) * δ) :=
      Finset.sum_congr rfl (fun k _ => by push_cast; ring_nf)
    rw [hsum]
    push_cast
    simp only [zero_mul, sub_zero]
    congr 2
    · ring
    · ring

theorem forwardCouponBond_of_loop (fuel : Nat) (q δ T t : α) (D : α → α) (bClean : Bool)
    (p s : α)
    (h : whileLoop (fun s : α × α => decide (s.1 > t)) (fun s => some (s.1 - δ, s.2 + D s.1))
        fuel (T, 0) = some (p, s)) :
    forwardCouponBond fuel q δ T (fun u => some (D u)) bClean t
      = some (if bClean then (s * (q * δ) + D T) / D t - q * (t - p)
          else (s * (q * δ) + D T) / D t) := by
  have hbody : (fun s : α × α => (do
      let d ← (fun u => some (D u)) s.1
      pure (s.1 - δ, s.2 + d) : Option (α × α))) = fun s => some (s.1 - δ, s.2 + D s.1) := rfl
  simp only [forwardCouponBond, hbody, h, Option.bind_eq_bind, Option.some_bind,
    Option.pure_def]

theorem forwardAnnuity_of_loop (fuel : Nat) (q δ T t : α) (D : α → α) (bClean : Bool)
    (p s : α)
    (h : whileLoop (fun s : α × α => decide (s.1 > t)) (fun s => some (s.1 - δ, s.2 + D s.1))
        fuel (T, 0) = some (p, s)) :
    forwardAnnuity fuel q δ T (fun u => some (D u)) bClean t
      = some (if bClean then s * (q * δ) / D t - q * (t - p) else s * (q * δ) / D t) := by
  have hbody : (fun s : α × α => (do
      let d ← (fun u => some (D u)) s.1
      pure (s.1 - δ, s.2 + d) : Option (α × α))) = fun s => some (s.1 - δ, s.2 + D s.1) := rfl
  simp only [forwardAnnuity, hbody, h, Option.bind_eq_bind, Option.some_bind,
    Option.pure_def]

/-- The number of iterations of the payment loop: for a period `δ > 0` there is a least `n`
with `T - n * δ ≤ t`. -/
theorem exists_payCount [Archimedean α] (δ T t : α) (hδ : 0 < δ) :
    ∃ n : Nat, (∀ k : Nat, k < n → t < T - k * δ) ∧ T - n * δ ≤ t := by
  have hex : ∃ n : Nat, T - n * δ ≤ t := by
    obtain ⟨n, hn⟩ := exists_nat_ge ((T - t) / δ)
    refine ⟨n, ?_⟩
    rw [div_le_iff₀ hδ] at hn
    linarith
  classical
  refine ⟨Nat.find hex, fun k hk => ?_, Nat.find_spec hex⟩
  exact not_le.1 (Nat.find_min hex hk)

/-- In exact arithmetic, where no operation rounds: for a coupon rate
`q`, a period `δ > 0`, a maturity `T`, a discount curve `D`, a natural number `k` and the coupon
date `t = T - k * δ` with `D(t) ≠ 0`, the payment loop ends after `k` iterations, and the clean
and the dirty price of `forwardCouponBond` at `t` are the same value. -/
theorem forwardCouponBond_clean_eq_dirty_unrounded (q δ T : α) (D : α → α) (k fuel : Nat)
    (hδ : 0 < δ) (_hD : D (T - k * δ) ≠ 0) (hfuel : k ≤ fuel) :
    ∃ v, forwardCouponBond fuel q δ T (fun u => some (D u)) true (T - k * δ) = some v
      ∧ forwardCouponBond fuel q δ T (fun u => some (D u)) false (T - k * δ) = some v := by
  have hloop := whileLoop_payTimes D δ (T - k * δ) k fuel T 0 hfuel
    (fun j hj => by
      have hjk : (j : α) < k := by exact_mod_cast hj
      nlinarith)
    le_rfl
  refine ⟨_, forwardCouponBond_of_loop fuel q δ T _ D true _ _ hloop, ?_⟩
  rw [forwardCouponBond_of_loop fuel q δ T _ D false _ _ hloop]
  simp

/-- An instance of the theorem above: the rate `1/20`, the period `1/2`, the maturity 3, the
discount curve `D(u) = 1 / (1 + u)` and the coupon date `3 - 2 * (1/2)`, with 2 iterations
allowed. -/
theorem forwardCouponBond_clean_eq_dirty_unrounded_instance :
    ∃ v : ℝ, forwardCouponBond 2 (1 / 20) (1 / 2) 3 (fun u => some (1 / (1 + u))) true
          (3 - ((2 : ℕ) : ℝ) * (1 / 2)) = some v
      ∧ forwardCouponBond 2 (1 / 20) (1 / 2) 3 (fun u => some (1 / (1 + u))) false
          (3 - ((2 : ℕ) : ℝ) * (1 / 2)) = some v :=
  forwardCouponBond_clean_eq_dirty_unrounded (1 / 20) (1 / 2) 3 (fun u => 1 / (1 + u)) 2 2
    (by norm_num) (by norm_num) le_rfl

/-- C15: for a rate `q`, a period `δ > 0`, a maturity `T`, a discount curve `D`, a time `t`
with `D(t) ≠ 0` and both values of `bClean`, the payment loop ends, and with enough
iterations allowed `forwardCouponBond` at `t` is `forwardAnnuity` at `t` plus
`D(T) / D(t)`. -/
theorem forwardCouponBond_eq_annuity_add [Archimedean α] (q δ T t : α) (D : α → α)
    (bClean : Bool) (hδ : 0 < δ) (_hD : D t ≠ 0) :
    ∃ n, ∀ fuel, n ≤ fuel → ∃ a,
      forwardAnnuity fuel q δ T (fun u => some (D u)) bClean t = some a
      ∧ forwardCouponBond fuel q δ T (fun u => some (D u)) bClean t = some (a + D T / D t) := by
  obtain ⟨n, hgo, hstop⟩ := exists_payCount δ T t hδ
  refine ⟨n, fun fuel hfuel => ?_⟩
  have hloop := whileLoop_payTimes D δ t n fuel T 0 hfuel hgo hstop
  refine ⟨_, forwardAnnuity_of_loop fuel q δ T t D bClean _ _ hloop, ?_⟩
  rw [forwardCouponBond_of_loop fuel q δ T t D bClean _ _ hloop]
  cases bClean
  · simp only [Bool.false_eq_true, if_false, add_div]
  · simp only [if_true, add_div]
    congr 1
    ring

/-- Witness of C15: the rate `1/20`, the period `1/2`, the maturity 3, the discount curve
`D(u) = 1 / (1 + u)`, the time `t = 1` and clean prices. -/
theorem forwardCouponBond_eq_annuity_add_witness :
    ∃ n, ∀ fuel, n ≤ fuel → ∃ a : ℝ,
      forwardAnnuity fuel (1 / 20) (1 / 2) 3 (fun u => some (1 / (1 + u))) true 1 = some a
      ∧ forwardCouponBond fuel (1 / 20) (1 / 2) 3 (fun u => some (1 / (1 + u))) true 1
          = some (a + 1 / (1 + 3) / (1 / (1 + 1))) :=
  forwardCouponBond_eq_annuity_add (1 / 20) (1 / 2) 3 1 (fun u => 1 / (1 + u)) true
    (by norm_num) (by norm_num)

/-! ## Forward swap rates -/

theorem swapSum_total (D : α → α) (δ t : α) : ∀ (n i : Nat) (s : α),
    swapSum (fun u => some (D u)) δ t n i s
      = some (s + ∑ j ∈ Finset.range n, D (t + ((i : α) + j + 1) * δ))
  | 0, i, s => by simp [swapSum]
  | n + 1, i, s => by
    have ih := swapSum_total D δ t n (i + 1) (s + D (t + ((i : α) + 1) * δ))
    simp only [swapSum, Option.bind_eq_bind, Option.some_bind, Nat.cast_add, Nat.cast_one, ih]
    rw [Finset.sum_range_succ']
    have hsum : ∑ j ∈ Finset.range n, D (t + ((i : α) + 1 + j + 1) * δ)
        = ∑ j ∈ Finset.range n, D (t + ((i : α) + ((j + 1 : ℕ) : α) + 1) * δ) :=
      Finset.sum_congr rfl (fun j _ => by push_cast; ring_nf)
    rw [hsum]
    simp only [Nat.cast_zero, add_zero]
    rw [add_assoc, add_comm (D _)]

theorem forwardSwapRate_total (D : α → α) (δ t : α) (N : Nat) :
    forwardSwapRate δ N (fun u => some (D u)) t
      = some ((D t - D (t + N * δ)) / ((∑ j ∈ Finset.range N, D (t + ((j : α) + 1) * δ)) * δ)) := by
  simp only [forwardSwapRate, swapSum_total, Option.bind_eq_bind, Option.some_bind,
    Option.pure_def, Nat.cast_zero, zero_add]

/-- C16: on the flat discount curve `D(u) = exp(-r * (u - t0))`, for every rate `r`, initial
time `t0`, period `δ > 0`, number of payments `N ≥ 1` and time `t`, the forward swap rate is
`(exp(r * δ) - 1) / δ`, whatever `t` and `N`. -/
theorem forwardSwapRate_flat (r t0 δ t : ℝ) (N : Nat) (hδ : 0 < δ) (hN : 1 ≤ N) :
    forwardSwapRate δ N (fun u => some (Real.exp (-r * (u - t0)))) t
      = some ((Real.exp (r * δ) - 1) / δ) := by
  rw [forwardSwapRate_total (fun u => Real.exp (-r * (u - t0))) δ t N]
  have hstep : ∀ j : ℕ, Real.exp (-r * (t + ((j : ℝ) + 1) * δ - t0)) * (Real.exp (r * δ) - 1)
      = Real.exp (-r * (t + (j : ℝ) * δ - t0))
        - Real.exp (-r * (t + ((j + 1 : ℕ) : ℝ) * δ - t0)) := by
    intro j
    rw [mul_sub, mul_one, ← Real.exp_add]
    push_cast
    congr 2
    ring
  have htel : (∑ j ∈ Finset.range N, Real.exp (-r * (t + ((j : ℝ) + 1) * δ - t0)))
      * (Real.exp (r * δ) - 1)
      = Real.exp (-r * (t - t0)) - Real.exp (-r * (t + N * δ - t0)) := by
    rw [Finset.sum_mul, Finset.sum_congr rfl (fun j _ => hstep j),
      Finset.sum_range_sub' (fun j : ℕ => Real.exp (-r * (t + (j : ℝ) * δ - t0)))]
    simp
  have hpos : 0 < ∑ j ∈ Finset.range N, Real.exp (-r * (t + ((j : ℝ) + 1) * δ - t0)) :=
    Finset.sum_pos (fun j _ => Real.exp_pos _) (Finset.nonempty_range_iff.2 (by omega))
  congr 1
  rw [div_eq_div_iff (mul_pos hpos hδ).ne' hδ.ne', ← htel]
  ring

/-- Witness of C16: the rate `1/20`, `t0 = 0`, the period `1/2`, 4 payments and `t = 1`. -/
theorem forwardSwapRate_flat_witness :
    forwardSwapRate (1 / 2) 4 (fun u => some (Real.exp (-(1 / 20) * (u - 0)))) 1
      = some ((Real.exp (1 / 20 * (1 / 2)) - 1) / (1 / 2)) :=
  forwardSwapRate_flat (1 / 20) 0 (1 / 2) 1 4 (by norm_num) (by norm_num)

/-- In exact arithmetic, where no operation rounds: for a period `δ > 0`,
`N ≥ 1` payments, a time `t` and a discount curve `D` with `D(t) ≠ 0` and a non-zero sum of
`D(t + i * δ)` over `i = 1..N`, the forward swap rate at `t` is
`R = (D(t) - D(t + N * δ)) / (δ * sum)`, and the dirty price at `t` of the coupon bond of rate
`R`, period `δ` and maturity `t + N * δ` is 1, the payment loop ending after `N` iterations. -/
theorem forwardSwapRate_par_unrounded (δ t : α) (N fuel : Nat) (D : α → α) (hδ : 0 < δ)
    (_hN : 1 ≤ N)
    (hD : D t ≠ 0) (hsum : ∑ i ∈ Finset.range N, D (t + ((i : α) + 1) * δ) ≠ 0)
    (hfuel : N ≤ fuel) :
    forwardSwapRate δ N (fun u => some (D u)) t
        = some ((D t - D (t + N * δ)) / (δ * ∑ i ∈ Finset.range N, D (t + ((i : α) + 1) * δ)))
      ∧ forwardCouponBond fuel
          ((D t - D (t + N * δ)) / (δ * ∑ i ∈ Finset.range N, D (t + ((i : α) + 1) * δ)))
          δ (t + N * δ) (fun u => some (D u)) false t = some 1 := by
  constructor
  · rw [forwardSwapRate_total, mul_comm δ]
  · have hloop := whileLoop_payTimes D δ t N fuel (t + N * δ) 0 hfuel
      (fun k hk => by
        have hkN : (k : α) < N := by exact_mod_cast hk
        nlinarith)
      (by linarith)
    have hrefl : ∑ k ∈ Finset.range N, D (t + N * δ - k * δ)
        = ∑ i ∈ Finset.range N, D (t + ((i : α) + 1) * δ) := by
      rw [← Finset.sum_range_reflect]
      refine Finset.sum_congr rfl (fun k hk => ?_)
      have hk1 : 1 + k ≤ N := by have := Finset.mem_range.1 hk; omega
      rw [Nat.sub_sub, Nat.cast_sub hk1]
      push_cast
      congr 1
      ring
    rw [forwardCouponBond_of_loop fuel _ δ (t + N * δ) t D false _ _ hloop, zero_add, hrefl]
    simp only [Bool.false_eq_true, if_false, Option.some.injEq]
    rw [div_eq_one_iff_eq hD]
    field_simp
    ring

/-- An instance of the theorem above: the period `1/2`, 2 payments, `t = 1` and the discount curve
`D(u) = 1 / (1 + u)`. -/
theorem forwardSwapRate_par_unrounded_instance :
    forwardSwapRate (1 / 2 : ℝ) 2 (fun u => some (1 / (1 + u))) 1
        = some ((1 / (1 + 1) - 1 / (1 + (1 + ((2 : ℕ) : ℝ) * (1 / 2))))
            / (1 / 2 * ∑ i ∈ Finset.range 2, 1 / (1 + (1 + ((i : ℝ) + 1) * (1 / 2)))))
      ∧ forwardCouponBond 2
          ((1 / (1 + 1) - 1 / (1 + (1 + ((2 : ℕ) : ℝ) * (1 / 2))))
            / (1 / 2 * ∑ i ∈ Finset.range 2, 1 / (1 + (1 + ((i : ℝ) + 1) * (1 / 2)))))
          (1 / 2) (1 + ((2 : ℕ) : ℝ) * (1 / 2)) (fun u => some (1 / (1 + u))) false 1
          = some 1 :=
  forwardSwapRate_par_unrounded (1 / 2) 1 2 2 (fun u => 1 / (1 + u)) (by norm_num) (by norm_num)
    (by norm_num) (by norm_num [Finset.sum_range_succ]) le_rfl

/-! ## Forward LIBOR and forward exchange rates -/

/-- C18: for every period `δ`, discount curve `D` and time `t`, `forwardLibor` returns
`(D(t) / max(D(t + δ), EPS) - 1) / max(δ, EPS)`; when `D(t + δ) ≥ EPS` and `δ > EPS` this is
`(D(t) / D(t + δ) - 1) / δ`. -/
theorem forwardLibor_floors (δ t : α) (D : α → α) :
    forwardLibor δ (fun u => some (D u)) t
        = some ((D t / max (D (t + δ)) EPS - 1) / max δ EPS)
      ∧ (D (t + δ) ≥ EPS → δ > EPS →
          forwardLibor δ (fun u => some (D u)) t = some ((D t / D (t + δ) - 1) / δ)) := by
  have hval : forwardLibor δ (fun u => some (D u)) t
      = some ((D t / max (D (t + δ)) EPS - 1) / max δ EPS) := by
    simp only [forwardLibor, Option.bind_eq_bind, Option.some_bind, Option.pure_def]
    by_cases h1 : D (t + δ) < EPS <;> by_cases h2 : δ > EPS
    · simp [h1, h2, max_eq_right h1.le, max_eq_left h2.le]
    · simp [h1, h2, max_eq_right h1.le, max_eq_right (not_lt.1 h2)]
    · simp [h1, h2, max_eq_left (not_lt.1 h1), max_eq_left h2.le]
    · simp [h1, h2, max_eq_left (not_lt.1 h1), max_eq_right (not_lt.1 h2)]
  refine ⟨hval, fun hD hδ => ?_⟩
  rw [hval, max_eq_left hD, max_eq_left hδ.le]

/-- Witness of C18: the period `1/4`, the discount curve `D(u) = 1 / (1 + u)` and `t = 1`. -/
theorem forwardLibor_floors_witness :
    forwardLibor (1 / 4 : ℝ) (fun u => some (1 / (1 + u))) 1
      = some ((1 / (1 + 1) / (1 / (1 + (1 + 1 / 4))) - 1) / (1 / 4)) :=
  (forwardLibor_floors (1 / 4 : ℝ) 1 (fun u => 1 / (1 + u))).2 (by norm_num [EPS])
    (by norm_num [EPS])

/-- C19: for every spot rate `S`, discount curves `Ddom` and `Dfor` and time `t`, the curve of
the three-argument `forwardFX` returns `S * Dfor(t) / max(Ddom(t), EPS)`; when
`Ddom(t) > EPS` this is the value of the two-argument variant `forwardFX(S)` at
`(Ddom(t), Dfor(t))`; and on flat curves of rates `rd` and `rf` it is
`S * exp((rd - rf) * (t - t0))` as long as `exp(-rd * (t - t0)) ≥ EPS`. -/
theorem forwardFX_floor (S t rd rf t0 : ℝ) (Ddom Dfor : ℝ → ℝ) :
    prepExam.forwardFX S (fun u => some (Ddom u)) (fun u => some (Dfor u)) t
        = some (S * Dfor t / max (Ddom t) EPS)
      ∧ (Ddom t > EPS →
          prepExam.forwardFX S (fun u => some (Ddom u)) (fun u => some (Dfor u)) t
            = prep1.forwardFX S (Ddom t) (Dfor t))
      ∧ (Real.exp (-rd * (t - t0)) ≥ EPS →
          prepExam.forwardFX S (fun u => some (Real.exp (-rd * (u - t0))))
              (fun u => some (Real.exp (-rf * (u - t0)))) t
            = some (S * Real.exp ((rd - rf) * (t - t0)))) := by
  have hval : ∀ (A B : ℝ → ℝ), prepExam.forwardFX S (fun u => some (A u)) (fun u => some (B u)) t
      = some (S * B t / max (A t) EPS) := by
    intro A B
    simp only [prepExam.forwardFX, Option.bind_eq_bind, Option.some_bind, Option.pure_def]
    by_cases h : A t < EPS
    · simp [h, max_eq_right h.le]
    · simp [h, max_eq_left (not_lt.1 h)]
  refine ⟨hval Ddom Dfor, fun h => ?_, fun h => ?_⟩
  · rw [hval, max_eq_left h.le]
    simp [prep1.forwardFX, PRECONDITION_pos h]
  · rw [hval (fun u => Real.exp (-rd * (u - t0))) (fun u => Real.exp (-rf * (u - t0))),
      max_eq_left h, mul_div_assoc, ← Real.exp_sub]
    congr 3
    ring

/-- Witness of C19: the spot rate 100, the flat curves of rates `3/25` and `1/20` with
`t0 = 1`, at `t = 3/2`, where the domestic discount factor is at least `exp(-1) > EPS`. -/
theorem forwardFX_floor_witness :
    prepExam.forwardFX (100 : ℝ) (fun u => some (Real.exp (-(3 / 25) * (u - 1))))
        (fun u => some (Real.exp (-(1 / 20) * (u - 1)))) (3 / 2)
      = some (100 * Real.exp ((3 / 25 - 1 / 20) * (3 / 2 - 1))) :=
  (forwardFX_floor 100 (3 / 2) (3 / 25) (1 / 20) 1 (fun _ => 1) (fun _ => 1)).2.2 (by
    have h1 : (-(3 / 25) * (3 / 2 - 1) : ℝ) + 1 ≤ Real.exp (-(3 / 25) * (3 / 2 - 1)) :=
      Real.add_one_le_exp _
    have h2 : (EPS : ℝ) ≤ -(3 / 25) * (3 / 2 - 1) + 1 := by norm_num [EPS]
    exact le_trans h2 h1)

/-- C20: for every spot rate `S`, foreign discount factor `f` and domestic discount factor
`d`, the two-argument `forwardFX(S)` at `(d, f)` returns `S * f / d` when `d > EPS` and fails
when `d ≤ EPS`; at `S = 100`, `d = 0.95`, `f = 0.92` it returns `1840 / 19`. -/
theorem forwardFX_simple (S d f : α) :
    (d > EPS → prep1.forwardFX S d f = some (S * f / d))
      ∧ (d ≤ EPS → prep1.forwardFX S d f = none)
      ∧ prep1.forwardFX (100 : α) (95 / 100) (92 / 100) = some (1840 / 19) := by
  refine ⟨fun h => ?_, fun h => ?_, ?_⟩
  · simp [prep1.forwardFX, PRECONDITION_pos h]
  · simp [prep1.forwardFX, PRECONDITION_neg (not_lt.2 h)]
  · have h : (95 / 100 : α) > EPS := by
      unfold EPS
      norm_num
    simp only [prep1.forwardFX, PRECONDITION_pos h, Option.bind_eq_bind, Option.some_bind,
      Option.pure_def, Option.some.injEq]
    norm_num

/-- Witness of C20: `S = 100`, `d = 19/20`, `f = 23/25`. -/
theorem forwardFX_simple_witness :
    prep1.forwardFX (100 : ℝ) (19 / 20) (23 / 25) = some (100 * (23 / 25) / (19 / 20)) :=
  (forwardFX_simple (100 : ℝ) (19 / 20) (23 / 25)).1 (by norm_num [EPS])

/-! ## The Nelson-Siegel and Svensson yield curves -/

theorem shape1_closed (exp : α → α) (x : α) (hx : x > EPS) :
    shape1 exp x = some ((1 - exp (-x)) / x) := by
  have h0 : x ≥ 0 := le_of_lt (lt_trans EPS_pos hx)
  simp [shape1, PRECONDITION_pos h0, hx]

theorem shape2_closed (exp : α → α) (x : α) (hx : x > EPS) :
    shape2 exp x = some ((1 - exp (-x) * (1 + x)) / x) := by
  have h0 : x ≥ 0 := le_of_lt (lt_trans EPS_pos hx)
  simp [shape2, PRECONDITION_pos h0, hx]

theorem shape1_taylor (exp : α → α) (x : α) (h0 : 0 ≤ x) (hx : x ≤ EPS) :
    shape1 exp x = some (1 - x / 2 + x * x / 6) := by
  simp [shape1, PRECONDITION_pos (show x ≥ 0 from h0), not_lt.2 hx]

theorem shape2_taylor (exp : α → α) (x : α) (h0 : 0 ≤ x) (hx : x ≤ EPS) :
    shape2 exp x = some (x / 2 - x * x / 3) := by
  simp [shape2, PRECONDITION_pos (show x ≥ 0 from h0), not_lt.2 hx]

theorem yieldNelsonSiegel_eq (exp : α → α) (c0 c1 c2 lam t0 : α) (hlam : lam ≥ 0) :
    ∃ Y, yieldNelsonSiegel exp c0 c1 c2 lam t0 = some Y ∧ ∀ t s1 s2, t ≥ t0 →
      shape1 exp (lam * (t - t0)) = some s1 → shape2 exp (lam * (t - t0)) = some s2 →
      Y t = some (c0 + c1 * s1 + c2 * s2) := by
  simp only [yieldNelsonSiegel, PRECONDITION_pos hlam, Option.bind_eq_bind, Option.some_bind,
    Option.pure_def]
  refine ⟨_, rfl, fun t s1 s2 ht h1 h2 => ?_⟩
  simp only [PRECONDITION_pos ht, h1, h2, Option.some_bind]

/-- C21: for every `c0`, `c1`, `c2`, every `lambda ≥ 0` and every `t0`, the Nelson-Siegel
yield curve is built and its value at `t0` is `c0 + c1`; for `c0 = 0.02`, `c1 = 0.04`,
`c2 = 0.06`, `lambda = 0.05`, `t0 = 1.5` the value is `0.06`. -/
theorem yieldNelsonSiegel_at_initial_time (exp : α → α) (c0 c1 c2 lam t0 : α) (hlam : lam ≥ 0) :
    (∃ Y, yieldNelsonSiegel exp c0 c1 c2 lam t0 = some Y ∧ Y t0 = some (c0 + c1))
      ∧ ∃ Y, yieldNelsonSiegel exp (2 / 100) (4 / 100) (6 / 100) (5 / 100) (15 / 10) = some Y
          ∧ Y (15 / 10) = some (6 / 100) := by
  have hgen : ∀ (a b c l u : α), l ≥ 0 →
      ∃ Y, yieldNelsonSiegel exp a b c l u = some Y ∧ Y u = some (a + b) := by
    intro a b c l u hl
    obtain ⟨Y, hY, hval⟩ := yieldNelsonSiegel_eq exp a b c l u hl
    refine ⟨Y, hY, ?_⟩
    have hE : (0 : α) ≤ EPS := EPS_pos.le
    have hx : l * (u - u) = 0 := by rw [sub_self, mul_zero]
    rw [hval u _ _ le_rfl (shape1_taylor exp _ (by rw [hx]) (by rw [hx]; exact hE))
      (shape2_taylor exp _ (by rw [hx]) (by rw [hx]; exact hE)), hx]
    norm_num
  refine ⟨hgen c0 c1 c2 lam t0 hlam, ?_⟩
  obtain ⟨Y, hY, hval⟩ := hgen (2 / 100) (4 / 100) (6 / 100) (5 / 100) (15 / 10) (by norm_num)
  refine ⟨Y, hY, ?_⟩
  rw [hval]
  norm_num

/-- Witness of C21: `c0 = 1`, `c1 = 2`, `c2 = 3`, `lambda = 0`, `t0 = 0`. -/
theorem yieldNelsonSiegel_at_initial_time_witness :
    ∃ Y, yieldNelsonSiegel Real.exp 1 2 3 0 0 = some Y ∧ Y 0 = some (1 + 2) :=
  (yieldNelsonSiegel_at_initial_time Real.exp 1 2 3 0 0 le_rfl).1

/-- C23: for every `c0`, `c1`, `c2`, `lambda > 0`, `t0` and `t` with
`x = lambda * (t - t0) > EPS`, the Nelson-Siegel yield curve is built and its value at `t` is
the documented `c0 + c1 * (1 - exp(-x)) / x + c2 * ((1 - exp(-x)) / x - exp(-x))`; and for
every `x > EPS`, `shape2(x) = shape1(x) - exp(-x)`. -/
theorem yieldNelsonSiegel_closed_form (exp : α → α) (c0 c1 c2 lam t0 t x : α) (hlam : lam > 0)
    (ht : lam * (t - t0) > EPS) (hx : x > EPS) :
    (∃ Y, yieldNelsonSiegel exp c0 c1 c2 lam t0 = some Y
        ∧ Y t = some (c0 + c1 * (1 - exp (-(lam * (t - t0)))) / (lam * (t - t0))
            + c2 * ((1 - exp (-(lam * (t - t0)))) / (lam * (t - t0))
              - exp (-(lam * (t - t0))))))
      ∧ ∃ s1 s2, shape1 exp x = some s1 ∧ shape2 exp x = some s2 ∧ s2 = s1 - exp (-x) := by
  have hE : (0 : α) < EPS := EPS_pos
  have hsub : ∀ y : α, y > EPS → (1 - exp (-y) * (1 + y)) / y = (1 - exp (-y)) / y - exp (-y) := by
    intro y hy
    have hy0 : y ≠ 0 := (lt_trans hE hy).ne'
    field_simp
    ring
  constructor
  · obtain ⟨Y, hY, hval⟩ := yieldNelsonSiegel_eq exp c0 c1 c2 lam t0 hlam.le
    refine ⟨Y, hY, ?_⟩
    have htt0 : t ≥ t0 := by
      by_contra hlt
      have : lam * (t - t0) ≤ 0 := mul_nonpos_of_nonneg_of_nonpos hlam.le (by linarith)
      linarith
    rw [hval t _ _ htt0 (shape1_closed exp _ ht) (shape2_closed exp _ ht), hsub _ ht,
      mul_div_assoc]
  · exact ⟨_, _, shape1_closed exp x hx, shape2_closed exp x hx, hsub x hx⟩

/-- Witness of C23: `c0 = 0.02`, `c1 = 0.04`, `c2 = 0.06`, `lambda = 1`, `t0 = 0`, `t = 1`
and `x = 1`. -/
theorem yieldNelsonSiegel_closed_form_witness :
    ∃ s1 s2, shape1 Real.exp 1 = some s1 ∧ shape2 Real.exp 1 = some s2
      ∧ s2 = s1 - Real.exp (-1) :=
  (yieldNelsonSiegel_closed_form Real.exp (2 / 100) (4 / 100) (6 / 100) 1 0 1 1 (by norm_num)
    (by norm_num [EPS]) (by norm_num [EPS])).2

theorem prepExam_shape1_eq (exp : α → α) (x : α) : prepExam.shape1 exp x = shape1 exp x := rfl

theorem prepExam_shape2_eq (exp : α → α) (x : α) : prepExam.shape2 exp x = shape2 exp x := rfl

theorem yieldSvensson_eq (exp : α → α) (c0 c1 c2 c3 lam1 lam2 t0 : α) (hne : lam1 ≠ lam2) :
    yieldSvensson exp c0 c1 c2 c3 lam1 lam2 t0 = some (fun dT => do
      PRECONDITION (dT ≥ t0)
      let s1 ← prepExam.shape1 exp (lam1 * (dT - t0))
      let s2 ← prepExam.shape2 exp (lam1 * (dT - t0))
      let s3 ← prepExam.shape2 exp (lam2 * (dT - t0))
      pure (c0 + c1 * s1 + c2 * s2 + c3 * s3)) := by
  simp only [yieldSvensson, PRECONDITION_pos hne, Option.bind_eq_bind, Option.some_bind,
    Option.pure_def]

/-- C24: for every `c0`, `c1`, `c2`, `c3`, every `lambda1, lambda2 ≥ 0` with
`lambda1 ≠ lambda2`, every `t0` and `t ≥ t0`, the Svensson yield curve is built and its value
at `t` is the value of the Nelson-Siegel curve of `c0`, `c1`, `c2`, `lambda1` at `t` plus
`c3 * shape2(lambda2 * (t - t0))`; the construction fails when `lambda1 = lambda2`. -/
theorem yieldSvensson_eq_nelsonSiegel_add (exp : α → α) (c0 c1 c2 c3 lam1 lam2 t0 t : α)
    (h1 : lam1 ≥ 0) (h2 : lam2 ≥ 0) (hne : lam1 ≠ lam2) (ht : t ≥ t0) :
    (∃ S Y y s, yieldSvensson exp c0 c1 c2 c3 lam1 lam2 t0 = some S
        ∧ yieldNelsonSiegel exp c0 c1 c2 lam1 t0 = some Y
        ∧ Y t = some y ∧ prepExam.shape2 exp (lam2 * (t - t0)) = some s
        ∧ S t = some (y + c3 * s))
      ∧ yieldSvensson exp c0 c1 c2 c3 lam1 lam1 t0 = none := by
  constructor
  · obtain ⟨Y, hY, hval⟩ := yieldNelsonSiegel_eq exp c0 c1 c2 lam1 t0 h1
    have hx1 : 0 ≤ lam1 * (t - t0) := mul_nonneg h1 (by linarith)
    have hx2 : 0 ≤ lam2 * (t - t0) := mul_nonneg h2 (by linarith)
    obtain ⟨s1, hs1⟩ := shape1_isSome exp _ hx1
    obtain ⟨s2, hs2⟩ := shape2_isSome exp _ hx1
    obtain ⟨s3, hs3⟩ := shape2_isSome exp _ hx2
    refine ⟨_, Y, _, s3, yieldSvensson_eq exp c0 c1 c2 c3 lam1 lam2 t0 hne, hY,
      hval t s1 s2 ht hs1 hs2, hs3, ?_⟩
    simp only [PRECONDITION_pos ht, prepExam_shape1_eq, prepExam_shape2_eq, hs1, hs2, hs3,
      Option.bind_eq_bind, Option.some_bind, Option.pure_def]
  · simp [yieldSvensson, PRECONDITION]

/-- Witness of C24: the parameters of the test, `c = (0.02, 0.04, 0.06, 0.03)`,
`lambda1 = 0.05`, `lambda2 = 0.07`, `t0 = 1.5`, at `t = 2`. -/
theorem yieldSvensson_eq_nelsonSiegel_add_witness :
    (∃ S Y y s, yieldSvensson Real.exp (2 / 100) (4 / 100) (6 / 100) (3 / 100) (5 / 100)
          (7 / 100) (3 / 2) = some S
        ∧ yieldNelsonSiegel Real.exp (2 / 100) (4 / 100) (6 / 100) (5 / 100) (3 / 2) = some Y
        ∧ Y 2 = some y ∧ prepExam.shape2 Real.exp (7 / 100 * (2 - 3 / 2)) = some s
        ∧ S 2 = some (y + 3 / 100 * s))
      ∧ yieldSvensson Real.exp (2 / 100) (4 / 100) (6 / 100) (3 / 100) (5 / 100) (5 / 100)
          (3 / 2) = none :=
  yieldSvensson_eq_nelsonSiegel_add Real.exp (2 / 100) (4 / 100) (6 / 100) (3 / 100) (5 / 100)
    (7 / 100) (3 / 2) 2 (by norm_num) (by norm_num) (by norm_num) (by norm_num)

/-- C25, the code at `lambda1 = -1/20`, `lambda2 = 7/100`, `t0 = 3/2`: the construction
succeeds although `lambda1 < 0`, and the evaluation of the curve at `t = 2 ≥ t0` fails, on
the precondition `dX >= 0` of `shape1`. -/
theorem yieldSvensson_negative_rate_accepted :
    ∃ S, yieldSvensson Real.exp (2 / 100) (4 / 100) (6 / 100) (3 / 100) (-(1 / 20)) (7 / 100)
        (3 / 2) = some S ∧ S 2 = none := by
  refine ⟨_, yieldSvensson_eq Real.exp _ _ _ _ _ _ _ (by norm_num), ?_⟩
  have h : ¬ (-(1 / 20) * (2 - 3 / 2) : ℝ) ≥ 0 := by norm_num
  simp only [prepExam.shape1, PRECONDITION_neg h, Option.bind_eq_bind, Option.none_bind,
    Option.bind_none, Option.bind_eq_none]

theorem tendsto_shape1_closed_atTop :
    Filter.Tendsto (fun x : ℝ => (1 - Real.exp (-x)) / x) Filter.atTop (nhds 0) := by
  have h1 : Filter.Tendsto (fun x : ℝ => 1 - Real.exp (-x)) Filter.atTop (nhds (1 - 0)) :=
    tendsto_const_nhds.sub Real.tendsto_exp_neg_atTop_nhds_zero
  exact h1.div_atTop Filter.tendsto_id

theorem yieldNelsonSiegel_tendsto (c0 c1 c2 lam t0 : ℝ) (hlam : lam > 0) :
    ∃ Y, yieldNelsonSiegel Real.exp c0 c1 c2 lam t0 = some Y
      ∧ Filter.Tendsto (fun t => (Y t).getD 0) Filter.atTop (nhds c0) := by
  obtain ⟨Y, hY, hval⟩ := yieldNelsonSiegel_eq Real.exp c0 c1 c2 lam t0 hlam.le
  refine ⟨Y, hY, ?_⟩
  have hx : Filter.Tendsto (fun t : ℝ => lam * (t - t0)) Filter.atTop Filter.atTop :=
    (Filter.tendsto_atTop_add_const_right Filter.atTop (-t0)
      Filter.tendsto_id).const_mul_atTop hlam
  have hs1 : Filter.Tendsto (fun t : ℝ => (1 - Real.exp (-(lam * (t - t0)))) / (lam * (t - t0)))
      Filter.atTop (nhds 0) := tendsto_shape1_closed_atTop.comp hx
  have he : Filter.Tendsto (fun t : ℝ => Real.exp (-(lam * (t - t0)))) Filter.atTop (nhds 0) :=
    Real.tendsto_exp_neg_atTop_nhds_zero.comp hx
  have hg : Filter.Tendsto (fun t : ℝ => c0
      + c1 * ((1 - Real.exp (-(lam * (t - t0)))) / (lam * (t - t0)))
      + c2 * ((1 - Real.exp (-(lam * (t - t0)))) / (lam * (t - t0))
          - Real.exp (-(lam * (t - t0))))) Filter.atTop (nhds (c0 + c1 * 0 + c2 * (0 - 0))) :=
    (tendsto_const_nhds.add (hs1.const_mul c1)).add ((hs1.sub he).const_mul c2)
  have hlim : c0 + c1 * 0 + c2 * (0 - 0) = c0 := by ring
  rw [hlim] at hg
  refine hg.congr' ?_
  filter_upwards [hx.eventually (Filter.eventually_gt_atTop (EPS : ℝ)),
    Filter.eventually_ge_atTop t0] with t ht htt0
  have hE : (0 : ℝ) < EPS := EPS_pos
  have hne : lam * (t - t0) ≠ 0 := (lt_trans hE ht).ne'
  rw [hval t _ _ htt0 (shape1_closed Real.exp _ ht) (shape2_closed Real.exp _ ht)]
  simp only [Option.getD_some]
  congr 2
  field_simp
  ring

/-- C22, as amended: for `c0 = 0.02`, `c1 = 0.04`, `c2 = 0.06`, `lambda = 0.05`, `t0 = 1.5` the
Nelson-Siegel yield is `c0 + c1 = 0.06` at `t0` and tends to `c0 = 0.02` as `t` tends to
infinity. -/
theorem yieldNelsonSiegel_long_end :
    ∃ Y, yieldNelsonSiegel Real.exp (2 / 100) (4 / 100) (6 / 100) (5 / 100) (15 / 10) = some Y
      ∧ Y (15 / 10) = some (6 / 100)
      ∧ Filter.Tendsto (fun t => (Y t).getD 0) Filter.atTop (nhds (2 / 100)) := by
  obtain ⟨Y, hY, hlim⟩ := yieldNelsonSiegel_tendsto (2 / 100) (4 / 100) (6 / 100) (5 / 100)
    (15 / 10) (by norm_num)
  obtain ⟨Y1, hY1, hval⟩ := yieldNelsonSiegel_eq Real.exp (2 / 100 : ℝ) (4 / 100) (6 / 100)
    (5 / 100) (15 / 10) (by norm_num)
  rw [hY] at hY1
  obtain rfl := Option.some.inj hY1
  refine ⟨Y, hY, ?_, hlim⟩
  have hE : (0 : ℝ) ≤ EPS := EPS_pos.le
  have hx : (5 / 100 : ℝ) * (15 / 10 - 15 / 10) = 0 := by norm_num
  rw [hval _ _ _ le_rfl (shape1_taylor Real.exp _ (by rw [hx]) (by rw [hx]; exact hE))
    (shape2_taylor Real.exp _ (by rw [hx]) (by rw [hx]; exact hE)), hx]
  norm_num

/-- Counterexample to C22: for `c0 = 0.02`, `c1 = 0.04`, `c2 = 0.06`, `lambda = 0.05`,
`t0 = 1.5` the yield at `t = 2001.5` is below the yield at `t0 = 1.5`, so the yield is not
increasing on `[t0, infinity)`, and it does not tend to `c0 + c1 + c2 = 0.12`. -/
theorem yieldNelsonSiegel_long_end_not_increasing :
    ∃ Y y1 y2, yieldNelsonSiegel Real.exp (2 / 100) (4 / 100) (6 / 100) (5 / 100) (15 / 10)
        = some Y
      ∧ Y (15 / 10) = some y1 ∧ Y (20015 / 10) = some y2 ∧ y2 < y1
      ∧ ¬ Filter.Tendsto (fun t => (Y t).getD 0) Filter.atTop (nhds (12 / 100)) := by
  obtain ⟨Y, hY, hlim⟩ := yieldNelsonSiegel_tendsto (2 / 100) (4 / 100) (6 / 100) (5 / 100)
    (15 / 10) (by norm_num)
  obtain ⟨Y1, hY1, hval⟩ := yieldNelsonSiegel_eq Real.exp (2 / 100 : ℝ) (4 / 100) (6 / 100)
    (5 / 100) (15 / 10) (by norm_num)
  rw [hY] at hY1
  obtain rfl := Option.some.inj hY1
  have hE : (0 : ℝ) ≤ EPS := EPS_pos.le
  have hx : (5 / 100 : ℝ) * (15 / 10 - 15 / 10) = 0 := by norm_num
  have hx2 : (5 / 100 : ℝ) * (20015 / 10 - 15 / 10) = 100 := by norm_num
  have h100 : (100 : ℝ) > EPS := by norm_num [EPS]
  refine ⟨Y, _, _, hY,
    hval _ _ _ le_rfl (shape1_taylor Real.exp _ (by rw [hx]) (by rw [hx]; exact hE))
      (shape2_taylor Real.exp _ (by rw [hx]) (by rw [hx]; exact hE)),
    hval _ _ _ (by norm_num) (by rw [hx2]; exact shape1_closed Real.exp _ h100)
      (by rw [hx2]; exact shape2_closed Real.exp _ h100), ?_, ?_⟩
  · have hpos : 0 < Real.exp (-100) := Real.exp_pos _
    have h1 : (1 - Real.exp (-100)) / 100 < 1 / 100 := by linarith
    have h2 : (1 - Real.exp (-100) * (1 + 100)) / 100 < 1 / 100 := by linarith
    rw [hx]
    norm_num at h1 h2 ⊢
    linarith
  · intro h
    have := tendsto_nhds_unique h hlim
    norm_num at this

/-! ## The Vasicek and Hull-White curves -/

theorem prep2_shape1_eq (exp : α → α) (x : α) : prep2.shape1 exp x = shape1 exp x := rfl

theorem yieldVasicek_eq (exp : α → α) (theta lam sigma r0 t0 : α) (hlam : lam > 0)
    (hsigma : sigma > 0) :
    ∃ Y, yieldVasicek exp theta lam sigma r0 t0 = some Y ∧ ∀ t A B, t ≥ t0 →
      shape1 exp (lam * (t - t0)) = some A → shape1 exp (2 * (lam * (t - t0))) = some B →
      Y t = some (r0 * A + (theta / lam) * (1 - A)
        - (sigma ^ 2 / 2 / lam ^ 2) * (1 - 2 * A + B)) := by
  simp only [yieldVasicek, PRECONDITION_pos hlam, PRECONDITION_pos hsigma, Option.bind_eq_bind,
    Option.some_bind, Option.pure_def]
  refine ⟨_, rfl, fun t A B ht hA hB => ?_⟩
  simp only [PRECONDITION_pos ht, prep2_shape1_eq, hA, hB, Option.some_bind]

theorem yieldVasicek_eq_none_iff (exp : α → α) (theta lam sigma r0 t0 : α) :
    yieldVasicek exp theta lam sigma r0 t0 = none ↔ lam ≤ 0 ∨ sigma ≤ 0 := by
  by_cases h1 : lam > 0
  · by_cases h2 : sigma > 0
    · obtain ⟨Y, hY, -⟩ := yieldVasicek_eq exp theta lam sigma r0 t0 h1 h2
      simp [hY, h1, h2]
    · simp [yieldVasicek, PRECONDITION_pos h1, PRECONDITION_neg h2, not_lt.1 h2]
  · simp [yieldVasicek, PRECONDITION_neg h1, not_lt.1 h1]

theorem discountVasicek_eq (exp : α → α) (theta lam sigma r0 t0 : α) (hlam : lam > 0)
    (hsigma : sigma > 0) :
    ∃ D Y, discountVasicek exp theta lam sigma r0 t0 = some D
      ∧ yieldVasicek exp theta lam sigma r0 t0 = some Y
      ∧ ∀ t y, t ≥ t0 → Y t = some y → D t = some (exp (-y * (t - t0))) := by
  obtain ⟨Y, hY, -⟩ := yieldVasicek_eq exp theta lam sigma r0 t0 hlam hsigma
  simp only [discountVasicek, PRECONDITION_pos hlam, PRECONDITION_pos hsigma, hY,
    Option.bind_eq_bind, Option.some_bind, Option.pure_def]
  refine ⟨_, Y, rfl, rfl, fun t y ht hy => ?_⟩
  simp only [PRECONDITION_pos ht, hy, Option.some_bind]

/-- C26: the construction of `yieldVasicek` and of `discountVasicek` fails if and only if
`lambda ≤ 0` or `sigma ≤ 0`; when `lambda > 0` and `sigma > 0`, for every `t ≥ t0` the yield is
`r0 * A + (theta / lambda) * (1 - A) - (sigma^2 / (2 * lambda^2)) * (1 - 2 * A + B)` with
`A = shape1(lambda * (t - t0))` and `B = shape1(2 * lambda * (t - t0))`. -/
theorem yieldVasicek_validation (exp : α → α) (theta lam sigma r0 t0 t : α) :
    (yieldVasicek exp theta lam sigma r0 t0 = none ↔ lam ≤ 0 ∨ sigma ≤ 0)
      ∧ (discountVasicek exp theta lam sigma r0 t0 = none ↔ lam ≤ 0 ∨ sigma ≤ 0)
      ∧ (lam > 0 → sigma > 0 → t ≥ t0 →
          ∃ Y A B, yieldVasicek exp theta lam sigma r0 t0 = some Y
            ∧ prep2.shape1 exp (lam * (t - t0)) = some A
            ∧ prep2.shape1 exp (2 * lam * (t - t0)) = some B
            ∧ Y t = some (r0 * A + (theta / lam) * (1 - A)
                - (sigma ^ 2 / (2 * lam ^ 2)) * (1 - 2 * A + B))) := by
  refine ⟨yieldVasicek_eq_none_iff exp theta lam sigma r0 t0, ?_, fun h1 h2 ht => ?_⟩
  · by_cases h1 : lam > 0
    · by_cases h2 : sigma > 0
      · obtain ⟨D, Y, hD, -, -⟩ := discountVasicek_eq exp theta lam sigma r0 t0 h1 h2
        simp [hD, h1, h2]
      · simp [discountVasicek, PRECONDITION_pos h1, PRECONDITION_neg h2, not_lt.1 h2]
    · simp [discountVasicek, PRECONDITION_neg h1, not_lt.1 h1]
  · obtain ⟨Y, hY, hval⟩ := yieldVasicek_eq exp theta lam sigma r0 t0 h1 h2
    have hx : 0 ≤ lam * (t - t0) := mul_nonneg h1.le (by linarith)
    obtain ⟨A, hA⟩ := shape1_isSome exp _ hx
    obtain ⟨B, hB⟩ := shape1_isSome exp (2 * (lam * (t - t0))) (by linarith)
    refine ⟨Y, A, B, hY, hA, by rw [mul_assoc]; exact hB, ?_⟩
    rw [hval t A B ht hA hB, div_div]

/-- Witness of C26: `theta = 0.03`, `lambda = 0.05`, `sigma = 0.2`, `r0 = 0.04`, `t0 = 1`,
`t = 2`. -/
theorem yieldVasicek_validation_witness :
    ∃ Y A B, yieldVasicek Real.exp (3 / 100) (5 / 100) (2 / 10) (4 / 100) 1 = some Y
      ∧ prep2.shape1 Real.exp (5 / 100 * (2 - 1)) = some A
      ∧ prep2.shape1 Real.exp (2 * (5 / 100) * (2 - 1)) = some B
      ∧ Y 2 = some (4 / 100 * A + (3 / 100 / (5 / 100)) * (1 - A)
          - ((2 / 10) ^ 2 / (2 * (5 / 100) ^ 2)) * (1 - 2 * A + B)) :=
  (yieldVasicek_validation Real.exp (3 / 100) (5 / 100) (2 / 10) (4 / 100) 1 2).2.2
    (by norm_num) (by norm_num) (by norm_num)

theorem volatilityHullWhite_eq (exp sqrt : α → α) (sigma lam t0 : α) (hlam : lam ≥ 0)
    (hsigma : sigma > 0) :
    ∃ V, volatilityHullWhite exp sqrt sigma lam t0 = some V
      ∧ (∀ s t, ¬ (s ≥ t0 ∧ s < t) → V s t = none)
      ∧ (∀ s t x, s ≥ t0 → s < t → shape1 exp (2 * (lam * (s - t0))) = some x →
          V s t = some (if lam ≠ 0 then sigma * ((1 - exp (-(lam * (t - s)))) / lam) * sqrt x
            else sigma * ((t - s) - (t - s) ^ 2 * lam / 2 + (t - s) ^ 3 * lam ^ 2 / 6
              - (t - s) ^ 4 * lam ^ 3 / 24) * sqrt x)) := by
  simp only [volatilityHullWhite, PRECONDITION_pos hlam, PRECONDITION_pos hsigma,
    Option.bind_eq_bind, Option.some_bind, Option.pure_def]
  refine ⟨_, rfl, fun s t h => ?_, fun s t x hs hst hx => ?_⟩
  · simp only [PRECONDITION_neg h, Option.none_bind]
  · simp only [PRECONDITION_pos (And.intro hs hst), prep2_shape1_eq, hx, Option.some_bind]
    by_cases h0 : lam ≠ 0
    · simp only [h0, ne_eq, not_false_eq_true, if_true, Option.some_bind, Option.bind_some]
    · simp only [h0, if_false, Option.some_bind, Option.bind_some]

/-- C27: for `sigma > 0` and `lambda > 0` the Hull-White volatility curve is built, its
evaluation at `(s, t)` succeeds if and only if `t0 ≤ s < t`, and it then returns
`sigma * (1 - exp(-lambda * (t - s))) / lambda * sqrt(shape1(2 * lambda * (s - t0)))`, which
for `2 * lambda * (s - t0) > EPS` is the documented `sigma * (1 - exp(-lambda * (t - s))) /
lambda * sqrt((1 - exp(-2 * lambda * (s - t0))) / (2 * lambda * (s - t0)))`. -/
theorem volatilityHullWhite_value (exp sqrt : α → α) (sigma lam t0 s t : α)
    (hsigma : sigma > 0) (hlam : lam > 0) :
    ∃ V, volatilityHullWhite exp sqrt sigma lam t0 = some V
      ∧ ((∃ v, V s t = some v) ↔ (t0 ≤ s ∧ s < t))
      ∧ (t0 ≤ s → s < t → ∃ x, prep2.shape1 exp (2 * lam * (s - t0)) = some x
          ∧ V s t = some (sigma * (1 - exp (-lam * (t - s))) / lam * sqrt x))
      ∧ (t0 ≤ s → s < t → 2 * lam * (s - t0) > EPS →
          V s t = some (sigma * (1 - exp (-lam * (t - s))) / lam
            * sqrt ((1 - exp (-2 * lam * (s - t0))) / (2 * lam * (s - t0))))) := by
  obtain ⟨V, hV, hnone, hval⟩ := volatilityHullWhite_eq exp sqrt sigma lam t0 hlam.le hsigma
  have hne : lam ≠ 0 := hlam.ne'
  have hform : ∀ x, s ≥ t0 → s < t → shape1 exp (2 * (lam * (s - t0))) = some x →
      V s t = some (sigma * (1 - exp (-lam * (t - s))) / lam * sqrt x) := by
    intro x hs hst hx
    rw [hval s t x hs hst hx, if_pos hne, mul_div_assoc, neg_mul]
  refine ⟨V, hV, ⟨fun ⟨v, hv⟩ => ?_, fun ⟨hs, hst⟩ => ?_⟩, fun hs hst => ?_, fun hs hst hx => ?_⟩
  · by_contra h
    rw [hnone s t h] at hv
    exact Option.noConfusion hv
  · obtain ⟨x, hx⟩ := shape1_isSome exp (2 * (lam * (s - t0)))
      (by have := mul_nonneg hlam.le (sub_nonneg.2 hs); linarith)
    exact ⟨_, hform x hs hst hx⟩
  · obtain ⟨x, hx⟩ := shape1_isSome exp (2 * (lam * (s - t0)))
      (by have := mul_nonneg hlam.le (sub_nonneg.2 hs); linarith)
    exact ⟨x, by rw [mul_assoc]; exact hx, hform x hs hst hx⟩
  · have hx' : 2 * (lam * (s - t0)) > EPS := by rw [← mul_assoc]; exact hx
    rw [hform _ hs hst (shape1_closed exp _ hx'),
      show -2 * lam * (s - t0) = -(2 * (lam * (s - t0))) by ring,
      show 2 * lam * (s - t0) = 2 * (lam * (s - t0)) by ring]

/-- Witness of C27: `sigma = 0.2`, `lambda = 0.05`, `t0 = 0.75`, `s = 1`, `t = 1.5`. -/
theorem volatilityHullWhite_value_witness :
    ∃ V, volatilityHullWhite Real.exp Real.sqrt (2 / 10) (5 / 100) (3 / 4) = some V
      ∧ ((∃ v, V 1 (3 / 2) = some v) ↔ ((3 / 4 : ℝ) ≤ 1 ∧ (1 : ℝ) < 3 / 2))
      ∧ ((3 / 4 : ℝ) ≤ 1 → (1 : ℝ) < 3 / 2 →
          ∃ x, prep2.shape1 Real.exp (2 * (5 / 100) * (1 - 3 / 4)) = some x
          ∧ V 1 (3 / 2) = some (2 / 10 * (1 - Real.exp (-(5 / 100) * (3 / 2 - 1))) / (5 / 100)
              * Real.sqrt x))
      ∧ ((3 / 4 : ℝ) ≤ 1 → (1 : ℝ) < 3 / 2 → 2 * (5 / 100) * (1 - 3 / 4) > (EPS : ℝ) →
          V 1 (3 / 2) = some (2 / 10 * (1 - Real.exp (-(5 / 100) * (3 / 2 - 1))) / (5 / 100)
            * Real.sqrt ((1 - Real.exp (-2 * (5 / 100) * (1 - 3 / 4)))
                / (2 * (5 / 100) * (1 - 3 / 4))))) :=
  volatilityHullWhite_value Real.exp Real.sqrt (2 / 10) (5 / 100) (3 / 4) 1 (3 / 2)
    (by norm_num) (by norm_num)

/-! ## Discount curves at the initial time -/

/-- C30: every discount curve is built and equals 1 at the initial time: the Nelson-Siegel
curve for `lambda ≥ 0`, the Vasicek curve for `lambda, sigma > 0`, the curve of
`discountLogLinInterp` for a series of equal lengths with strictly increasing times,
`times[0] > t0` and positive discount factors, and the curve of `discountYieldLinInterp`
for such a series with `times[0] > t0 + EPS` and every `dR`. -/
theorem discount_at_initial_time (c0 c1 c2 lam theta lamV sigma r0 dR t0 x0 y0 : ℝ)
    (times DF timesY DFY : List ℝ) (hlam : lam ≥ 0) (hlamV : lamV > 0) (hsigma : sigma > 0)
    (hlen : times.length = DF.length) (hs : times.Pairwise (· < ·))
    (h0 : times[0]? = some x0) (hx0 : x0 > t0) (_hpos : ∀ d ∈ DF, 0 < d)
    (hlenY : timesY.length = DFY.length) (hsY : timesY.Pairwise (· < ·))
    (h0Y : timesY[0]? = some y0) (hy0 : y0 > t0 + EPS) (_hposY : ∀ d ∈ DFY, 0 < d) :
    (∃ D, discountNelsonSiegel Real.exp c0 c1 c2 lam t0 = some D ∧ D t0 = some 1)
      ∧ (∃ D, discountVasicek Real.exp theta lamV sigma r0 t0 = some D ∧ D t0 = some 1)
      ∧ (∃ D, discountLogLinInterp Real.exp Real.log times DF t0 = some D ∧ D t0 = some 1)
      ∧ (∃ D, discountYieldLinInterp Real.exp Real.log timesY DFY dR t0 = some D
          ∧ D t0 = some 1) := by
  have hE : (0 : ℝ) < EPS := EPS_pos
  refine ⟨?_, ?_, ?_, ?_⟩
  · have hx : 0 ≤ lam * (t0 - t0) := by rw [sub_self, mul_zero]
    obtain ⟨s1, hs1⟩ := shape1_isSome Real.exp _ hx
    obtain ⟨s2, hs2⟩ := shape2_isSome Real.exp _ hx
    simp only [discountNelsonSiegel, yieldNelsonSiegel, PRECONDITION_pos hlam,
      Option.bind_eq_bind, Option.some_bind, Option.pure_def]
    refine ⟨_, rfl, ?_⟩
    simp only [PRECONDITION_pos (le_refl t0), hs1, hs2, Option.some_bind]
    rw [sub_self, mul_zero, Real.exp_zero]
  · obtain ⟨Y1, hY1, hYval⟩ := yieldVasicek_eq Real.exp theta lamV sigma r0 t0 hlamV hsigma
    obtain ⟨D1, Y2, hD1, hY2, hDval1⟩ :=
      discountVasicek_eq Real.exp theta lamV sigma r0 t0 hlamV hsigma
    rw [hY1] at hY2
    obtain rfl := Option.some.inj hY2
    have hx : 0 ≤ lamV * (t0 - t0) := by rw [sub_self, mul_zero]
    obtain ⟨A, hA⟩ := shape1_isSome Real.exp _ hx
    obtain ⟨B, hB⟩ := shape1_isSome Real.exp (2 * (lamV * (t0 - t0))) (by linarith)
    refine ⟨D1, hD1, ?_⟩
    rw [hDval1 t0 _ le_rfl (hYval t0 A B le_rfl hA hB), sub_self, mul_zero, Real.exp_zero]
  · refine ⟨_, discountLogLinInterp_eq Real.exp Real.log hlen hs h0 hx0, ?_⟩
    obtain ⟨hi, -⟩ := List.getElem?_eq_some.1 h0
    have hd : DF[0]? = some (DF[0]) := List.getElem?_eq_getElem (by omega)
    rw [discountLogLinInterpLambda_first Real.exp Real.log hs h0 hd le_rfl hx0.le, sub_self,
      zero_div, zero_mul, Real.log_one, add_zero, Real.exp_zero]
  · refine ⟨_, discountYieldLinInterp_eq Real.exp Real.log dR hlenY hsY h0Y (by linarith), ?_⟩
    obtain ⟨hi, -⟩ := List.getElem?_eq_some.1 h0Y
    have hd : DFY[0]? = some (DFY[0]) := List.getElem?_eq_getElem (by omega)
    rw [discountYieldLinInterpLambda_first Real.exp Real.log hsY h0Y hd hy0 le_rfl
      (by linarith), sub_self, mul_zero, Real.exp_zero]

/-- Witness of C30: the Nelson-Siegel and Vasicek parameters of the tests with `t0 = 0`, and
the series `(1, 1/2), (2, 1/4)`. -/
theorem discount_at_initial_time_witness :
    (∃ D, discountNelsonSiegel Real.exp (2 / 100) (4 / 100) (6 / 100) (5 / 100) 0 = some D
        ∧ D 0 = some 1)
      ∧ (∃ D, discountVasicek Real.exp (3 / 100) (5 / 100) (2 / 10) (4 / 100) 0 = some D
        ∧ D 0 = some 1)
      ∧ (∃ D, discountLogLinInterp Real.exp Real.log [1, 2] [1 / 2, 1 / 4] 0 = some D
        ∧ D 0 = some 1)
      ∧ (∃ D, discountYieldLinInterp Real.exp Real.log [1, 2] [1 / 2, 1 / 4] (1 / 20) 0 = some D
          ∧ D 0 = some 1) :=
  discount_at_initial_time (2 / 100) (4 / 100) (6 / 100) (5 / 100) (3 / 100) (5 / 100) (2 / 10)
    (4 / 100) (1 / 20) 0 1 1 [1, 2] [1 / 2, 1 / 4] [1, 2] [1 / 2, 1 / 4] (by norm_num)
    (by norm_num) (by norm_num) rfl (by simp) rfl (by norm_num) (by simp) rfl (by simp) rfl
    (by norm_num [EPS]) (by simp)

/-! ## The Hull-White volatility at `lambda = 0` -/

theorem tendsto_one_sub_exp_div (tau : ℝ) :
    Filter.Tendsto (fun lam : ℝ => (1 - Real.exp (-(lam * tau))) / lam)
      (nhdsWithin 0 (Set.Ioi 0)) (nhds tau) := by
  have hd : HasDerivAt (fun lam : ℝ => -Real.exp (-(lam * tau))) tau 0 := by
    have h1 : HasDerivAt (fun lam : ℝ => -(lam * tau)) (-(1 * tau)) 0 :=
      ((hasDerivAt_id (0 : ℝ)).mul_const tau).neg
    have h2 := h1.exp.neg
    simpa using h2
  have hlim := hasDerivAt_iff_tendsto_slope_zero.1 hd
  have hmono : nhdsWithin (0 : ℝ) (Set.Ioi 0) ≤ nhdsWithin 0 {0}ᶜ :=
    nhdsWithin_mono 0 (fun x hx => ne_of_gt (Set.mem_Ioi.1 hx))
  refine (hlim.mono_left hmono).congr (fun lam => ?_)
  simp only [zero_add, zero_mul, neg_zero, Real.exp_zero, smul_eq_mul]
  rw [div_eq_inv_mul]
  ring

theorem tendsto_shape1_nhdsWithin_zero (a : ℝ) (ha : 0 ≤ a) :
    Filter.Tendsto (fun lam : ℝ => (prep2.shape1 Real.exp (2 * lam * a)).getD 0)
      (nhdsWithin 0 (Set.Ioi 0)) (nhds 1) := by
  have hE : (0 : ℝ) < EPS := EPS_pos
  have hcont : Continuous
      (fun lam : ℝ => 1 - 2 * lam * a / 2 + 2 * lam * a * (2 * lam * a) / 6) := by
    continuity
  have h0 : Filter.Tendsto (fun lam : ℝ => 1 - 2 * lam * a / 2 + 2 * lam * a * (2 * lam * a) / 6)
      (nhdsWithin 0 (Set.Ioi 0)) (nhds 1) := by
    have := (hcont.tendsto 0).mono_left (@nhdsWithin_le_nhds ℝ _ 0 (Set.Ioi 0))
    simpa using this
  refine h0.congr' ?_
  have hpos : 0 < EPS / (2 * a + 1) := div_pos hE (by linarith)
  have hev : ∀ᶠ lam in nhdsWithin (0 : ℝ) (Set.Ioi 0), lam < EPS / (2 * a + 1) :=
    (eventually_lt_nhds hpos).filter_mono nhdsWithin_le_nhds
  filter_upwards [hev, self_mem_nhdsWithin] with lam hlam hlam0
  have hl0 : 0 < lam := Set.mem_Ioi.1 hlam0
  have hx0 : 0 ≤ 2 * lam * a := by positivity
  have hx1 : 2 * lam * a ≤ EPS := by
    have h1 : lam * (2 * a + 1) < EPS := (lt_div_iff₀ (by linarith)).1 hlam
    nlinarith
  rw [prep2_shape1_eq, shape1_taylor Real.exp _ hx0 hx1]
  rfl

theorem volatilityHullWhite_zero_limit (sigma t0 s t : ℝ) (hsigma : sigma > 0) (hs : t0 ≤ s)
    (hst : s < t) :
    ∃ V, volatilityHullWhite Real.exp Real.sqrt sigma 0 t0 = some V
      ∧ V s t = some (sigma * (t - s))
      ∧ Filter.Tendsto (fun lam : ℝ => sigma * (1 - Real.exp (-lam * (t - s))) / lam
          * Real.sqrt ((prep2.shape1 Real.exp (2 * lam * (s - t0))).getD 0))
        (nhdsWithin 0 (Set.Ioi 0)) (nhds (sigma * (t - s))) := by
  obtain ⟨V, hV, -, hval⟩ :=
    volatilityHullWhite_eq Real.exp Real.sqrt sigma 0 t0 le_rfl hsigma
  refine ⟨V, hV, ?_, ?_⟩
  · have hx : (2 : ℝ) * (0 * (s - t0)) = 0 := by ring
    rw [hval s t _ hs hst (shape1_taylor Real.exp _ (by rw [hx]) (by rw [hx]; exact EPS_pos.le)),
      hx]
    norm_num
  · have h1 := tendsto_one_sub_exp_div (t - s)
    have h2 := (tendsto_shape1_nhdsWithin_zero (s - t0) (sub_nonneg.2 hs)).sqrt
    have h3 := (h1.const_mul sigma).mul h2
    rw [Real.sqrt_one, mul_one] at h3
    refine h3.congr (fun lam => ?_)
    rw [neg_mul, mul_div_assoc]

/-- C28, as amended: for every `sigma > 0` and `t0 ≤ s < t` the value of the Hull-White
volatility curve of `lambda = 0` at `(s, t)` is `sigma * (t - s)`, and it is the limit, as
`lambda` tends to 0 from above, of
`sigma * (1 - exp(-lambda * (t - s))) / lambda * sqrt(shape1(2 * lambda * (s - t0)))`. -/
theorem volatilityHullWhite_zero_is_limit (sigma t0 s t : ℝ) (hsigma : sigma > 0)
    (hs : t0 ≤ s) (hst : s < t) :
    ∃ V v, volatilityHullWhite Real.exp Real.sqrt sigma 0 t0 = some V
      ∧ V s t = some v ∧ v = sigma * (t - s)
      ∧ Filter.Tendsto (fun lam : ℝ => sigma * (1 - Real.exp (-lam * (t - s))) / lam
          * Real.sqrt ((prep2.shape1 Real.exp (2 * lam * (s - t0))).getD 0))
        (nhdsWithin 0 (Set.Ioi 0)) (nhds v) := by
  obtain ⟨V, hV, hval, hlim⟩ := volatilityHullWhite_zero_limit sigma t0 s t hsigma hs hst
  exact ⟨V, _, hV, hval, rfl, hlim⟩

/-- Witness of C28 as amended: `sigma = 0.2`, `t0 = 0.75`, `s = 1`, `t = 1.5`. -/
theorem volatilityHullWhite_zero_is_limit_witness :
    ∃ V v, volatilityHullWhite Real.exp Real.sqrt (2 / 10) 0 (3 / 4) = some V
      ∧ V 1 (3 / 2) = some v ∧ v = 2 / 10 * (3 / 2 - 1)
      ∧ Filter.Tendsto (fun lam : ℝ => 2 / 10 * (1 - Real.exp (-lam * (3 / 2 - 1))) / lam
          * Real.sqrt ((prep2.shape1 Real.exp (2 * lam * (1 - 3 / 4))).getD 0))
        (nhdsWithin 0 (Set.Ioi 0)) (nhds v) :=
  volatilityHullWhite_zero_is_limit (2 / 10) (3 / 4) 1 (3 / 2) (by norm_num) (by norm_num)
    (by norm_num)

/-- Counterexample to C28: there are no `sigma > 0` and `t0 ≤ s < t` at which the value of
the Hull-White volatility curve of `lambda = 0` differs from the limit, as `lambda` tends to
0 from above, of the closed form of `lambda ≠ 0`. -/
theorem volatilityHullWhite_zero_no_gap :
    ¬ ∃ sigma t0 s t : ℝ, sigma > 0 ∧ t0 ≤ s ∧ s < t ∧
      ∃ V v, volatilityHullWhite Real.exp Real.sqrt sigma 0 t0 = some V ∧ V s t = some v
        ∧ ¬ Filter.Tendsto (fun lam : ℝ => sigma * (1 - Real.exp (-lam * (t - s))) / lam
            * Real.sqrt ((prep2.shape1 Real.exp (2 * lam * (s - t0))).getD 0))
          (nhdsWithin 0 (Set.Ioi 0)) (nhds v) := by
  rintro ⟨sigma, t0, s, t, hsigma, hs, hst, V, v, hV, hv, hnot⟩
  obtain ⟨V1, hV1, hval, hlim⟩ := volatilityHullWhite_zero_limit sigma t0 s t hsigma hs hst
  rw [hV] at hV1
  obtain rfl := Option.some.inj hV1
  rw [hv] at hval
  obtain rfl := Option.some.inj hval
  exact hnot hlim

/-! ## The shape functions at the boundary `EPS` -/

theorem exp_neg_bounds (x : ℝ) (_h0 : 0 < x) :
    1 - x ≤ Real.exp (-x) ∧ Real.exp (-x) * (1 + x) ≤ 1 := by
  constructor
  · have := Real.add_one_le_exp (-x)
    linarith
  · have h1 : x + 1 ≤ Real.exp x := Real.add_one_le_exp x
    have h2 : Real.exp (-x) * Real.exp x = 1 := by rw [← Real.exp_add]; simp
    have h3 : 0 < Real.exp (-x) := Real.exp_pos _
    nlinarith

theorem shape1_closed_bounds (x : ℝ) (h0 : 0 < x) :
    1 - x ≤ (1 - Real.exp (-x)) / x ∧ (1 - Real.exp (-x)) / x ≤ 1 := by
  obtain ⟨h1, h2⟩ := exp_neg_bounds x h0
  constructor
  · rw [le_div_iff₀ h0]
    nlinarith
  · rw [div_le_iff₀ h0]
    linarith

theorem shape2_closed_bounds (x : ℝ) (h0 : 0 < x) :
    0 ≤ (1 - Real.exp (-x) * (1 + x)) / x ∧ (1 - Real.exp (-x) * (1 + x)) / x ≤ x := by
  obtain ⟨h1, h2⟩ := exp_neg_bounds x h0
  constructor
  · exact div_nonneg (by linarith) h0.le
  · rw [div_le_iff₀ h0]
    nlinarith

theorem shape_taylor_near_closed (x : ℝ) (h0 : 0 < x) (hx : x ≤ EPS) :
    |(1 - x / 2 + x * x / 6) - (1 - Real.exp (-x)) / x| < 1 / 1000000
      ∧ |(x / 2 - x * x / 3) - (1 - Real.exp (-x) * (1 + x)) / x| < 1 / 1000000 := by
  have hE : (EPS : ℝ) = 1 / 10000000000 := rfl
  rw [hE] at hx
  obtain ⟨a1, a2⟩ := shape1_closed_bounds x h0
  obtain ⟨b1, b2⟩ := shape2_closed_bounds x h0
  have hxx : x * x ≤ x := by nlinarith
  have hxx0 : 0 ≤ x * x := by positivity
  constructor
  · rw [abs_lt]
    constructor <;> linarith
  · rw [abs_lt]
    constructor <;> linarith

theorem tendsto_shape1_right (a : ℝ) (ha : a ≥ EPS) :
    Filter.Tendsto (fun y => (shape1 Real.exp y).getD 0) (nhdsWithin a (Set.Ioi a))
      (nhds ((1 - Real.exp (-a)) / a)) := by
  have hE : (0 : ℝ) < EPS := EPS_pos
  have hne : a ≠ 0 := by linarith
  have hc : ContinuousAt (fun y : ℝ => (1 - Real.exp (-y)) / y) a :=
    ContinuousAt.div (by fun_prop) continuousAt_id hne
  refine (hc.tendsto.mono_left nhdsWithin_le_nhds).congr' ?_
  filter_upwards [self_mem_nhdsWithin] with y hy
  have hy1 : y > EPS := lt_of_le_of_lt ha (Set.mem_Ioi.1 hy)
  rw [shape1_closed Real.exp y hy1]
  rfl

theorem tendsto_shape2_right (a : ℝ) (ha : a ≥ EPS) :
    Filter.Tendsto (fun y => (shape2 Real.exp y).getD 0) (nhdsWithin a (Set.Ioi a))
      (nhds ((1 - Real.exp (-a) * (1 + a)) / a)) := by
  have hE : (0 : ℝ) < EPS := EPS_pos
  have hne : a ≠ 0 := by linarith
  have hc : ContinuousAt (fun y : ℝ => (1 - Real.exp (-y) * (1 + y)) / y) a :=
    ContinuousAt.div (by fun_prop) continuousAt_id hne
  refine (hc.tendsto.mono_left nhdsWithin_le_nhds).congr' ?_
  filter_upwards [self_mem_nhdsWithin] with y hy
  have hy1 : y > EPS := lt_of_le_of_lt ha (Set.mem_Ioi.1 hy)
  rw [shape2_closed Real.exp y hy1]
  rfl

/-- In exact arithmetic, where no operation rounds: for every `x` with
`0 < x ≤ EPS` the values `1 - x/2 + x^2/6` and `x/2 - x^2/3` that `shape1` and `shape2` return
at `x` are within `1e-6` of the closed forms `(1 - exp(-x)) / x` and
`(1 - exp(-x) * (1 + x)) / x`; and at `x = EPS` the value of each shape function is within
`1e-6` of its limit from the right of `EPS`, where the closed form is used. -/
theorem shape_eps_boundary_unrounded (x : ℝ) (h0 : 0 < x) (hx : x ≤ EPS) :
    (shape1 Real.exp x = some (1 - x / 2 + x ^ 2 / 6)
        ∧ |(1 - x / 2 + x ^ 2 / 6) - (1 - Real.exp (-x)) / x| < 1 / 1000000)
      ∧ (shape2 Real.exp x = some (x / 2 - x ^ 2 / 3)
        ∧ |(x / 2 - x ^ 2 / 3) - (1 - Real.exp (-x) * (1 + x)) / x| < 1 / 1000000)
      ∧ (∃ v l, shape1 Real.exp EPS = some v
        ∧ Filter.Tendsto (fun y => (shape1 Real.exp y).getD 0) (nhdsWithin EPS (Set.Ioi EPS))
            (nhds l)
        ∧ |v - l| < 1 / 1000000)
      ∧ (∃ v l, shape2 Real.exp EPS = some v
        ∧ Filter.Tendsto (fun y => (shape2 Real.exp y).getD 0) (nhdsWithin EPS (Set.Ioi EPS))
            (nhds l)
        ∧ |v - l| < 1 / 1000000) := by
  have hE : (0 : ℝ) < EPS := EPS_pos
  obtain ⟨hx1, hx2⟩ := shape_taylor_near_closed x h0 hx
  obtain ⟨he1, he2⟩ := shape_taylor_near_closed EPS hE le_rfl
  rw [pow_two]
  exact ⟨⟨shape1_taylor Real.exp x h0.le hx, hx1⟩, ⟨shape2_taylor Real.exp x h0.le hx, hx2⟩,
    ⟨_, _, shape1_taylor Real.exp EPS hE.le le_rfl, tendsto_shape1_right EPS le_rfl, he1⟩,
    ⟨_, _, shape2_taylor Real.exp EPS hE.le le_rfl, tendsto_shape2_right EPS le_rfl, he2⟩⟩

/-- An instance of the theorem above, at `x = EPS`. -/
theorem shape_eps_boundary_unrounded_instance :
    shape1 Real.exp EPS = some (1 - EPS / 2 + EPS ^ 2 / 6)
      ∧ |(1 - EPS / 2 + EPS ^ 2 / 6) - (1 - Real.exp (-EPS)) / EPS| < 1 / 1000000 :=
  (shape_eps_boundary_unrounded EPS EPS_pos le_rfl).1

/-! ## No overshoot of the log-linear interpolation -/

theorem exp_interp_between (a b w : ℝ) (ha : 0 < a) (hb : 0 < b) (hw0 : 0 ≤ w) (hw1 : w ≤ 1) :
    min a b ≤ Real.exp (Real.log a + w * (Real.log b - Real.log a))
      ∧ Real.exp (Real.log a + w * (Real.log b - Real.log a)) ≤ max a b := by
  have hmin : 0 < min a b := lt_min ha hb
  have hmax : 0 < max a b := lt_max_of_lt_left ha
  have h1 : Real.log (min a b) ≤ Real.log a := Real.log_le_log hmin (min_le_left a b)
  have h2 : Real.log (min a b) ≤ Real.log b := Real.log_le_log hmin (min_le_right a b)
  have h3 : Real.log a ≤ Real.log (max a b) := Real.log_le_log ha (le_max_left a b)
  have h4 : Real.log b ≤ Real.log (max a b) := Real.log_le_log hb (le_max_right a b)
  constructor
  · rw [← Real.exp_log hmin]
    apply Real.exp_le_exp.2
    nlinarith
  · rw [← Real.exp_log hmax]
    apply Real.exp_le_exp.2
    nlinarith

/-- C31: on a series of equal lengths with strictly increasing times, `times[0] > t0` and
positive discount factors, the curve of `discountLogLinInterp` is built; for every `i ≥ 1`
and `times[i-1] < t < times[i]` its value at `t` lies between `min(DF[i-1], DF[i])` and
`max(DF[i-1], DF[i])`, and for `t0 < t < times[0]` its value lies between 1 and `DF[0]`. -/
theorem discountLogLinInterp_no_overshoot (times DF : List ℝ) (t0 x0 d0 : ℝ)
    (hlen : times.length = DF.length) (hs : times.Pairwise (· < ·))
    (h0 : times[0]? = some x0) (hx0 : x0 > t0) (hd0 : DF[0]? = some d0)
    (hpos : ∀ d ∈ DF, 0 < d) :
    ∃ f, discountLogLinInterp Real.exp Real.log times DF t0 = some f
      ∧ (∀ (i : Nat) (a b da db t : ℝ), 1 ≤ i → times[i - 1]? = some a → times[i]? = some b →
          DF[i - 1]? = some da → DF[i]? = some db → a < t → t < b →
          ∃ v, f t = some v ∧ min da db ≤ v ∧ v ≤ max da db)
      ∧ (∀ t, t0 < t → t < x0 → ∃ v, f t = some v ∧ min 1 d0 ≤ v ∧ v ≤ max 1 d0) := by
  refine ⟨_, discountLogLinInterp_eq Real.exp Real.log hlen hs h0 hx0, ?_, ?_⟩
  · intro i a b da db t hi ha hb hda hdb hat htb
    obtain ⟨j, rfl⟩ : ∃ j, i = j + 1 := ⟨i - 1, by omega⟩
    simp only [Nat.add_sub_cancel] at ha hda
    have ht0 : t0 ≤ t := by
      rcases Nat.eq_zero_or_pos j with rfl | hj
      · rw [h0] at ha; have := Option.some.inj ha; linarith
      · have := getElem?_lt_of_pairwise hs hj h0 ha
        linarith
    refine ⟨_, discountLogLinInterpLambda_interior Real.exp Real.log hs ha hb hda hdb ht0 hat
      htb.le, ?_⟩
    have hw0 : 0 ≤ (t - a) / (b - a) := div_nonneg (by linarith) (by linarith)
    have hw1 : (t - a) / (b - a) ≤ 1 := (div_le_one (by linarith)).2 (by linarith)
    exact exp_interp_between da db _ (hpos da (List.getElem?_mem hda))
      (hpos db (List.getElem?_mem hdb)) hw0 hw1
  · intro t ht0 htx
    refine ⟨_, discountLogLinInterpLambda_first Real.exp Real.log hs h0 hd0 ht0.le htx.le, ?_⟩
    have hw0 : 0 ≤ (t - t0) / (x0 - t0) := div_nonneg (by linarith) (by linarith)
    have hw1 : (t - t0) / (x0 - t0) ≤ 1 := (div_le_one (by linarith)).2 (by linarith)
    exact exp_interp_between 1 d0 _ one_pos (hpos d0 (List.getElem?_mem hd0)) hw0 hw1

/-- Witness of C31: the series `(1, 1/2), (2, 1/4)` with `t0 = 0`. -/
theorem discountLogLinInterp_no_overshoot_witness :
    ∃ f, discountLogLinInterp Real.exp Real.log [1, 2] [1 / 2, 1 / 4] 0 = some f
      ∧ (∀ (i : Nat) (a b da db t : ℝ), 1 ≤ i → [(1 : ℝ), 2][i - 1]? = some a →
          [(1 : ℝ), 2][i]? = some b → [(1 / 2 : ℝ), 1 / 4][i - 1]? = some da →
          [(1 / 2 : ℝ), 1 / 4][i]? = some db → a < t → t < b →
          ∃ v, f t = some v ∧ min da db ≤ v ∧ v ≤ max da db)
      ∧ (∀ t, 0 < t → t < 1 → ∃ v, f t = some v ∧ min 1 (1 / 2) ≤ v ∧ v ≤ max 1 (1 / 2)) :=
  discountLogLinInterp_no_overshoot [1, 2] [1 / 2, 1 / 4] 0 1 (1 / 2) rfl (by simp) rfl
    (by norm_num) rfl (by simp)

/-! ## Inverse relations -/

/-- C32: for every `t0`, every `y` and every maturity `T > t0 + EPS`, `yield(t0)` at the
maturity `T` and the discount factor `exp(-y * (T - t0))` returns `y`; the evaluation of
`yield(t0)` at a maturity `T` and a discount factor `d` fails if and only if
`T ≤ t0 + EPS`. -/
theorem yield1_inverts_discount (t0 y T d : ℝ) :
    (T > t0 + EPS → yield1 Real.log t0 T (Real.exp (-y * (T - t0))) = some y)
      ∧ (yield1 Real.log t0 T d = none ↔ T ≤ t0 + EPS) := by
  have hE : (0 : ℝ) < EPS := EPS_pos
  constructor
  · intro hT
    have hne : T - t0 ≠ 0 := by linarith
    simp only [yield1, PRECONDITION_pos hT, Option.bind_eq_bind, Option.some_bind,
      Option.pure_def, Real.log_exp, Option.some.injEq]
    field_simp
  · by_cases hT : T > t0 + EPS
    · simp [yield1, PRECONDITION, hT, not_le.2 hT]
    · simp [yield1, PRECONDITION, hT, not_lt.1 hT]

/-- Witness of C32: `t0 = 2`, `y = 7/100`, `T = 3`. -/
theorem yield1_inverts_discount_witness :
    yield1 Real.log 2 3 (Real.exp (-(7 / 100) * (3 - 2))) = some (7 / 100) :=
  (yield1_inverts_discount 2 (7 / 100) 3 1).1 (by norm_num [EPS])

/-- C33: for every spot price `S > 0`, every `t0`, every rate `c` and every maturity `T` with
`T - t0 ≥ EPS`, `costOfCarry(S, t0)` at the forward price `S * exp(c * (T - t0))` and the
maturity `T` returns `c`. -/
theorem costOfCarry_inverts_forward (S t0 c T : ℝ) (hS : 0 < S) (hT : T - t0 ≥ EPS) :
    costOfCarry Real.log S t0 (S * Real.exp (c * (T - t0))) T = some c := by
  have hE : (0 : ℝ) < EPS := EPS_pos
  have hne : T - t0 ≠ 0 := by linarith
  rw [costOfCarry_of_ge Real.log S t0 _ T (by linarith), mul_div_cancel_left₀ _ hS.ne',
    Real.log_exp, mul_div_cancel_right₀ _ hne]

/-- Witness of C33: `S = 100`, `t0 = 1`, `c = 3/100`, `T = 2`. -/
theorem costOfCarry_inverts_forward_witness :
    costOfCarry Real.log 100 1 (100 * Real.exp (3 / 100 * (2 - 1))) 2 = some (3 / 100) :=
  costOfCarry_inverts_forward 100 1 (3 / 100) 2 (by norm_num) (by norm_num [EPS])

/-- In exact arithmetic, where no operation rounds: for every `t0`, every
non-negative volatility function `S` and the variance `V(u) = S(u)^2 * (u - t0)`,
`volatilityVar(V, t0)` returns `S(t)` at every `t > t0` and `S(t0 + EPS)` at `t0`. -/
theorem volatilityVar_inverts_variance_unrounded (S : ℝ → ℝ) (t0 t : ℝ) (hS : ∀ u, 0 ≤ S u)
    (ht : t > t0) :
    volatilityVar Real.sqrt (fun u => some (S u ^ 2 * (u - t0))) t0 t = some (S t)
      ∧ volatilityVar Real.sqrt (fun u => some (S u ^ 2 * (u - t0))) t0 t0
          = some (S (t0 + EPS)) := by
  have hE : (0 : ℝ) < EPS := EPS_pos
  constructor
  · have hne : t ≠ t0 := ht.ne'
    have hne2 : t - t0 ≠ 0 := by linarith
    simp only [volatilityVar, PRECONDITION_pos ht.le, Option.bind_eq_bind, Option.some_bind,
      Option.pure_def, ne_eq, hne, not_false_eq_true, if_true, Option.some.injEq]
    rw [mul_div_cancel_right₀ _ hne2, Real.sqrt_sq (hS t)]
  · simp only [volatilityVar, PRECONDITION_pos (le_refl t0), Option.bind_eq_bind,
      Option.some_bind, Option.pure_def, ne_eq, not_true_eq_false, if_false,
      Option.some.injEq, add_sub_cancel_left]
    rw [mul_div_cancel_right₀ _ hE.ne', Real.sqrt_sq (hS _)]

/-- An instance of the theorem above: the constant volatility `1/5`, `t0 = 1`, `t = 2`. -/
theorem volatilityVar_inverts_variance_unrounded_instance :
    volatilityVar Real.sqrt (fun u => some ((1 / 5 : ℝ) ^ 2 * (u - 1))) 1 2 = some (1 / 5)
      ∧ volatilityVar Real.sqrt (fun u => some ((1 / 5 : ℝ) ^ 2 * (u - 1))) 1 1
          = some (1 / 5) :=
  volatilityVar_inverts_variance_unrounded (fun _ => 1 / 5) 1 2 (fun _ => by norm_num) (by norm_num)

/-! ## Rejected series and evaluation times -/

theorem isSorted_lessEqual_iff (xs : List α) :
    isSorted lessEqual xs = true ↔ xs.Pairwise (· < ·) :=
  ⟨pairwise_of_isSorted xs, isSorted_of_pairwise xs⟩

/-- C35: for each of `discountYieldLinInterp`, `discountLogLinInterp`,
`volatilityVarLinInterp` and `forwardCarryLinInterp` and every non-empty time vector, the
construction fails if and only if the two vectors differ in length, or `times[0] ≤ t0`, or
the times are not strictly increasing; two equal consecutive times are not strictly
increasing. -/
theorem malformed_series_rejected (exp log : α → α) (spot dR t0 x0 : α) (times vals : List α)
    (h0 : times[0]? = some x0) :
    (discountYieldLinInterp exp log times vals dR t0 = none ↔
        (times.length ≠ vals.length ∨ x0 ≤ t0 ∨ ¬ times.Pairwise (· < ·)))
      ∧ (discountLogLinInterp exp log times vals t0 = none ↔
        (times.length ≠ vals.length ∨ x0 ≤ t0 ∨ ¬ times.Pairwise (· < ·)))
      ∧ (volatilityVarLinInterp times vals t0 = none ↔
        (times.length ≠ vals.length ∨ x0 ≤ t0 ∨ ¬ times.Pairwise (· < ·)))
      ∧ (forwardCarryLinInterp exp log spot times vals t0 = none ↔
        (times.length ≠ vals.length ∨ x0 ≤ t0 ∨ ¬ times.Pairwise (· < ·)))
      ∧ (∀ i a, times[i]? = some a → times[i + 1]? = some a → ¬ times.Pairwise (· < ·)) := by
  have hh : times.head? = some x0 := by rw [List.head?_eq_getElem?]; exact h0
  have hsort := isSorted_lessEqual_iff times
  refine ⟨?_, ?_, ?_, ?_, ?_⟩
  · by_cases h1 : times.length = vals.length <;> by_cases h2 : x0 > t0 <;>
      by_cases h3 : times.Pairwise (· < ·) <;>
      simp [discountYieldLinInterp, PRECONDITION, hh, hsort, h1, h2, h3, not_lt.1, le_of_lt]
  · by_cases h1 : times.length = vals.length <;> by_cases h2 : x0 > t0 <;>
      by_cases h3 : times.Pairwise (· < ·) <;>
      simp [discountLogLinInterp, PRECONDITION, hh, hsort, h1, h2, h3, not_lt.1, le_of_lt]
  · by_cases h1 : times.length = vals.length <;> by_cases h2 : x0 > t0 <;>
      by_cases h3 : times.Pairwise (· < ·) <;>
      simp [volatilityVarLinInterp, PRECONDITION, hh, hsort, h1, h2, h3, not_lt.1, le_of_lt]
  · by_cases h1 : times.length = vals.length <;> by_cases h2 : x0 > t0 <;>
      by_cases h3 : times.Pairwise (· < ·) <;>
      simp [forwardCarryLinInterp, PRECONDITION, hh, hsort, h1, h2, h3, not_lt.1, le_of_lt]
  · intro i a ha hb hp
    exact lt_irrefl a (getElem?_lt_of_pairwise hp (Nat.lt_succ_self i) ha hb)

/-- Witness of C35: the times `1, 1` with the values `1/2, 1/4` and `t0 = 0` are rejected by
`discountLogLinInterp`. -/
theorem malformed_series_rejected_witness :
    discountLogLinInterp Real.exp Real.log [1, 1] [1 / 2, 1 / 4] 0 = none :=
  (malformed_series_rejected Real.exp Real.log 1 0 0 1 [1, 1] [1 / 2, 1 / 4] rfl).2.1.2
    (Or.inr (Or.inr (by simp)))

theorem whileLoop_of_not_cond {σ : Type} (cond : σ → Bool) (body : σ → Option σ) (fuel : Nat)
    (s : σ) (h : cond s = false) : whileLoop cond body fuel s = some s := by
  cases fuel <;> simp [whileLoop, h]

theorem innerProduct_eq_none_iff (op : α → α → Option α) : ∀ (xs ys : List α) (acc : α),
    xs.length ≤ ys.length →
    (innerProduct xs ys acc op = none
      ↔ ∃ (i : Nat) (x y : α), xs[i]? = some x ∧ ys[i]? = some y ∧ op x y = none)
  | [], _, acc, _ => by simp [innerProduct]
  | _ :: _, [], _, h => by simp at h
  | x :: xs, y :: ys, acc, h => by
    cases hv : op x y with
    | none =>
      simp only [innerProduct, hv, Option.bind_eq_bind, Option.none_bind, true_iff]
      exact ⟨0, x, y, List.getElem?_cons_zero, List.getElem?_cons_zero, hv⟩
    | some v =>
      simp only [innerProduct, hv, Option.bind_eq_bind, Option.some_bind]
      rw [innerProduct_eq_none_iff op xs ys (acc + v) (by simpa using h)]
      constructor
      · rintro ⟨i, a, b, ha, hb, hab⟩
        exact ⟨i + 1, a, b, by simpa using ha, by simpa using hb, hab⟩
      · rintro ⟨i, a, b, ha, hb, hab⟩
        cases i with
        | zero =>
          simp only [List.getElem?_cons_zero, Option.some.injEq] at ha hb
          rw [← ha, ← hb, hv] at hab
          simp at hab
        | succ j => exact ⟨j, a, b, by simpa using ha, by simpa using hb, hab⟩

theorem forwardCashFlow_fails_iff (P times : List α) (D : Curve α) (t b : α)
    (hlen : P.length = times.length) (hs : times.Pairwise (· < ·))
    (hb : times.getLast? = some b) :
    ∃ f, forwardCashFlow P times D = some f
      ∧ (f t = none ↔ t > b ∨ D t = none ∨ ∃ u ∈ times, t < u ∧ D u = none) := by
  obtain ⟨f, hf, hval⟩ := forwardCashFlow_eq P times D hlen hs
  refine ⟨f, hf, ?_⟩
  have hl : (P.drop (upperBound times t)).length ≤ (times.drop (upperBound times t)).length := by
    simp [hlen]
  have hread : (innerProduct (P.drop (upperBound times t)) (times.drop (upperBound times t)) 0
      (fun dP dT => do let d ← D dT; pure (dP * d)) = none)
      ↔ ∃ u ∈ times, t < u ∧ D u = none := by
    rw [innerProduct_eq_none_iff _ _ _ 0 hl]
    constructor
    · rintro ⟨i, x, y, _, hy, hxy⟩
      rw [List.getElem?_drop] at hy
      refine ⟨y, List.getElem?_mem hy,
        (upperBound_le_iff t times hs _ y hy).1 (Nat.le_add_right _ _), ?_⟩
      cases hD : D y with
      | none => rfl
      | some d => simp [hD] at hxy
    · rintro ⟨u, hu, htu, hDu⟩
      obtain ⟨j, hj⟩ := List.getElem?_of_mem hu
      have hle := (upperBound_le_iff t times hs j u hj).2 htu
      have hjlt : j < P.length := by
        rw [hlen]
        exact (List.getElem?_eq_some.1 hj).1
      refine ⟨j - upperBound times t, P[j], u, ?_, ?_, by simp [hDu]⟩
      · rw [List.getElem?_drop, Nat.add_sub_cancel' hle, List.getElem?_eq_getElem hjlt]
      · rw [List.getElem?_drop, Nat.add_sub_cancel' hle, hj]
  rw [hval t]
  by_cases h : t ≤ b
  · simp only [hb, PRECONDITION_pos h, Option.bind_eq_bind, Option.some_bind, Option.pure_def]
    cases hi : innerProduct (P.drop (upperBound times t)) (times.drop (upperBound times t)) 0
        (fun dP dT => (D dT).bind fun d => some (dP * d)) with
    | none =>
      have := hread.1 hi
      simp [this]
    | some v =>
      have hn : ¬ ∃ u ∈ times, t < u ∧ D u = none := fun hex => by
        have := hread.2 hex
        simp only [Option.bind_eq_bind, Option.pure_def] at this
        rw [hi] at this
        simp at this
      cases hD : D t <;> simp [hD, hn, not_lt.2 h]
  · simp [hb, PRECONDITION_neg h, not_le.1 h]


theorem forwardStockDividends_fails_iff (S0 : α) (times Div : List α) (D : Curve α) (t b : α)
    (hlen : Div.length = times.length) (hs : times.Pairwise (· < ·))
    (hb : times.getLast? = some b) :
    ∃ f, forwardStockDividends S0 times Div D = some f
      ∧ (f t = none ↔ t > b ∨ D t = none ∨ ∃ u ∈ times, u ≤ t ∧ D u = none) := by
  simp only [forwardStockDividends, PRECONDITION_pos (isSorted_of_pairwise times hs),
    PRECONDITION_pos hlen, Option.bind_eq_bind, Option.some_bind, Option.pure_def]
  refine ⟨_, rfl, ?_⟩
  have hl : (Div.take (upperBound times t)).length ≤ times.length := by
    rw [List.length_take, hlen]; exact Nat.min_le_right _ _
  by_cases h : t ≤ b
  · simp only [hb, PRECONDITION_pos h, Option.some_bind]
    cases hD : D t with
    | none =>
      simp only [Option.none_bind, Option.bind_none, true_or, or_true, iff_true]
    | some d0 =>
      have hread : (innerProduct (Div.take (upperBound times t)) times 0
          (fun dDividends dTimes => (D dTimes).bind fun d => some (dDividends * d / d0)) = none)
          ↔ ∃ u ∈ times, u ≤ t ∧ D u = none := by
        rw [innerProduct_eq_none_iff _ _ _ 0 hl]
        constructor
        · rintro ⟨i, x, y, hx, hy, hxy⟩
          rw [List.getElem?_take] at hx
          have hi : i < upperBound times t := by
            by_contra hcon
            rw [if_neg hcon] at hx
            simp at hx
          refine ⟨y, List.getElem?_mem hy,
            not_lt.1 (fun hty => absurd ((upperBound_le_iff t times hs i y hy).2 hty)
              (not_le.2 hi)), ?_⟩
          cases hDy : D y with
          | none => rfl
          | some d => simp [hDy] at hxy
        · rintro ⟨u, hu, hut, hDu⟩
          obtain ⟨j, hj⟩ := List.getElem?_of_mem hu
          have hjub : j < upperBound times t := by
            by_contra hcon
            exact absurd ((upperBound_le_iff t times hs j u hj).1 (not_lt.1 hcon)) (not_lt.2 hut)
          have hjlt : j < Div.length := by
            rw [hlen]
            exact (List.getElem?_eq_some.1 hj).1
          refine ⟨j, Div[j], u, ?_, hj, by simp [hDu]⟩
          rw [List.getElem?_take, if_pos hjub, List.getElem?_eq_getElem hjlt]
      simp only [Option.some_bind]
      cases hi : innerProduct (Div.take (upperBound times t)) times 0
          (fun dDividends dTimes => (D dTimes).bind fun d => some (dDividends * d / d0)) with
      | none =>
        have := hread.1 hi
        simp [this]
      | some v =>
        have hn : ¬ ∃ u ∈ times, u ≤ t ∧ D u = none := fun hex => by
          have := hread.2 hex
          rw [hi] at this
          simp at this
        simp [hn, not_lt.2 h]
  · simp [hb, PRECONDITION_neg h, not_le.1 h]

theorem forwardCouponBond_beyond_maturity (fuel : Nat) (q δ T t : α) (D : Curve α)
    (bClean : Bool) (hT : t > T) :
    forwardCouponBond fuel q δ T D bClean t = none ↔ D T = none ∨ D t = none := by
  have hloop : whileLoop (fun s : α × α => decide (s.1 > t))
      (fun s => do let d ← D s.1; pure (s.1 - δ, s.2 + d)) fuel (T, 0) = some (T, 0) :=
    whileLoop_of_not_cond _ _ fuel (T, 0) (by simp [le_of_lt hT])
  unfold forwardCouponBond
  rw [hloop]
  cases hDT : D T <;> cases hDt : D t <;> simp [hDT, hDt]

theorem forwardAnnuity_beyond_maturity (fuel : Nat) (q δ T t : α) (D : Curve α)
    (bClean : Bool) (hT : t > T) :
    forwardAnnuity fuel q δ T D bClean t = none ↔ D t = none := by
  have hloop : whileLoop (fun s : α × α => decide (s.1 > t))
      (fun s => do let d ← D s.1; pure (s.1 - δ, s.2 + d)) fuel (T, 0) = some (T, 0) :=
    whileLoop_of_not_cond _ _ fuel (T, 0) (by simp [le_of_lt hT])
  unfold forwardAnnuity
  rw [hloop]
  cases hDt : D t <;> simp [hDt]

/-- C36, as amended: for a valid schedule (equal lengths, strictly increasing times) the
curves of `forwardCashFlow` and of `forwardStockDividends` fail at every `t > times.back()`,
by their precondition, and at `t ≤ times.back()` they fail exactly when the discount curve
fails at `t` or at a time of the schedule that the sum reads: a payment time after `t`, a
dividend time up to `t`.  `forwardCouponBond` and `forwardAnnuity` have no precondition: at
`t > T` they fail exactly when the discount curve fails, at `T` or `t` for the bond and at `t`
for the annuity. -/
theorem forward_beyond_last_time (P times Div : List α) (D : Curve α) (S0 q δ T t b : α)
    (bClean : Bool) (fuel : Nat)
    (hlenP : P.length = times.length) (hlenD : Div.length = times.length)
    (hs : times.Pairwise (· < ·)) (hb : times.getLast? = some b) :
    (∃ f, forwardCashFlow P times D = some f
        ∧ (f t = none ↔ t > b ∨ D t = none ∨ ∃ u ∈ times, t < u ∧ D u = none))
      ∧ (∃ f, forwardStockDividends S0 times Div D = some f
        ∧ (f t = none ↔ t > b ∨ D t = none ∨ ∃ u ∈ times, u ≤ t ∧ D u = none))
      ∧ (t > T → (forwardCouponBond fuel q δ T D bClean t = none ↔ D T = none ∨ D t = none)
        ∧ (forwardAnnuity fuel q δ T D bClean t = none ↔ D t = none)) :=
  ⟨forwardCashFlow_fails_iff P times D t b hlenP hs hb,
    forwardStockDividends_fails_iff S0 times Div D t b hlenD hs hb,
    fun hT => ⟨forwardCouponBond_beyond_maturity fuel q δ T t D bClean hT,
      forwardAnnuity_beyond_maturity fuel q δ T t D bClean hT⟩⟩

/-- Witness of C36 as amended: the payments `100, 50` at the times `1, 2` and the discount
curve `D(u) = 1 / (1 + u)`, which never fails: the cash-flow curve fails at `t = 3`, after the
last payment time. -/
theorem forward_beyond_last_time_witness :
    ∃ f, forwardCashFlow [100, 50] [1, 2] (fun u : ℝ => some (1 / (1 + u))) = some f
      ∧ (f 3 = none ↔ (3 : ℝ) > 2 ∨ (fun u : ℝ => some (1 / (1 + u))) 3 = none
        ∨ ∃ u ∈ [(1 : ℝ), 2], 3 < u ∧ (fun u : ℝ => some (1 / (1 + u))) u = none) :=
  (forward_beyond_last_time [100, 50] [1, 2] [5, 6] (fun u : ℝ => some (1 / (1 + u))) 100
    (1 / 20) (1 / 2) 2 3 2 false 0 rfl rfl (by norm_num) rfl).1

/-- Counterexample to C36: the dirty price of the coupon bond of rate `1/20`, period `1/2` and
maturity 1 on the discount curve `D = 1` is returned at `t = 2 > T`, whatever the number of
iterations allowed: the evaluation does not fail. -/
theorem forwardCouponBond_beyond_maturity_returns :
    forwardCouponBond 0 (1 / 20 : ℝ) (1 / 2) 1 (fun _ => some 1) false 2 = some 1
      ∧ forwardAnnuity 0 (1 / 20 : ℝ) (1 / 2) 1 (fun _ => some 1) false 2 = some 0 := by
  have hloop : whileLoop (fun s : ℝ × ℝ => decide (s.1 > 2))
      (fun s => some (s.1 - 1 / 2, s.2 + (fun _ : ℝ => (1 : ℝ)) s.1)) 0 (1, 0) = some (1, 0) :=
    whileLoop_of_not_cond _ _ 0 (1, 0) (by norm_num)
  constructor
  · rw [forwardCouponBond_of_loop 0 (1 / 20) (1 / 2) 1 2 (fun _ => 1) false 1 0 hloop]
    norm_num
  · rw [forwardAnnuity_of_loop 0 (1 / 20) (1 / 2) 1 2 (fun _ => 1) false 1 0 hloop]
    norm_num

/-! ## The payment loop: closed form and termination -/

theorem payCount_ceil (δ T t : ℝ) (hδ : 0 < δ) :
    (∀ k : Nat, k < ⌈(T - t) / δ⌉₊ → t < T - k * δ) ∧ T - ⌈(T - t) / δ⌉₊ * δ ≤ t := by
  constructor
  · intro k hk
    have h := Nat.lt_ceil.1 hk
    rw [lt_div_iff₀ hδ] at h
    linarith
  · have h := Nat.le_ceil ((T - t) / δ)
    rw [div_le_iff₀ hδ] at h
    linarith

theorem whileLoop_payTimes_none (D : α → α) (δ t : α) : ∀ (fuel : Nat) (p s : α),
    (∀ k : Nat, k ≤ fuel → t < p - k * δ) →
    whileLoop (fun s : α × α => decide (s.1 > t)) (fun s => some (s.1 - δ, s.2 + D s.1))
        fuel (p, s) = none
  | 0, p, s, h => by
    have hp : p > t := by simpa using h 0 le_rfl
    simp [whileLoop, hp]
  | fuel + 1, p, s, h => by
    have hp : p > t := by simpa using h 0 (Nat.zero_le _)
    have ih := whileLoop_payTimes_none D δ t fuel (p - δ) (s + D p)
      (fun k hk => by
        have := h (k + 1) (by omega)
        push_cast at this
        linarith)
    simp only [whileLoop, hp, decide_True, if_true, Option.some_bind, ih]

theorem forwardCouponBond_of_loop_none (fuel : Nat) (q δ T t : α) (D : α → α) (bClean : Bool)
    (h : whileLoop (fun s : α × α => decide (s.1 > t)) (fun s => some (s.1 - δ, s.2 + D s.1))
        fuel (T, 0) = none) :
    forwardCouponBond fuel q δ T (fun u => some (D u)) bClean t = none := by
  have hbody : (fun s : α × α => (do
      let d ← (fun u => some (D u)) s.1
      pure (s.1 - δ, s.2 + d) : Option (α × α))) = fun s => some (s.1 - δ, s.2 + D s.1) := rfl
  simp only [forwardCouponBond, hbody, h, Option.bind_eq_bind, Option.some_bind,
    Option.pure_def, Option.none_bind]

theorem forwardAnnuity_of_loop_none (fuel : Nat) (q δ T t : α) (D : α → α) (bClean : Bool)
    (h : whileLoop (fun s : α × α => decide (s.1 > t)) (fun s => some (s.1 - δ, s.2 + D s.1))
        fuel (T, 0) = none) :
    forwardAnnuity fuel q δ T (fun u => some (D u)) bClean t = none := by
  have hbody : (fun s : α × α => (do
      let d ← (fun u => some (D u)) s.1
      pure (s.1 - δ, s.2 + d) : Option (α × α))) = fun s => some (s.1 - δ, s.2 + D s.1) := rfl
  simp only [forwardAnnuity, hbody, h, Option.bind_eq_bind, Option.some_bind,
    Option.pure_def, Option.none_bind]

/-- In exact arithmetic, where no operation rounds: for a rate `q`, a
period `δ > 0`, a maturity `T`, a discount curve `D` and `t < T` with `D(t) ≠ 0`, the number
`n = ceil((T - t) / δ)` is at least 1 and is the least natural number with `T - n * δ ≤ t`; with
`n` iterations or more allowed, the dirty price of `forwardCouponBond` at `t` is
`(q * δ * (sum of D(T - k * δ) over k < n) + D(T)) / D(t)`, the clean price is the dirty price
minus `q * (t - (T - n * δ))`, and `0 ≤ t - (T - n * δ) < δ`. -/
theorem forwardCouponBond_closed_form_unrounded (q δ T t : ℝ) (D : ℝ → ℝ) (fuel : Nat) (hδ : 0 < δ)
    (ht : t < T) (_hD : D t ≠ 0) (hfuel : ⌈(T - t) / δ⌉₊ ≤ fuel) :
    1 ≤ ⌈(T - t) / δ⌉₊
      ∧ (∀ k : Nat, k < ⌈(T - t) / δ⌉₊ → t < T - k * δ)
      ∧ T - ⌈(T - t) / δ⌉₊ * δ ≤ t
      ∧ forwardCouponBond fuel q δ T (fun u => some (D u)) false t
          = some ((q * δ * (∑ k ∈ Finset.range ⌈(T - t) / δ⌉₊, D (T - k * δ)) + D T) / D t)
      ∧ forwardCouponBond fuel q δ T (fun u => some (D u)) true t
          = some ((q * δ * (∑ k ∈ Finset.range ⌈(T - t) / δ⌉₊, D (T - k * δ)) + D T) / D t
              - q * (t - (T - ⌈(T - t) / δ⌉₊ * δ)))
      ∧ 0 ≤ t - (T - ⌈(T - t) / δ⌉₊ * δ)
      ∧ t - (T - ⌈(T - t) / δ⌉₊ * δ) < δ := by
  obtain ⟨hgo, hstop⟩ := payCount_ceil δ T t hδ
  have hn : 1 ≤ ⌈(T - t) / δ⌉₊ := Nat.ceil_pos.2 (div_pos (by linarith) hδ)
  have hloop := whileLoop_payTimes D δ t _ fuel T 0 hfuel hgo hstop
  refine ⟨hn, hgo, hstop, ?_, ?_, by linarith, ?_⟩
  · rw [forwardCouponBond_of_loop fuel q δ T t D false _ _ hloop, zero_add, mul_comm]
    simp
  · rw [forwardCouponBond_of_loop fuel q δ T t D true _ _ hloop, zero_add, mul_comm]
    simp
  · have h := hgo (⌈(T - t) / δ⌉₊ - 1) (by omega)
    rw [Nat.cast_sub hn] at h
    push_cast at h
    linarith

/-- An instance of the theorem above: the rate `1/20`, the period `1/2`, the maturity 3, the
discount curve `D(u) = 1 / (1 + u)` and `t = 1`, with `ceil((3 - 1) / (1/2))` iterations
allowed. -/
theorem forwardCouponBond_closed_form_unrounded_instance :
    1 ≤ ⌈((3 : ℝ) - 1) / (1 / 2)⌉₊
      ∧ (∀ k : Nat, k < ⌈((3 : ℝ) - 1) / (1 / 2)⌉₊ → (1 : ℝ) < 3 - k * (1 / 2))
      ∧ (3 : ℝ) - ⌈((3 : ℝ) - 1) / (1 / 2)⌉₊ * (1 / 2) ≤ 1 :=
  have h := forwardCouponBond_closed_form_unrounded (1 / 20) (1 / 2) 3 1 (fun u => 1 / (1 + u))
    ⌈((3 : ℝ) - 1) / (1 / 2)⌉₊ (by norm_num) (by norm_num) (by norm_num) le_rfl
  ⟨h.1, h.2.1, h.2.2.1⟩

/-- In exact arithmetic, where no operation rounds: on a discount curve
`D`, the payment loop of `forwardCouponBond` and of `forwardAnnuity` ends, for some number of
iterations allowed, if and only if `δ > 0` or `t ≥ T`; for `δ > 0` and `t < T` it ends exactly
when `ceil((T - t) / δ)` iterations or more are allowed; for `δ ≤ 0` and `t < T` the guard
`T - k * δ > t` holds after every number `k` of iterations and the loop ends for no number of
iterations allowed. -/
theorem payment_loop_termination_unrounded (q δ T t : ℝ) (D : ℝ → ℝ) (bClean : Bool) :
    ((∃ fuel v, forwardCouponBond fuel q δ T (fun u => some (D u)) bClean t = some v)
        ↔ (δ > 0 ∨ t ≥ T))
      ∧ ((∃ fuel v, forwardAnnuity fuel q δ T (fun u => some (D u)) bClean t = some v)
        ↔ (δ > 0 ∨ t ≥ T))
      ∧ (δ > 0 → t < T → ∀ fuel,
          ((∃ v, forwardCouponBond fuel q δ T (fun u => some (D u)) bClean t = some v)
            ↔ ⌈(T - t) / δ⌉₊ ≤ fuel)
          ∧ ((∃ v, forwardAnnuity fuel q δ T (fun u => some (D u)) bClean t = some v)
            ↔ ⌈(T - t) / δ⌉₊ ≤ fuel))
      ∧ (δ ≤ 0 → t < T → (∀ k : Nat, T - k * δ > t) ∧ ∀ fuel,
          forwardCouponBond fuel q δ T (fun u => some (D u)) bClean t = none
          ∧ forwardAnnuity fuel q δ T (fun u => some (D u)) bClean t = none) := by
  have hstuck : δ ≤ 0 → t < T → (∀ k : Nat, T - k * δ > t) ∧ ∀ fuel,
      forwardCouponBond fuel q δ T (fun u => some (D u)) bClean t = none
      ∧ forwardAnnuity fuel q δ T (fun u => some (D u)) bClean t = none := by
    intro hδ ht
    have hk : ∀ k : Nat, T - k * δ > t := by
      intro k
      have : (k : ℝ) * δ ≤ 0 := mul_nonpos_of_nonneg_of_nonpos (Nat.cast_nonneg k) hδ
      linarith
    refine ⟨hk, fun fuel => ?_⟩
    have hloop := whileLoop_payTimes_none D δ t fuel T 0 (fun k _ => hk k)
    exact ⟨forwardCouponBond_of_loop_none fuel q δ T t D bClean hloop,
      forwardAnnuity_of_loop_none fuel q δ T t D bClean hloop⟩
  have hexact : δ > 0 → t < T → ∀ fuel,
      ((∃ v, forwardCouponBond fuel q δ T (fun u => some (D u)) bClean t = some v)
        ↔ ⌈(T - t) / δ⌉₊ ≤ fuel)
      ∧ ((∃ v, forwardAnnuity fuel q δ T (fun u => some (D u)) bClean t = some v)
        ↔ ⌈(T - t) / δ⌉₊ ≤ fuel) := by
    intro hδ _ fuel
    obtain ⟨hgo, hstop⟩ := payCount_ceil δ T t hδ
    by_cases hf : ⌈(T - t) / δ⌉₊ ≤ fuel
    · have hloop := whileLoop_payTimes D δ t _ fuel T 0 hf hgo hstop
      exact ⟨⟨fun _ => hf, fun _ => ⟨_, forwardCouponBond_of_loop fuel q δ T t D bClean _ _ hloop⟩⟩,
        ⟨fun _ => hf, fun _ => ⟨_, forwardAnnuity_of_loop fuel q δ T t D bClean _ _ hloop⟩⟩⟩
    · have hloop := whileLoop_payTimes_none D δ t fuel T 0
        (fun k hk => hgo k (by omega))
      have h1 := forwardCouponBond_of_loop_none fuel q δ T t D bClean hloop
      have h2 := forwardAnnuity_of_loop_none fuel q δ T t D bClean hloop
      constructor
      · rw [h1]; simp [hf]
      · rw [h2]; simp [hf]
  have hdone : t ≥ T → whileLoop (fun s : ℝ × ℝ => decide (s.1 > t))
      (fun s => some (s.1 - δ, s.2 + D s.1)) 0 (T, 0) = some (T, 0) := fun h =>
    whileLoop_of_not_cond _ _ 0 (T, 0) (by simpa using h)
  refine ⟨⟨?_, ?_⟩, ⟨?_, ?_⟩, hexact, hstuck⟩
  · rintro ⟨fuel, v, hv⟩
    by_contra hcon
    rw [not_or, not_lt, not_le] at hcon
    rw [((hstuck hcon.1 hcon.2).2 fuel).1] at hv
    exact Option.noConfusion hv
  · intro h
    by_cases ht : t ≥ T
    · exact ⟨0, _, forwardCouponBond_of_loop 0 q δ T t D bClean _ _ (hdone ht)⟩
    · have hδ : δ > 0 := h.resolve_right ht
      obtain ⟨v, hv⟩ := ((hexact hδ (not_le.1 ht) _).1).2 le_rfl
      exact ⟨_, v, hv⟩
  · rintro ⟨fuel, v, hv⟩
    by_contra hcon
    rw [not_or, not_lt, not_le] at hcon
    rw [((hstuck hcon.1 hcon.2).2 fuel).2] at hv
    exact Option.noConfusion hv
  · intro h
    by_cases ht : t ≥ T
    · exact ⟨0, _, forwardAnnuity_of_loop 0 q δ T t D bClean _ _ (hdone ht)⟩
    · have hδ : δ > 0 := h.resolve_right ht
      obtain ⟨v, hv⟩ := ((hexact hδ (not_le.1 ht) _).2).2 le_rfl
      exact ⟨_, v, hv⟩

/-- An instance of the theorem above: the period `-1/2`, the maturity 3 and `t = 1`: the loop
does not end. -/
theorem payment_loop_termination_unrounded_instance :
    (∀ k : Nat, (3 : ℝ) - k * (-(1 / 2)) > 1) ∧ ∀ fuel,
      forwardCouponBond fuel (1 / 20 : ℝ) (-(1 / 2)) 3 (fun u => some (1 / (1 + u))) false 1
          = none
      ∧ forwardAnnuity fuel (1 / 20 : ℝ) (-(1 / 2)) 3 (fun u => some (1 / (1 + u))) false 1
          = none :=
  (payment_loop_termination_unrounded (1 / 20) (-(1 / 2)) 3 1 (fun u => 1 / (1 + u)) false).2.2.2
    (by norm_num) (by norm_num)

/-! ## One-payment swap rate and forward LIBOR -/

/-- C39: for every period `δ > EPS`, every discount curve `D` and every `t` with
`D(t + δ) ≥ EPS`, the forward swap rate of one payment at `t` and the forward LIBOR at `t`
are the same value. -/
theorem forwardSwapRate_one_eq_forwardLibor (δ t : α) (D : α → α) (hδ : δ > EPS)
    (hD : D (t + δ) ≥ EPS) :
    ∃ v, forwardSwapRate δ 1 (fun u => some (D u)) t = some v
      ∧ forwardLibor δ (fun u => some (D u)) t = some v := by
  have hE : (0 : α) < EPS := EPS_pos
  have hδ0 : δ ≠ 0 := (lt_trans hE hδ).ne'
  have hD0 : D (t + δ) ≠ 0 := (lt_of_lt_of_le hE hD).ne'
  refine ⟨_, forwardSwapRate_total D δ t 1, ?_⟩
  simp only [forwardLibor, Option.bind_eq_bind, Option.some_bind, Option.pure_def,
    not_lt.2 hD, if_false, hδ, if_true, Option.some.injEq, Finset.sum_range_one, Nat.cast_zero,
    zero_add, Nat.cast_one, one_mul]
  field_simp

/-- Witness of C39: the period `1/4`, the discount curve `D(u) = 1 / (1 + u)` and `t = 1`. -/
theorem forwardSwapRate_one_eq_forwardLibor_witness :
    ∃ v : ℝ, forwardSwapRate (1 / 4) 1 (fun u => some (1 / (1 + u))) 1 = some v
      ∧ forwardLibor (1 / 4) (fun u => some (1 / (1 + u))) 1 = some v :=
  forwardSwapRate_one_eq_forwardLibor (1 / 4) 1 (fun u => 1 / (1 + u)) (by norm_num [EPS])
    (by norm_num [EPS])

/-! ## The range of `shape1` -/

theorem shape1_range (x : ℝ) (hx : x ≥ 0) :
    ∃ v, shape1 Real.exp x = some v ∧ 0 < v ∧ v ≤ 1 ∧ (v = 1 ↔ x = 0) := by
  by_cases hE : x ≤ EPS
  · have hE' : x ≤ 1 / 10000000000 := hE
    refine ⟨_, shape1_taylor Real.exp x hx hE, by nlinarith, by nlinarith, ?_⟩
    constructor
    · intro h
      have h3 : x * (x - 3) = 0 := by linarith
      rcases mul_eq_zero.1 h3 with h0 | h0
      · exact h0
      · linarith
    · rintro rfl
      norm_num
  · have hgt : x > EPS := not_le.1 hE
    have hpos : 0 < x := lt_trans EPS_pos hgt
    have h1 : -x + 1 < Real.exp (-x) := Real.add_one_lt_exp (neg_ne_zero.2 hpos.ne')
    have h2 : Real.exp (-x) < 1 := by
      rw [← Real.exp_zero]
      exact Real.exp_lt_exp.2 (by linarith)
    have hlt : (1 - Real.exp (-x)) / x < 1 := by
      rw [div_lt_one hpos]
      linarith
    refine ⟨_, shape1_closed Real.exp x hgt, div_pos (by linarith) hpos, hlt.le, ?_⟩
    constructor
    · intro h
      rw [h] at hlt
      exact absurd hlt (lt_irrefl 1)
    · intro h
      exact absurd h hpos.ne'

theorem volatilityBlack_eq (exp sqrt : α → α) (sigma lam t0 : α) (hlam : lam ≥ 0)
    (hsigma : sigma > 0) :
    ∃ V, volatilityBlack exp sqrt sigma lam t0 = some V ∧ ∀ t x, t ≥ t0 →
      shape1 exp (2 * (lam * (t - t0))) = some x → V t = some (sigma * sqrt x) := by
  simp only [volatilityBlack, PRECONDITION_pos hlam, PRECONDITION_pos hsigma,
    Option.bind_eq_bind, Option.some_bind, Option.pure_def]
  refine ⟨_, rfl, fun t x ht hx => ?_⟩
  simp only [PRECONDITION_pos ht, prepExam_shape1_eq, hx, Option.some_bind]

/-- In exact arithmetic, where no operation rounds: for every `x ≥ 0` the
three copies of `shape1` return the same value `v` with `0 < v ≤ 1`, and `v = 1` only at
`x = 0`; for `sigma > 0`, `lambda ≥ 0` and `t ≥ t0` the arguments of the square roots of
`volatilityBlack` and of `volatilityHullWhite` (at the option maturity `t`) are positive, the
Black volatility curve is built, its value at `t` lies in `(0, sigma]`, and its value at `t0` is
`sigma`. -/
theorem shape1_range_volatilityBlack_unrounded (x sigma lam t0 t : ℝ) (hx : x ≥ 0)
    (hsigma : sigma > 0)
    (hlam : lam ≥ 0) (ht : t ≥ t0) :
    (∃ v, shape1 Real.exp x = some v ∧ prep2.shape1 Real.exp x = some v
        ∧ prepExam.shape1 Real.exp x = some v ∧ 0 < v ∧ v ≤ 1 ∧ (v = 1 ↔ x = 0))
      ∧ (∃ a, prepExam.shape1 Real.exp (2 * (lam * (t - t0))) = some a ∧ 0 < a)
      ∧ (∃ a, prep2.shape1 Real.exp (2 * (lam * (t - t0))) = some a ∧ 0 < a)
      ∧ (∃ V v, volatilityBlack Real.exp Real.sqrt sigma lam t0 = some V
          ∧ V t = some v ∧ 0 < v ∧ v ≤ sigma ∧ V t0 = some sigma) := by
  obtain ⟨v, hv, hv0, hv1, hviff⟩ := shape1_range x hx
  have harg : 2 * (lam * (t - t0)) ≥ 0 := by
    have := mul_nonneg hlam (sub_nonneg.2 ht)
    linarith
  obtain ⟨a, ha, ha0, ha1, -⟩ := shape1_range _ harg
  obtain ⟨V, hV, hval⟩ := volatilityBlack_eq Real.exp Real.sqrt sigma lam t0 hlam hsigma
  refine ⟨⟨v, hv, hv, hv, hv0, hv1, hviff⟩, ⟨a, ha, ha0⟩, ⟨a, ha, ha0⟩,
    V, _, hV, hval t a ht ha, mul_pos hsigma (Real.sqrt_pos.2 ha0), ?_, ?_⟩
  · have : Real.sqrt a ≤ 1 := Real.sqrt_le_one.2 ha1
    nlinarith
  · have h0 : (2 : ℝ) * (lam * (t0 - t0)) = 0 := by ring
    have hs0 : shape1 Real.exp (2 * (lam * (t0 - t0))) = some 1 := by
      rw [h0, shape1_taylor Real.exp 0 le_rfl EPS_pos.le]
      norm_num
    rw [hval t0 1 le_rfl hs0, Real.sqrt_one, mul_one]

/-- An instance of the theorem above: `x = 1`, `sigma = 0.2`, `lambda = 0.05`, `t0 = 0.75`,
`t = 1`. -/
theorem shape1_range_volatilityBlack_unrounded_instance :
    ∃ V v, volatilityBlack Real.exp Real.sqrt (2 / 10) (5 / 100) (3 / 4) = some V
      ∧ V 1 = some v ∧ 0 < v ∧ v ≤ 2 / 10 ∧ V (3 / 4) = some (2 / 10) :=
  (shape1_range_volatilityBlack_unrounded 1 (2 / 10) (5 / 100) (3 / 4) 1 (by norm_num) (by norm_num)
    (by norm_num) (by norm_num)).2.2.2

/-! ## The rounding of binary64 arithmetic -/

theorem bitLen_spec : ∀ (fuel n : Nat), 0 < n → n ≤ fuel →
    2 ^ bitLen fuel n ≤ 2 * n ∧ n < 2 ^ bitLen fuel n
  | 0, n, h0, h => by omega
  | fuel + 1, n, h0, h => by
    rw [bitLen, if_neg (Nat.pos_iff_ne_zero.1 h0)]
    by_cases h2 : n / 2 = 0
    · have h1 : n = 1 := by omega
      subst h1
      have h3 : bitLen fuel (1 / 2) = 0 := by cases fuel <;> simp [bitLen]
      simp [h3]
    · have ih := bitLen_spec fuel (n / 2) (Nat.pos_of_ne_zero h2) (by omega)
      rw [pow_succ]
      constructor <;> omega

theorem binExp_spec (q : ℚ) (hq : q ≠ 0) :
    (2 : ℚ) ^ binExp q ≤ |q| ∧ |q| < (2 : ℚ) ^ (binExp q + 1) := by
  have hn : 0 < q.num.natAbs := Int.natAbs_pos.2 (Rat.num_ne_zero.2 hq)
  have hd : 0 < q.den := q.den_pos
  obtain ⟨ha1, ha2⟩ := bitLen_spec q.num.natAbs q.num.natAbs hn le_rfl
  obtain ⟨hb1, hb2⟩ := bitLen_spec q.den q.den hd le_rfl
  have habs : |q| = (q.num.natAbs : ℚ) / (q.den : ℚ) := by
    conv_lhs => rw [← Rat.num_div_den q]
    rw [abs_div, Nat.abs_cast, Nat.cast_natAbs, Int.cast_abs]
  have hnq : (0 : ℚ) < (q.num.natAbs : ℚ) := by exact_mod_cast hn
  have hdq : (0 : ℚ) < (q.den : ℚ) := by exact_mod_cast hd
  have ha1q : (2 : ℚ) ^ bitLen q.num.natAbs q.num.natAbs ≤ 2 * (q.num.natAbs : ℚ) := by
    exact_mod_cast ha1
  have ha2q : (q.num.natAbs : ℚ) < (2 : ℚ) ^ bitLen q.num.natAbs q.num.natAbs := by
    exact_mod_cast ha2
  have hb1q : (2 : ℚ) ^ bitLen q.den q.den ≤ 2 * (q.den : ℚ) := by exact_mod_cast hb1
  have hb2q : (q.den : ℚ) < (2 : ℚ) ^ bitLen q.den q.den := by exact_mod_cast hb2
  have h2 : (2 : ℚ) ≠ 0 := by norm_num
  have hpa : (0 : ℚ) < (2 : ℚ) ^ bitLen q.num.natAbs q.num.natAbs := by positivity
  have hpb : (0 : ℚ) < (2 : ℚ) ^ bitLen q.den q.den := by positivity
  have he : (2 : ℚ) ^ ((bitLen q.num.natAbs q.num.natAbs : ℤ) - (bitLen q.den q.den : ℤ))
      = (2 : ℚ) ^ bitLen q.num.natAbs q.num.natAbs / (2 : ℚ) ^ bitLen q.den q.den := by
    rw [zpow_sub₀ h2, zpow_natCast, zpow_natCast]
  have hlow : (2 : ℚ) ^ bitLen q.num.natAbs q.num.natAbs / (2 : ℚ) ^ bitLen q.den q.den / 2
      ≤ |q| := by
    rw [habs, div_div, div_le_div_iff₀ (by positivity) hdq]
    nlinarith
  have hhigh : |q|
      < (2 : ℚ) ^ bitLen q.num.natAbs q.num.natAbs / (2 : ℚ) ^ bitLen q.den q.den * 2 := by
    rw [habs, div_mul_eq_mul_div, div_lt_div_iff₀ hdq hpb]
    nlinarith
  unfold binExp
  simp only
  split_ifs with hlt
  · rw [sub_add_cancel, zpow_sub_one₀ h2, he]
    exact ⟨by rw [← div_eq_mul_inv]; exact hlow, by rw [← he]; exact hlt⟩
  · rw [zpow_add_one₀ h2, he]
    exact ⟨by rw [← he]; exact not_lt.1 hlt, hhigh⟩


theorem binExp_eq (q : ℚ) (e : ℤ) (h1 : (2 : ℚ) ^ e ≤ |q|) (h2 : |q| < (2 : ℚ) ^ (e + 1)) :
    binExp q = e := by
  have hq : q ≠ 0 := by
    intro h
    rw [h, abs_zero] at h1
    exact absurd h1 (not_le.2 (by positivity))
  obtain ⟨h3, h4⟩ := binExp_spec q hq
  have h5 : e < binExp q + 1 :=
    (zpow_lt_zpow_iff_right₀ (by norm_num : (1 : ℚ) < 2)).1 (lt_of_le_of_lt h1 h4)
  have h6 : binExp q < e + 1 :=
    (zpow_lt_zpow_iff_right₀ (by norm_num : (1 : ℚ) < 2)).1 (lt_of_le_of_lt h3 h2)
  omega

theorem roundHalfEven_cases (q : ℚ) :
    (roundHalfEven q = ⌊q⌋ ∧ q - ⌊q⌋ ≤ 1 / 2) ∨ (roundHalfEven q = ⌊q⌋ + 1 ∧ 1 / 2 ≤ q - ⌊q⌋) := by
  unfold roundHalfEven
  simp only
  split_ifs with h1 h2 h3
  · exact Or.inl ⟨rfl, le_of_lt h1⟩
  · exact Or.inr ⟨rfl, le_of_lt h2⟩
  · exact Or.inl ⟨rfl, not_lt.1 h2⟩
  · exact Or.inr ⟨rfl, not_lt.1 h1⟩

theorem roundHalfEven_intCast (m : ℤ) : roundHalfEven (m : ℚ) = m := by
  unfold roundHalfEven
  simp

theorem roundHalfEven_near (q : ℚ) : |(roundHalfEven q : ℚ) - q| ≤ 1 / 2 := by
  have h1 := Int.floor_le q
  have h2 := Int.lt_floor_add_one q
  rw [abs_le]
  rcases roundHalfEven_cases q with ⟨h, h3⟩ | ⟨h, h3⟩
  · rw [h]; constructor <;> linarith
  · rw [h]; push_cast; constructor <;> linarith

theorem roundHalfEven_tie (q : ℚ) (h : |(roundHalfEven q : ℚ) - q| = 1 / 2) :
    roundHalfEven q % 2 = 0 := by
  have h1 := Int.floor_le q
  have h2 := Int.lt_floor_add_one q
  have hr : q - ⌊q⌋ = 1 / 2 := by
    rcases roundHalfEven_cases q with ⟨h4, h3⟩ | ⟨h4, h3⟩
    · rw [h4, abs_sub_comm, abs_of_nonneg (by linarith)] at h
      exact h
    · rw [h4, abs_of_nonneg (by push_cast; linarith)] at h
      push_cast at h
      linarith
  unfold roundHalfEven
  simp only [hr, lt_self_iff_false, if_false]
  split_ifs with h3
  · exact h3
  · omega

theorem roundHalfEven_ge (q : ℚ) (l : ℤ) (h : (l : ℚ) ≤ q) : l ≤ roundHalfEven q := by
  have h1 : l ≤ ⌊q⌋ := Int.le_floor.2 h
  rcases roundHalfEven_cases q with ⟨h2, _⟩ | ⟨h2, _⟩ <;> omega

theorem roundHalfEven_le (q : ℚ) (u : ℤ) (h : q ≤ (u : ℚ)) : roundHalfEven q ≤ u := by
  rcases roundHalfEven_cases q with ⟨h2, _⟩ | ⟨h2, h3⟩
  · rw [h2]
    have h4 : (⌊q⌋ : ℚ) ≤ u := le_trans (Int.floor_le q) h
    exact_mod_cast h4
  · rw [h2]
    have h4 : (⌊q⌋ : ℚ) < u := by linarith
    have h5 : ⌊q⌋ < u := by exact_mod_cast h4
    omega


theorem round53_of_ne_zero (q : ℚ) (hq : q ≠ 0) :
    round53 q = roundHalfEven (q / (2 : ℚ) ^ (binExp q - 52)) * (2 : ℚ) ^ (binExp q - 52) := by
  unfold round53
  rw [if_neg hq]

theorem scaled_bounds (q : ℚ) (hq : q ≠ 0) :
    (2 : ℚ) ^ 52 ≤ |q / (2 : ℚ) ^ (binExp q - 52)|
      ∧ |q / (2 : ℚ) ^ (binExp q - 52)| < (2 : ℚ) ^ 53 := by
  obtain ⟨h1, h2⟩ := binExp_spec q hq
  have h0 : (2 : ℚ) ≠ 0 := by norm_num
  have hp : (0 : ℚ) < (2 : ℚ) ^ (binExp q - 52) := by positivity
  have e1 : (2 : ℚ) ^ binExp q = (2 : ℚ) ^ 52 * (2 : ℚ) ^ (binExp q - 52) := by
    rw [zpow_sub₀ h0]
    have : ((2 : ℚ) ^ (52 : ℤ)) = (2 : ℚ) ^ 52 := by norm_cast
    rw [this]
    field_simp
  have e2 : (2 : ℚ) ^ (binExp q + 1) = (2 : ℚ) ^ 53 * (2 : ℚ) ^ (binExp q - 52) := by
    rw [zpow_add_one₀ h0, e1]
    ring
  rw [abs_div, abs_of_pos hp, le_div_iff₀ hp, div_lt_iff₀ hp, ← e1, ← e2]
  exact ⟨h1, h2⟩

/-- The rounding `round53` is a rounding to nearest with 53 binary digits, ties to even: for
`q ≠ 0` and `e = binExp q - 52`, the unit in the last place being `2 ^ e`, the result is
`m * 2 ^ e` for an integer `m` with `2 ^ 52 ≤ |m| ≤ 2 ^ 53`, it is at most half a unit away
from `q`, and `m` is even when it is exactly half a unit away. -/
theorem round53_spec (q : ℚ) (hq : q ≠ 0) :
    ∃ m : ℤ, round53 q = m * (2 : ℚ) ^ (binExp q - 52) ∧ 2 ^ 52 ≤ |m| ∧ |m| ≤ 2 ^ 53
      ∧ |round53 q - q| ≤ (2 : ℚ) ^ (binExp q - 52) / 2
      ∧ (|round53 q - q| = (2 : ℚ) ^ (binExp q - 52) / 2 → m % 2 = 0) := by
  obtain ⟨hs1, hs2⟩ := scaled_bounds q hq
  have hp : (0 : ℚ) < (2 : ℚ) ^ (binExp q - 52) := by positivity
  have hdiff : round53 q - q
      = ((roundHalfEven (q / (2 : ℚ) ^ (binExp q - 52)) : ℚ) - q / (2 : ℚ) ^ (binExp q - 52))
        * (2 : ℚ) ^ (binExp q - 52) := by
    rw [round53_of_ne_zero q hq]
    field_simp
  have habs : |round53 q - q|
      = |(roundHalfEven (q / (2 : ℚ) ^ (binExp q - 52)) : ℚ) - q / (2 : ℚ) ^ (binExp q - 52)|
        * (2 : ℚ) ^ (binExp q - 52) := by
    rw [hdiff, abs_mul, abs_of_pos hp]
  refine ⟨roundHalfEven (q / (2 : ℚ) ^ (binExp q - 52)), round53_of_ne_zero q hq, ?_, ?_, ?_, ?_⟩
  · rcases le_or_lt 0 (q / (2 : ℚ) ^ (binExp q - 52)) with h | h
    · rw [abs_of_nonneg h] at hs1
      have := roundHalfEven_ge (q / (2 : ℚ) ^ (binExp q - 52)) (2 ^ 52)
        (by push_cast; exact hs1)
      exact le_trans this (le_abs_self _)
    · rw [abs_of_neg h] at hs1
      have := roundHalfEven_le (q / (2 : ℚ) ^ (binExp q - 52)) (-(2 ^ 52))
        (by push_cast; linarith)
      exact le_trans (by omega) (neg_le_abs _)
  · rw [abs_le]
    rcases le_or_lt 0 (q / (2 : ℚ) ^ (binExp q - 52)) with h | h
    · rw [abs_of_nonneg h] at hs1 hs2
      have h1 := roundHalfEven_ge (q / (2 : ℚ) ^ (binExp q - 52)) (2 ^ 52)
        (by push_cast; exact hs1)
      have h2 := roundHalfEven_le (q / (2 : ℚ) ^ (binExp q - 52)) (2 ^ 53)
        (by push_cast; exact le_of_lt hs2)
      constructor <;> omega
    · rw [abs_of_neg h] at hs1 hs2
      have h1 := roundHalfEven_le (q / (2 : ℚ) ^ (binExp q - 52)) (-(2 ^ 52))
        (by push_cast; linarith)
      have h2 := roundHalfEven_ge (q / (2 : ℚ) ^ (binExp q - 52)) (-(2 ^ 53))
        (by push_cast; linarith)
      constructor <;> omega
  · rw [habs]
    have := roundHalfEven_near (q / (2 : ℚ) ^ (binExp q - 52))
    nlinarith
  · intro h
    rw [habs] at h
    refine roundHalfEven_tie _ ?_
    have h3 : |(roundHalfEven (q / (2 : ℚ) ^ (binExp q - 52)) : ℚ)
        - q / (2 : ℚ) ^ (binExp q - 52)| * (2 : ℚ) ^ (binExp q - 52)
        = 1 / 2 * (2 : ℚ) ^ (binExp q - 52) := by rw [h]; ring
    exact mul_right_cancel₀ (ne_of_gt hp) h3


/-- A rounded number is its own rounding: the numbers that `round53` returns are the numbers
that it leaves as they are. -/
theorem round53_idem (q : ℚ) : round53 (round53 q) = round53 q := by
  by_cases hq : q = 0
  · rw [hq]; simp [round53]
  obtain ⟨m, hm, hm1, hm2, -, -⟩ := round53_spec q hq
  have h0 : (2 : ℚ) ≠ 0 := by norm_num
  have hp : (0 : ℚ) < (2 : ℚ) ^ (binExp q - 52) := by positivity
  have hm0 : m ≠ 0 := by
    intro h
    rw [h] at hm1
    norm_num at hm1
  have hmq : (0 : ℚ) < |(m : ℚ)| := abs_pos.2 (by exact_mod_cast hm0)
  have hr0 : round53 q ≠ 0 := by
    rw [hm]
    exact mul_ne_zero (by exact_mod_cast hm0) (ne_of_gt hp)
  have habs : |round53 q| = |(m : ℚ)| * (2 : ℚ) ^ (binExp q - 52) := by
    rw [hm, abs_mul, abs_of_pos hp]
  have hm1q : (2 : ℚ) ^ 52 ≤ |(m : ℚ)| := by
    have : ((2 ^ 52 : ℤ) : ℚ) ≤ ((|m| : ℤ) : ℚ) := by exact_mod_cast hm1
    simpa using this
  have e52 : (2 : ℚ) ^ binExp q = (2 : ℚ) ^ 52 * (2 : ℚ) ^ (binExp q - 52) := by
    rw [zpow_sub₀ h0]
    have : ((2 : ℚ) ^ (52 : ℤ)) = (2 : ℚ) ^ 52 := by norm_cast
    rw [this]
    field_simp
  have e53 : (2 : ℚ) ^ (binExp q + 1) = (2 : ℚ) ^ 53 * (2 : ℚ) ^ (binExp q - 52) := by
    rw [zpow_add_one₀ h0, e52]
    ring
  rcases lt_or_eq_of_le hm2 with hlt | heq
  · have hltq : |(m : ℚ)| < (2 : ℚ) ^ 53 := by
      have : ((|m| : ℤ) : ℚ) < ((2 ^ 53 : ℤ) : ℚ) := by exact_mod_cast hlt
      simpa using this
    have hb : binExp (round53 q) = binExp q := by
      refine binExp_eq _ _ ?_ ?_
      · rw [habs, e52]
        exact mul_le_mul_of_nonneg_right hm1q (le_of_lt hp)
      · rw [habs, e53]
        exact mul_lt_mul_of_pos_right hltq hp
    rw [round53_of_ne_zero _ hr0, hb]
    have : round53 q / (2 : ℚ) ^ (binExp q - 52) = (m : ℚ) := by
      rw [hm]; field_simp
    rw [this, roundHalfEven_intCast, hm]
  · have hb : binExp (round53 q) = binExp q + 1 := by
      have habs2 : |round53 q| = (2 : ℚ) ^ (binExp q + 1) := by
        rw [habs, e53]
        have : ((|m| : ℤ) : ℚ) = ((2 ^ 53 : ℤ) : ℚ) := by exact_mod_cast heq
        have h2 : |(m : ℚ)| = (2 : ℚ) ^ 53 := by simpa using this
        rw [h2]
      refine binExp_eq _ _ (le_of_eq habs2.symm) ?_
      rw [habs2]
      exact zpow_lt_zpow_right₀ (by norm_num) (by omega)
    rw [round53_of_ne_zero _ hr0, hb]
    have he : (2 : ℚ) ^ (binExp q + 1 - 52) = 2 * (2 : ℚ) ^ (binExp q - 52) := by
      rw [show binExp q + 1 - 52 = binExp q - 52 + 1 by ring, zpow_add_one₀ h0]
      ring
    have hmev : m = 2 * (m / 2) := by
      rcases abs_eq (by norm_num : (0 : ℤ) ≤ 2 ^ 53) |>.1 heq with h | h <;> rw [h] <;> norm_num
    have : round53 q / (2 : ℚ) ^ (binExp q + 1 - 52) = ((m / 2 : ℤ) : ℚ) := by
      rw [hm, he]
      conv_lhs => rw [hmev]
      push_cast
      field_simp
      ring
    rw [this, roundHalfEven_intCast, hm, he]
    conv_rhs => rw [hmev]
    push_cast
    ring

/-- The value of a `Double` is a number that the rounding leaves as it is. -/
theorem Double.round53_val (x : Double) : round53 x.val = x.val := by
  obtain ⟨q, hq⟩ := x.rounded
  rw [← hq, round53_idem]

/-! ## The payment loop in double arithmetic -/

theorem whileLoop_add_fuel {σ : Type} (cond : σ → Bool) (body : σ → Option σ) (n : Nat) :
    ∀ (fuel : Nat) (s r : σ), whileLoop cond body fuel s = some r →
      whileLoop cond body (fuel + n) s = some r := by
  intro fuel
  induction fuel with
  | zero =>
    intro s r h
    cases hc : cond s
    · simp only [whileLoop, hc, Bool.false_eq_true, if_false] at h
      rw [← h]
      cases n <;> simp [whileLoop, hc]
    · simp [whileLoop, hc] at h
  | succ f ih =>
    intro s r h
    rw [Nat.add_right_comm]
    cases hc : cond s
    · simp only [whileLoop, hc, Bool.false_eq_true, if_false] at h ⊢
      exact h
    · simp only [whileLoop, hc, if_true] at h ⊢
      cases hb : body s with
      | none => simp [hb] at h
      | some s1 =>
        simp only [hb, Option.some_bind] at h ⊢
        exact ih s1 r h

theorem whileLoop_none_of_invariant {σ : Type} (cond : σ → Bool) (body : σ → Option σ)
    (inv : σ → Prop) (hcond : ∀ s, inv s → cond s = true)
    (hbody : ∀ s s1, inv s → body s = some s1 → inv s1) :
    ∀ (fuel : Nat) (s : σ), inv s → whileLoop cond body fuel s = none := by
  intro fuel
  induction fuel with
  | zero => intro s hs; simp [whileLoop, hcond s hs]
  | succ f ih =>
    intro s hs
    simp only [whileLoop, hcond s hs, if_true]
    cases hb : body s with
    | none => rfl
    | some s1 => exact ih s1 (hbody s s1 hs hb)

section
variable {β : Type} [Zero β] [Add β] [Sub β] [Mul β] [Div β] [LT β]
  [DecidableRel (fun a b : β => a < b)]

theorem forwardCouponBond_add_fuel (fuel n : Nat) (q δ T : β) (D : Curve β) (bClean : Bool)
    (t v : β) (h : forwardCouponBond fuel q δ T D bClean t = some v) :
    forwardCouponBond (fuel + n) q δ T D bClean t = some v := by
  unfold forwardCouponBond at h ⊢
  cases hl : whileLoop (fun s : β × β => decide (s.1 > t))
      (fun s => do let d ← D s.1; pure (s.1 - δ, s.2 + d)) fuel (T, 0) with
  | none => rw [hl] at h; simp at h
  | some r =>
    rw [whileLoop_add_fuel _ _ n fuel _ r hl]
    rw [hl] at h
    exact h

theorem forwardAnnuity_add_fuel (fuel n : Nat) (q δ T : β) (D : Curve β) (bClean : Bool)
    (t v : β) (h : forwardAnnuity fuel q δ T D bClean t = some v) :
    forwardAnnuity (fuel + n) q δ T D bClean t = some v := by
  unfold forwardAnnuity at h ⊢
  cases hl : whileLoop (fun s : β × β => decide (s.1 > t))
      (fun s => do let d ← D s.1; pure (s.1 - δ, s.2 + d)) fuel (T, 0) with
  | none => rw [hl] at h; simp at h
  | some r =>
    rw [whileLoop_add_fuel _ _ n fuel _ r hl]
    rw [hl] at h
    exact h

theorem forwardCouponBond_none_of_loop (fuel : Nat) (q δ T : β) (D : Curve β) (bClean : Bool)
    (t : β) (h : whileLoop (fun s : β × β => decide (s.1 > t))
      (fun s => do let d ← D s.1; pure (s.1 - δ, s.2 + d)) fuel (T, 0) = none) :
    forwardCouponBond fuel q δ T D bClean t = none := by
  unfold forwardCouponBond
  rw [h]; rfl

theorem forwardAnnuity_none_of_loop (fuel : Nat) (q δ T : β) (D : Curve β) (bClean : Bool)
    (t : β) (h : whileLoop (fun s : β × β => decide (s.1 > t))
      (fun s => do let d ← D s.1; pure (s.1 - δ, s.2 + d)) fuel (T, 0) = none) :
    forwardAnnuity fuel q δ T D bClean t = none := by
  unfold forwardAnnuity
  rw [h]; rfl

end


/-- C14: in double arithmetic the clean and the dirty price differ on a coupon date.  For the
bond of rate `q = 1`, period `δ = 0.1` and maturity `T = 1` on the discount curve `D = 1`, the
coupon date `T - 4 * δ` is the `double` `0.6`.  Repeated subtraction of `0.1` from `1` reaches
`0.6000000000000001 > 0.6`, so four iterations do not end the loop; the fifth ends it at
`0.5000000000000001`.  The dirty price is `1.5`, with five coupons, and the clean price is
`1.4000000000000001`, with the accrued interest of almost a full period. -/
theorem forwardCouponBond_clean_ne_dirty_double :
    (1 : Double) - 4 * (1 / 10) = 6 / 10
      ∧ (1 : Double) - 1 / 10 - 1 / 10 - 1 / 10 - 1 / 10 > 6 / 10
      ∧ (∀ bClean, forwardCouponBond 4 (1 : Double) (1 / 10) 1 (fun _ => some 1) bClean (6 / 10)
          = none)
      ∧ (∀ n, forwardCouponBond (5 + n) (1 : Double) (1 / 10) 1 (fun _ => some 1) false (6 / 10)
          = some (3 / 2))
      ∧ (∀ n, forwardCouponBond (5 + n) (1 : Double) (1 / 10) 1 (fun _ => some 1) true (6 / 10)
          = some (Double.ofRat (6305039478318695 / 4503599627370496)))
      ∧ Double.ofRat (6305039478318695 / 4503599627370496) < 3 / 2 := by
  refine ⟨by decide!, by decide!, by decide!, fun n => ?_, fun n => ?_, by decide!⟩
  · exact forwardCouponBond_add_fuel 5 n _ _ _ _ _ _ _ (by decide!)
  · exact forwardCouponBond_add_fuel 5 n _ _ _ _ _ _ _ (by decide!)

/-- C37: in double arithmetic the dirty price is not the closed form with
`n = ceil((T - t) / δ)` coupons.  For `q = 1`, `δ = 0.1`, `T = 1`, `D = 1` and `t = 0.6`, the
least `n` with `T - n * δ ≤ t` is 4, in exact arithmetic on the values of the three doubles
and in double arithmetic alike, and the closed form with four coupons is `1.4`; the loop
makes five iterations and the code returns `1.5`. -/
theorem forwardCouponBond_closed_form_fails_double :
    ((1 : Double).val - 4 * (1 / 10 : Double).val ≤ (6 / 10 : Double).val
        ∧ (6 / 10 : Double).val < (1 : Double).val - 3 * (1 / 10 : Double).val)
      ∧ ⌈((1 : Double).val - (6 / 10 : Double).val) / (1 / 10 : Double).val⌉₊ = 4
      ∧ ((1 : Double) - 4 * (1 / 10) ≤ 6 / 10 ∧ (6 / 10 : Double) < 1 - 3 * (1 / 10))
      ∧ ((1 : Double) * (1 / 10) * (1 + 1 + 1 + 1) + 1) / 1 = 7 / 5
      ∧ forwardCouponBond 4 (1 : Double) (1 / 10) 1 (fun _ => some 1) false (6 / 10) = none
      ∧ (∀ n, forwardCouponBond (5 + n) (1 : Double) (1 / 10) 1 (fun _ => some 1) false (6 / 10)
          = some (3 / 2))
      ∧ (7 / 5 : Double) < 3 / 2 := by
  refine ⟨by decide!, by decide!, by decide!, by decide!, by decide!, fun n => ?_, by decide!⟩
  exact forwardCouponBond_add_fuel 5 n _ _ _ _ _ _ _ (by decide!)


/-- C38: in double arithmetic the payment loop need not end for a positive period, and it
need not make `ceil((T - t) / δ)` iterations.  With `T = 10^16`, `δ = 1` and `t = 0` the
subtraction `T - δ` rounds back to `T`: the guard holds for ever, whatever the rate, the
discount curve and the number of iterations allowed.  With `T = 1`, `δ = 0.1` and `t = 0.6`
the quotient `(T - t) / δ` has ceiling 4, four iterations do not end the loop and the fifth
does. -/
theorem payment_loop_termination_fails_double :
    ((0 : Double) < 1 ∧ (0 : Double) < 10000000000000000
        ∧ (10000000000000000 : Double) - 1 = 10000000000000000)
      ∧ (∀ (fuel : Nat) (q : Double) (D : Double → Double) (bClean : Bool),
          forwardCouponBond fuel q 1 10000000000000000 (fun u => some (D u)) bClean 0 = none
            ∧ forwardAnnuity fuel q 1 10000000000000000 (fun u => some (D u)) bClean 0 = none)
      ∧ ⌈((1 : Double).val - (6 / 10 : Double).val) / (1 / 10 : Double).val⌉₊ = 4
      ∧ (∀ bClean,
          forwardCouponBond 4 (1 : Double) (1 / 10) 1 (fun _ => some 1) bClean (6 / 10) = none
            ∧ forwardAnnuity 4 (1 : Double) (1 / 10) 1 (fun _ => some 1) bClean (6 / 10) = none)
      ∧ (∀ n, forwardCouponBond (5 + n) (1 : Double) (1 / 10) 1 (fun _ => some 1) false (6 / 10)
            = some (3 / 2)
          ∧ forwardAnnuity (5 + n) (1 : Double) (1 / 10) 1 (fun _ => some 1) false (6 / 10)
            = some (1 / 2)) := by
  refine ⟨by decide!, fun fuel q D bClean => ?_, by decide!, by decide!, fun n => ⟨?_, ?_⟩⟩
  · have hloop : whileLoop (fun s : Double × Double => decide (s.1 > 0))
        (fun s => do let d ← (fun u => some (D u)) s.1; pure (s.1 - 1, s.2 + d)) fuel
        (10000000000000000, 0) = none := by
      refine whileLoop_none_of_invariant _ _ (fun s => s.1 = 10000000000000000) ?_ ?_ fuel _ rfl
      · intro s hs
        rw [hs]
        decide!
      · intro s s1 hs hb
        simp only [Option.bind_eq_bind, Option.some_bind, Option.pure_def, Option.some.injEq]
          at hb
        rw [← hb, hs]
        show (10000000000000000 : Double) - 1 = 10000000000000000
        decide!
    exact ⟨forwardCouponBond_none_of_loop fuel q 1 _ _ bClean 0 hloop,
      forwardAnnuity_none_of_loop fuel q 1 _ _ bClean 0 hloop⟩
  · exact forwardCouponBond_add_fuel 5 n _ _ _ _ _ _ _ (by decide!)
  · exact forwardAnnuity_add_fuel 5 n _ _ _ _ _ _ _ (by decide!)

/-- C17: in double arithmetic the forward swap rate does not price the coupon bond at par.
For `δ = 0.1`, `N = 3`, `t = 0` and the discount curve `D(u) = 1 / (1 + u)` the rate is
`R = 0.9187...`; the maturity `t + N * δ` is the double `0.30000000000000004`, from which
three subtractions of `0.1` leave `2.8e-17 > 0`, so that three iterations do not end the
loop of the bond and the fourth adds a fourth coupon: the dirty price is `1.0918...`. -/
theorem forwardSwapRate_not_par_double :
    forwardSwapRate (1 / 10 : Double) 3 (fun u => some (1 / (1 + u))) 0
        = some (Double.ofRat (8275756159808433 / 9007199254740992))
      ∧ (0 : Double) + ((3 : Nat) : Double) * (1 / 10)
        = Double.ofRat (1351079888211149 / 4503599627370496)
      ∧ (0 : Double) + ((3 : Nat) : Double) * (1 / 10) - 1 / 10 - 1 / 10 - 1 / 10 > 0
      ∧ forwardCouponBond 3 (Double.ofRat (8275756159808433 / 9007199254740992)) (1 / 10)
          (0 + ((3 : Nat) : Double) * (1 / 10)) (fun u => some (1 / (1 + u))) false 0 = none
      ∧ (∀ n, forwardCouponBond (4 + n) (Double.ofRat (8275756159808433 / 9007199254740992))
          (1 / 10) (0 + ((3 : Nat) : Double) * (1 / 10)) (fun u => some (1 / (1 + u))) false 0
          = some (Double.ofRat (2458693717680459 / 2251799813685248)))
      ∧ (1 : Double) + 9 / 100 < Double.ofRat (2458693717680459 / 2251799813685248) := by
  refine ⟨by decide!, by decide!, by decide!, by decide!, fun n => ?_, by decide!⟩
  exact forwardCouponBond_add_fuel 4 n _ _ _ _ _ _ _ (by decide!)

/-! ## Volatility from variance in double arithmetic -/

section
variable {β : Type} [One β] [Add β] [Sub β] [Div β] [NatCast β] [LE β]
  [DecidableRel (fun a b : β => a ≤ b)] [DecidableEq β]

theorem volatilityVar_initial (sqrt : β → β) (rVar : Curve β) (t0 v : β) (h0 : t0 ≥ t0)
    (hv : rVar (t0 + EPS) = some v) :
    volatilityVar sqrt rVar t0 t0 = some (sqrt (v / EPS)) := by
  simp [volatilityVar, PRECONDITION_pos h0, hv]

end

/-- C34: in double arithmetic `volatilityVar(V, t0)(t0)` is not `S(t0 + EPS)`.  The code
divides `V(t0 + EPS)` by `EPS`, and the sum `t0 + EPS` is rounded.  On the input of the
repository's test, `t0 = 0.75` and `S(t) = 0.25 * (1 + (t - t0))`, the code returns the
square root of `0.0625000051...`, where `S(t0 + EPS)^2` is `0.0625000000125`: the
quotient of the two exceeds `1 + 8e-8`.  For `t0 = 10^7` and `S = 0.2` the sum `t0 + EPS` is
`t0`, the variance there is 0 and the code returns the square root of 0. -/
theorem volatilityVar_at_initial_time_double (sqrt : Double → Double) :
    volatilityVar sqrt
          (test.volatilityVar.uVar (3 / 4) (test.volatilityVar.uVol (1 / 4) (3 / 4)))
          (3 / 4) (3 / 4)
        = some (sqrt (Double.ofRat (281475000056295 / 4503599627370496)))
      ∧ test.volatilityVar.uVol (1 / 4) (3 / 4) (3 / 4 + EPS)
            * test.volatilityVar.uVol (1 / 4) (3 / 4) (3 / 4 + EPS)
        = Double.ofRat (281474976766951 / 4503599627370496)
      ∧ (Double.ofRat (281474976766951 / 4503599627370496)).val * (1 + 8 / 100000000)
        < (Double.ofRat (281475000056295 / 4503599627370496)).val
      ∧ (10000000 : Double) + EPS = 10000000
      ∧ volatilityVar sqrt (fun u => some (1 / 5 * (1 / 5) * (u - 10000000))) 10000000 10000000
        = some (sqrt 0) := by
  refine ⟨?_, by decide!, by decide!, by decide!, ?_⟩
  · rw [volatilityVar_initial sqrt _ (3 / 4)
      (Double.ofRat (7737125887253665 / 1237940039285380274899124224)) (by decide!)
      (by decide!)]
    rw [show Double.ofRat (7737125887253665 / 1237940039285380274899124224) / EPS
      = Double.ofRat (281475000056295 / 4503599627370496) by decide!]
  · rw [volatilityVar_initial sqrt _ 10000000 0 (by decide!) (by decide!)]
    rw [show (0 : Double) / EPS = 0 by decide!]

/-! ## The shape functions in double arithmetic -/

section
variable {β : Type} [Zero β] [One β] [Add β] [Sub β] [Mul β] [Div β] [Neg β] [NatCast β]
  [LT β] [LE β] [DecidableRel (fun a b : β => a < b)] [DecidableRel (fun a b : β => a ≤ b)]

theorem prepExam_shape1_of_gt (exp : β → β) (x : β) (h0 : x ≥ 0) (hx : x > EPS) :
    prepExam.shape1 exp x = some ((1 - exp (-x)) / x) := by
  simp [prepExam.shape1, PRECONDITION_pos h0, hx]

theorem prepExam_shape1_of_not_gt (exp : β → β) (x : β) (h0 : x ≥ 0) (hx : ¬ x > EPS) :
    prepExam.shape1 exp x = some (1 - x / 2 + x * x / 6) := by
  simp [prepExam.shape1, PRECONDITION_pos h0, hx]

theorem shape2_of_gt (exp : β → β) (x : β) (h0 : x ≥ 0) (hx : x > EPS) :
    shape2 exp x = some ((1 - exp (-x) * (1 + x)) / x) := by
  simp [shape2, PRECONDITION_pos h0, hx]

theorem shape2_of_not_gt (exp : β → β) (x : β) (h0 : x ≥ 0) (hx : ¬ x > EPS) :
    shape2 exp x = some (x / 2 - x * x / 3) := by
  simp [shape2, PRECONDITION_pos h0, hx]

end

theorem exp_neg_rat_bounds (x : ℚ) (h0 : 0 ≤ x) (h1 : x ≤ 1) :
    ((1 - x : ℚ) : ℝ) ≤ Real.exp (-(x : ℝ)) ∧ Real.exp (-(x : ℝ)) ≤ ((1 - x + x ^ 2 : ℚ) : ℝ) := by
  have hx0 : (0 : ℝ) ≤ (x : ℝ) := by exact_mod_cast h0
  have hx1 : ((x : ℝ)) ≤ 1 := by exact_mod_cast h1
  have h := Real.add_one_le_exp (-(x : ℝ))
  have h2 := @Real.abs_exp_sub_one_sub_id_le (-(x : ℝ))
    (by rw [abs_neg, abs_of_nonneg hx0]; exact hx1)
  have h3 := (abs_le.1 h2).2
  push_cast
  constructor
  · linarith
  · nlinarith

theorem exp_neg_near (e x : ℚ) (h0 : 0 ≤ x) (h1 : x ≤ 1) (r : ℚ) (hlo : e - (1 - x) < r)
    (hhi : 1 - x + x ^ 2 - e < r) : |(e : ℝ) - Real.exp (-(x : ℝ))| < (r : ℝ) := by
  obtain ⟨ha, hb⟩ := exp_neg_rat_bounds x h0 h1
  have hlo1 : ((e - (1 - x) : ℚ) : ℝ) < (r : ℝ) := by exact_mod_cast hlo
  have hhi1 : ((1 - x + x ^ 2 - e : ℚ) : ℝ) < (r : ℝ) := by exact_mod_cast hhi
  push_cast at ha hb hlo1 hhi1
  rw [abs_lt]
  constructor <;> linarith

/-- C40: in double arithmetic `shape1` leaves the range `(0, 1]` and is 1 away from 0.  At
`x = 1e-17` the Taylor branch returns exactly 1.  At `x = 1.001e-10`, just above `EPS`, the
closed form loses its digits by cancellation: the double nearest to `exp(-x)` is
`1 - 901621 * 2^-53`, and with this value of `std::exp` the code returns
`(1 - exp(-x)) / x = 1.00000039...`; `volatilityBlack(1, 1, 0)` then returns
`1 * sqrt(1.00000039...)` at `t = x / 2`, above `sigma = 1`. -/
theorem shape1_exceeds_one_double (exp sqrt : Double → Double)
    (hexp : exp (-(1001 / 10000000000000)) = Double.ofRat (9007199253839371 / 9007199254740992)) :
    (prepExam.shape1 exp (1 / 100000000000000000) = some 1
        ∧ (1 / 100000000000000000 : Double) ≠ 0)
      ∧ |(((Double.ofRat (9007199253839371 / 9007199254740992)).val : ℚ) : ℝ)
          - Real.exp (-(((1001 / 10000000000000 : Double).val : ℚ) : ℝ))| < 1 / 2 ^ 54
      ∧ prepExam.shape1 exp (1001 / 10000000000000)
          = some (Double.ofRat (4503601398601399 / 4503599627370496))
      ∧ (1 : Double) + 3 / 10000000 < Double.ofRat (4503601398601399 / 4503599627370496)
      ∧ ∃ f, volatilityBlack exp sqrt 1 1 0 = some f
          ∧ f (1001 / 10000000000000 / 2)
            = some (1 * sqrt (Double.ofRat (4503601398601399 / 4503599627370496))) := by
  have hs : prepExam.shape1 exp (1001 / 10000000000000)
      = some (Double.ofRat (4503601398601399 / 4503599627370496)) := by
    rw [prepExam_shape1_of_gt exp _ (by decide!) (by decide!), hexp]
    decide!
  refine ⟨⟨?_, by decide!⟩, ?_, hs, by decide!, ?_⟩
  · rw [prepExam_shape1_of_not_gt exp _ (by decide!) (by decide!)]
    decide!
  · have he : (Double.ofRat (9007199253839371 / 9007199254740992)).val
        = 9007199253839371 / 9007199254740992 := by decide!
    have hx : (1001 / 10000000000000 : Double).val
        = 968107796347395 / 9671406556917033397649408 := by decide!
    rw [he, hx]
    have h := exp_neg_near (9007199253839371 / 9007199254740992)
      (968107796347395 / 9671406556917033397649408) (by norm_num) (by norm_num) (1 / 2 ^ 54)
      (by norm_num) (by norm_num)
    have h2 : ((1 / 2 ^ 54 : ℚ) : ℝ) = 1 / 2 ^ 54 := by norm_num
    rw [← h2]
    exact_mod_cast h
  · simp only [volatilityBlack, PRECONDITION_pos (by decide! : (1 : Double) ≥ 0),
      PRECONDITION_pos (by decide! : (1 : Double) > 0), Option.bind_eq_bind, Option.some_bind,
      Option.pure_def]
    refine ⟨_, rfl, ?_⟩
    simp only [PRECONDITION_pos (by decide! : (1001 / 10000000000000 / 2 : Double) ≥ 0),
      Option.some_bind]
    rw [show (2 : Double) * (1 * (1001 / 10000000000000 / 2 - 0)) = 1001 / 10000000000000
      by decide!, hs]
    rfl


/-- Witness of C40: the function that is constantly the double nearest to
`exp(-1.001e-10)`. -/
theorem shape1_exceeds_one_double_witness :
    prepExam.shape1 (fun _ => Double.ofRat (9007199253839371 / 9007199254740992))
        (1001 / 10000000000000)
      = some (Double.ofRat (4503601398601399 / 4503599627370496)) :=
  (shape1_exceeds_one_double (fun _ => Double.ofRat (9007199253839371 / 9007199254740992))
    (fun x => x) rfl).2.2.1

/-- C29: in double arithmetic `shape2` jumps by more than `1e-6` across `x = EPS`.  At
`x = EPS` the Taylor branch returns `4.9999999996...e-11`.  At `x = 1.00001e-10`, less than
`1e-15` above `EPS`, the closed form loses its digits by cancellation: the double nearest to
`exp(-x)` is `1 - 900729 * 2^-53`, and with this value of `std::exp` the product
`exp(-x) * (1 + x)` rounds to `1 - 2^-53`, so that the code returns `2^-53 / x = 1.11e-6`. -/
theorem shape2_jump_double (exp : Double → Double)
    (hexp : exp (-(100001 / 1000000000000000))
      = Double.ofRat (9007199253840263 / 9007199254740992)) :
    ((EPS : Double) < 100001 / 1000000000000000
        ∧ (100001 / 1000000000000000 : Double).val - (EPS : Double).val < 1 / 10 ^ 15)
      ∧ |(((Double.ofRat (9007199253840263 / 9007199254740992)).val : ℚ) : ℝ)
          - Real.exp (-(((100001 / 1000000000000000 : Double).val : ℚ) : ℝ))| < 1 / 2 ^ 54
      ∧ shape2 exp EPS = some (Double.ofRat (7737125245017819 / 154742504910672534362390528))
      ∧ Double.ofRat (9007199253840263 / 9007199254740992) * (1 + 100001 / 1000000000000000)
          = Double.ofRat (9007199254740991 / 9007199254740992)
      ∧ shape2 exp (100001 / 1000000000000000)
          = some (Double.ofRat (5242827571724283 / 4722366482869645213696))
      ∧ (Double.ofRat (7737125245017819 / 154742504910672534362390528)).val + 1 / 1000000
          < (Double.ofRat (5242827571724283 / 4722366482869645213696)).val := by
  refine ⟨by decide!, ?_, ?_, by decide!, ?_, by decide!⟩
  · have he : (Double.ofRat (9007199253840263 / 9007199254740992)).val
        = 9007199253840263 / 9007199254740992 := by decide!
    have hx : (100001 / 1000000000000000 : Double).val
        = 3868601308393041 / 38685626227668133590597632 := by decide!
    rw [he, hx]
    have h := exp_neg_near (9007199253840263 / 9007199254740992)
      (3868601308393041 / 38685626227668133590597632) (by norm_num) (by norm_num) (1 / 2 ^ 54)
      (by norm_num) (by norm_num)
    have h2 : ((1 / 2 ^ 54 : ℚ) : ℝ) = 1 / 2 ^ 54 := by norm_num
    rw [← h2]
    exact_mod_cast h
  · rw [shape2_of_not_gt exp _ (by decide!) (by decide!)]
    decide!
  · rw [shape2_of_gt exp _ (by decide!) (by decide!), hexp]
    decide!

/-- Witness of C29: the function that is constantly the double nearest to
`exp(-1.00001e-10)`. -/
theorem shape2_jump_double_witness :
    shape2 (fun _ => Double.ofRat (9007199253840263 / 9007199254740992))
        (100001 / 1000000000000000)
      = some (Double.ofRat (5242827571724283 / 4722366482869645213696)) :=
  (shape2_jump_double (fun _ => Double.ofRat (9007199253840263 / 9007199254740992))
    rfl).2.2.2.2.1

end vega
